import Mathlib

/-!
# Manual clock of `agext/clocks`: embedding and verified properties

Shallow embedding of `manualclock/events.go` and `manualclock/manualclock.go`.

* `time.Time` and `time.Duration` are integers (nanoseconds); `t.Add(d)` is `t + d`
  and `t.After(u)` is `u < t`.  No `int64` wrap-around is modelled: a `time.Time`
  carries 64-bit seconds, far beyond any sum of durations used here.
* Event records live in a heap indexed by allocation number (the Go pointer);
  `events` and `newEvents` are lists of such pointers.
* The capacity-1 channel of an event is an `Option Time`.
* Consumer code (callbacks run by `play`, goroutines woken by a delivery and
  observed by `wp.Wait()`) is a reactor: a function that, given the index of the
  firing step and the clock state right after `play`, returns the handle
  operations the consumers perform before the advance continues.
* `sort.Sort` belongs to the Go standard library; it is taken as a parameter
  (`Sorter`) specified as "returns a permutation that is ordered by `Less`".
* `Set` may loop forever, so the loop takes fuel and returns an `Outcome`.
  Slice reads are checked and yield `Outcome.outOfRange` where Go would fail
  with an index error.
-/

namespace Clocks

/-- Virtual time: `time.Time` as integer nanoseconds. -/
abbrev Time := Int

/-- Length of time: `time.Duration` as integer nanoseconds. -/
abbrev Duration := Int

/-- Go `t.After(u)`. -/
def After (t u : Time) : Bool := decide (u < t)

/-- Record type `event` of events.go.  `c` is the capacity-1 channel (`none` when
empty), `fn` says whether an AfterFunc function is attached (`e.fn != nil`). -/
structure event where
  c : Option Time
  next : Time
  d : Duration
  fn : Bool
  stopped : Bool
  removed : Bool
deriving DecidableEq, Repr

/-- One observed delivery: the record that `play` fired, the timestamp handed to `play`
(the value sent on the channel), and the reading of the clock at that moment (what a
callback or woken consumer gets from `Now()`). -/
structure Delivery where
  ev : Nat
  stamp : Time
  clock : Time
deriving DecidableEq, Repr

/-- Struct `manualClock` of manualclock.go, the mutexes apart.  `heap` and `nalloc`
stand for the Go heap of event records; `log` is an observation log that records
every delivery in order (it is not a field of the Go struct). -/
structure manualClock where
  now : Time
  events : List Nat
  newEvents : List Nat
  heap : Nat → event
  nalloc : Nat
  log : List Delivery

/-- Handle operations available to consumer code. -/
inductive Op where
  | stop (i : Nat)
  | reset (i : Nat) (d : Duration)
  | newTimer (d : Duration)
  | afterFunc (d : Duration)
  | newTicker (d : Duration)
  | recv (i : Nat)
deriving DecidableEq, Repr

/-- Consumer behaviour during an advance: step index and state after `play` give the
operations performed before the advance goes on. -/
abbrev Reactor := Nat → manualClock → List Op

/-- Result of running code that may loop or index out of range. -/
inductive Outcome (α : Type) where
  | done (a : α)
  | outOfRange
  | timeout

/-- The standard-library `sort.Sort` on an `events` slice, as far as it is specified:
given the sort keys (`Next()` of each record) it returns a permutation of the slice in
which no element is `Less` than an earlier one, that is, keys are non-increasing. -/
structure Sorter where
  run : (Nat → Time) → List Nat → List Nat
  perm : ∀ key l, (run key l).Perm l
  sorted : ∀ key l, (run key l).Pairwise (fun a b => key b ≤ key a)

/-- Insertion step of insertion sort by `events.Less` (later fire time first): `a` is
placed before the first element whose fire time is not after its own. -/
def insertDesc (key : Nat → Time) (a : Nat) : List Nat → List Nat
  | [] => [a]
  | b :: l => if key b ≤ key a then a :: b :: l else b :: insertDesc key a l

/-- Stable insertion sort into descending key order (what `sort.Sort` does on short slices). -/
def insertionSortDesc (key : Nat → Time) : List Nat → List Nat
  | [] => []
  | a :: l => insertDesc key a (insertionSortDesc key l)

/-- Go `event.Next`. -/
def event.Next (e : event) : Time := e.next

/-- Go `event.Stopped`. -/
def event.Stopped (e : event) : Bool := e.stopped

/-- Go `event.play` on the record itself: nothing when stopped; otherwise reschedule a
repeating event or mark a one-shot stopped, then run `f`, which for a record without
`fn` is the non-blocking send of `now` on the channel. -/
def event.play (e : event) (now : Time) : event :=
  if e.Stopped then e
  else
    let e1 : event := if e.d ≠ 0 then { e with next := now + e.d } else { e with stopped := true }
    if e.fn then e1
    else
      match e1.c with
      | none => { e1 with c := some now }
      | some _ => e1

/-- Go `e.play(now)` for the record at pointer `i`, with the delivery logged. -/
def manualClock.play (mc : manualClock) (i : Nat) (now : Time) : manualClock :=
  if (mc.heap i).Stopped then mc
  else { mc with heap := Function.update mc.heap i ((mc.heap i).play now),
                 log := mc.log ++ [{ ev := i, stamp := now, clock := mc.now }] }

/-- Go `Timer.Stop`: new record and returned flag. -/
def Timer.Stop (t : event) : event × Bool :=
  ({ t with stopped := true }, !t.stopped)

/-- Go `Ticker.Stop`. -/
def Ticker.Stop (t : event) : event :=
  { t with stopped := true }

/-- Go `manualClock.Now`. -/
def manualClock.Now (mc : manualClock) : Time := mc.now

/-- Go `manualClock.addEvent`. -/
def manualClock.addEvent (mc : manualClock) (i : Nat) : manualClock :=
  { mc with newEvents := mc.newEvents ++ [i] }

/-- Go `Timer.Reset` on the record at pointer `i`: new clock state and returned flag. -/
def Timer.Reset (mc : manualClock) (i : Nat) (d : Duration) : manualClock × Bool :=
  let t := mc.heap i
  let t1 : event := { t with next := mc.Now + d }
  let active := !t1.stopped
  let t2 : event := { t1 with stopped := false }
  if t2.removed then
    let mc1 := mc.addEvent i
    ({ mc1 with heap := Function.update mc1.heap i { t2 with removed := false } }, active)
  else
    ({ mc with heap := Function.update mc.heap i t2 }, active)

/-- Go `manualClock.NewTimer`: new clock state and the pointer of the new timer. -/
def manualClock.NewTimer (mc : manualClock) (d : Duration) : manualClock × Nat :=
  let i := mc.nalloc
  let t : event :=
    { c := none, next := mc.Now + d, d := 0, fn := false, stopped := false, removed := false }
  (({ mc with heap := Function.update mc.heap i t, nalloc := i + 1 }).addEvent i, i)

/-- Go `manualClock.AfterFunc`: a timer whose `fn` is set. -/
def manualClock.AfterFunc (mc : manualClock) (d : Duration) : manualClock × Nat :=
  let r := mc.NewTimer d
  ({ r.1 with heap := Function.update r.1.heap r.2 { r.1.heap r.2 with fn := true } }, r.2)

/-- Go `manualClock.NewTicker`. -/
def manualClock.NewTicker (mc : manualClock) (d : Duration) : manualClock × Nat :=
  let i := mc.nalloc
  let t : event :=
    { c := none, next := mc.Now + d, d := d, fn := false, stopped := false, removed := false }
  (({ mc with heap := Function.update mc.heap i t, nalloc := i + 1 }).addEvent i, i)

/-- Receive from the channel of record `i` when it holds a value (`<-t.C()`). -/
def manualClock.recv (mc : manualClock) (i : Nat) : manualClock :=
  { mc with heap := Function.update mc.heap i { mc.heap i with c := none } }

/-- One handle operation.  A consumer only holds handles of allocated records, so an
operation on a pointer that was never allocated does nothing.  `stop` stands for both
`Timer.Stop` and `Ticker.Stop`, which change the record in the same way. -/
def applyOp (mc : manualClock) : Op → manualClock
  | .stop i =>
    if i < mc.nalloc then
      { mc with heap := Function.update mc.heap i (Timer.Stop (mc.heap i)).1 }
    else mc
  | .reset i d => if i < mc.nalloc then (Timer.Reset mc i d).1 else mc
  | .newTimer d => (mc.NewTimer d).1
  | .afterFunc d => (mc.AfterFunc d).1
  | .newTicker d => (mc.NewTicker d).1
  | .recv i => if i < mc.nalloc then mc.recv i else mc

/-- A sequence of handle operations, in order. -/
def runOps (mc : manualClock) : List Op → manualClock
  | [] => mc
  | o :: os => runOps (applyOp mc o) os

/-- The lines `mc.events = append(mc.events, mc.newEvents...); mc.newEvents = mc.newEvents[:0]`. -/
def manualClock.merge (mc : manualClock) : manualClock :=
  { mc with events := mc.events ++ mc.newEvents, newEvents := [] }

/-- Checked read `evs[i]`. -/
def evAt (evs : List Nat) (i : Int) : Option Nat :=
  if i < 0 then none else evs[i.toNat]?

/-- Checked slice `evs[:i]`. -/
def sliceTo (evs : List Nat) (i : Int) : Option (List Nat) :=
  if 0 ≤ i ∧ i ≤ evs.length then some (evs.take i.toNat) else none

/-- Checked in-place `sort.Sort(evs[last:])`. -/
def sortFrom (srt : Sorter) (key : Nat → Time) (evs : List Nat) (last : Nat) :
    Option (List Nat) :=
  if last ≤ evs.length then some (evs.take last ++ srt.run key (evs.drop last)) else none

/-- The loop `for last <= first && mc.events[last].Next().After(now) { last++ }`;
`rest` is `mc.events[last:]`, so its head is `mc.events[last]`.  `none` is an index
out of range. -/
def scanLast (key : Nat → Time) (now : Time) (first : Int) : List Nat → Nat → Option Nat
  | [], last => if (last : Int) ≤ first then none else some last
  | i :: rest, last =>
    if (last : Int) ≤ first then
      if After (key i) now then scanLast key now first rest (last + 1) else some last
    else some last

/-- Sort keys of the registry: `Next()` of each record. -/
def manualClock.key (mc : manualClock) : Nat → Time := fun i => (mc.heap i).Next

/-- Lines 93-98 of manualclock.go: a stopped `e` is cut off the tail and marked removed. -/
def dropStopped (mc : manualClock) (e : Nat) (first : Int) : Option manualClock :=
  if (mc.heap e).Stopped then
    match sliceTo mc.events first with
    | none => none
    | some evs =>
      some { mc with events := evs,
                     heap := Function.update mc.heap e { mc.heap e with removed := true } }
  else some mc

/-- Lines 86-91 of manualclock.go: virtual time is moved to the scheduled time of `e`,
then `e` is played with that time. -/
def manualClock.fire (mc : manualClock) (e : Nat) : manualClock :=
  let next := (mc.heap e).Next
  ({ mc with now := next }).play e next

/-- The firing loop of `Set` (manualclock.go lines 85-118), entered with
`e = mc.events[first]`.  `k` counts the firing steps of this advance. -/
def Set.loop (srt : Sorter) (react : Reactor) (now : Time) :
    Nat → Nat → manualClock → Nat → Int → Outcome manualClock
  | 0, _, _, _, _ => .timeout
  | fuel + 1, k, mc, last, first =>
    match evAt mc.events first with
    | none => .outOfRange
    | some e =>
      if After (mc.heap e).Next now then .done mc
      else
        let mc1 := mc.fire e
        let mc2 := runOps mc1 (react k mc1)
        match dropStopped mc2 e first with
        | none => .outOfRange
        | some mc3 =>
          let mc4 := mc3.merge
          let first1 : Int := (mc4.events.length : Int) - 1
          if first1 < 0 then .done mc4
          else
            match sortFrom srt mc4.key mc4.events last with
            | none => .outOfRange
            | some evs =>
              let mc5 := { mc4 with events := evs }
              match scanLast mc5.key now first1 (mc5.events.drop last) last with
              | none => .outOfRange
              | some last1 =>
                if (last1 : Int) > first1 then .done mc5
                else Set.loop srt react now fuel (k + 1) mc5 last1 first1

/-- The deferred assignment `mc.now = now` of `Set`. -/
def setNow (now : Time) : Outcome manualClock → Outcome manualClock
  | .done mc => .done { mc with now := now }
  | .outOfRange => .outOfRange
  | .timeout => .timeout

/-- Go `manualClock.Set`. -/
def manualClock.Set (srt : Sorter) (react : Reactor) (fuel : Nat) (mc : manualClock)
    (now : Time) : Outcome manualClock :=
  setNow now <|
    let mc1 := mc.merge
    if mc1.events.length = 0 then .done mc1
    else
      let mc2 := { mc1 with events := srt.run mc1.key mc1.events }
      let first : Int := (mc2.events.length : Int) - 1
      match scanLast mc2.key now first mc2.events 0 with
      | none => .outOfRange
      | some last =>
        if (last : Int) > first then .done mc2
        else Set.loop srt react now fuel 0 mc2 last first

/-- Go `manualClock.Add`. -/
def manualClock.Add (srt : Sorter) (react : Reactor) (fuel : Nat) (mc : manualClock)
    (d : Duration) : Outcome manualClock :=
  mc.Set srt react fuel (mc.Now + d)

/-- A fresh clock reading `t0` (`New()` followed by `Set(t0)`). -/
def manualClock.fresh (t0 : Time) : manualClock :=
  { now := t0, events := [], newEvents := [], nalloc := 0, log := [],
    heap := fun _ => { c := none, next := 0, d := 0, fn := false, stopped := false,
                       removed := false } }

/-- No consumer reacts. -/
def quiet : Reactor := fun _ _ => []

/-- The value of a finished run, `a` otherwise. -/
def Outcome.getD {α : Type} (o : Outcome α) (a : α) : α :=
  match o with
  | .done b => b
  | _ => a

/-- One call made by the test driver: an advance, with the behaviour of the consumers during
it, or a handle operation between advances. -/
inductive Cmd where
  | set (t : Time) (react : Reactor)
  | add (d : Duration) (react : Reactor)
  | op (o : Op)

/-- A sequence of driver calls, in order. -/
def runCmds (srt : Sorter) (fuel : Nat) : manualClock → List Cmd → Outcome manualClock
  | mc, [] => .done mc
  | mc, .set t react :: cs =>
    match mc.Set srt react fuel t with
    | .done mc1 => runCmds srt fuel mc1 cs
    | .outOfRange => .outOfRange
    | .timeout => .timeout
  | mc, .add d react :: cs =>
    match mc.Add srt react fuel d with
    | .done mc1 => runCmds srt fuel mc1 cs
    | .outOfRange => .outOfRange
    | .timeout => .timeout
  | mc, .op o :: cs => runCmds srt fuel (applyOp mc o) cs

/-- The delivery of record `i` at time `t`: sent with timestamp `t` while the clock reads `t`. -/
def delivered (i : Nat) (t : Time) : Delivery := { ev := i, stamp := t, clock := t }

/-- The first `n` ticks of record `i` when the first one is due at `nx` and they are `d`
apart: deliveries at `nx`, `nx + d`, ..., `nx + (n - 1) * d`, in this order. -/
def ticks (i : Nat) (nx : Time) (d : Duration) (n : Nat) : List Delivery :=
  (List.range n).map (fun (j : Nat) => delivered i (nx + (j : Int) * d))

/-- The deliveries of record `i` in a log. -/
def firedOf (i : Nat) (log : List Delivery) : List Delivery :=
  log.filter (fun x => decide (x.ev = i))

/-- Stable insertion sort as a `Sorter`. -/
def insertionSorter : Sorter where
  run := insertionSortDesc
  perm := by
    intro key l
    have h : ∀ (a : Nat) (m : List Nat), (insertDesc key a m).Perm (a :: m) := by
      intro a m
      induction m with
      | nil => exact List.Perm.refl _
      | cons b m ihm =>
        unfold insertDesc
        split
        · exact List.Perm.refl _
        · exact (List.Perm.cons b ihm).trans (List.Perm.swap a b m)
    induction l with
    | nil => exact List.Perm.refl _
    | cons a l ih => exact (h a _).trans (List.Perm.cons a ih)
  sorted := by
    intro key l
    have hp : ∀ (a : Nat) (m : List Nat), (insertDesc key a m).Perm (a :: m) := by
      intro a m
      induction m with
      | nil => exact List.Perm.refl _
      | cons b m ihm =>
        unfold insertDesc
        split
        · exact List.Perm.refl _
        · exact (List.Perm.cons b ihm).trans (List.Perm.swap a b m)
    have h : ∀ (a : Nat) (m : List Nat), m.Pairwise (fun x y => key y ≤ key x) →
        (insertDesc key a m).Pairwise (fun x y => key y ≤ key x) := by
      intro a m
      induction m with
      | nil => intro _; simp [insertDesc]
      | cons b m ihm =>
        intro hm
        unfold insertDesc
        split
        · rename_i hba
          refine List.Pairwise.cons ?_ hm
          intro y hy
          rcases List.mem_cons.1 hy with rfl | hy
          · exact hba
          · exact le_trans (List.rel_of_pairwise_cons hm hy) hba
        · rename_i hba
          refine List.Pairwise.cons ?_ (ihm (List.Pairwise.of_cons hm))
          intro y hy
          rcases List.mem_cons.1 ((hp a m).subset hy) with rfl | hy
          · exact le_of_lt (not_le.1 hba)
          · exact List.rel_of_pairwise_cons hm hy
    induction l with
    | nil => exact List.Pairwise.nil
    | cons a l ih => exact h a _ ih

/-- Lines 86-102 in list terms: fire the tail record `e`, let the consumers react, cut a
stopped `e` off the tail, merge the buffer. -/
def tailStep (react : Reactor) (k : Nat) (mc : manualClock) (e : Nat) : manualClock :=
  let mc1 := mc.fire e
  let mc2 := runOps mc1 (react k mc1)
  let mc3 : manualClock :=
    if (mc2.heap e).Stopped then
      { mc2 with events := mc2.events.dropLast,
                 heap := Function.update mc2.heap e { mc2.heap e with removed := true } }
    else mc2
  mc3.merge

/-- Line 109 in list terms: the slice from `last` on is sorted in place. -/
def resort (srt : Sorter) (mc : manualClock) (last : Nat) : manualClock :=
  { mc with events := mc.events.take last ++ srt.run mc.key (mc.events.drop last) }

/-- Lines 111-113 in list terms: `last` moves past the leading records that are not due. -/
def newLast (now : Time) (mc : manualClock) (last : Nat) : Nat :=
  last + ((mc.events.drop last).takeWhile (fun i => After (mc.key i) now)).length

/-- State of the registry each time the firing loop is entered: `last` is a valid index,
the slice from `last` on is in descending order of fire time and all of it is due, and
the buffer is empty. -/
def Head (now : Time) (mc : manualClock) (last : Nat) : Prop :=
  last < mc.events.length ∧
  (mc.events.drop last).Pairwise (fun a b => mc.key b ≤ mc.key a) ∧
  (∀ i ∈ mc.events.drop last, mc.key i ≤ now) ∧
  mc.newEvents = []

/-- The record with its channel emptied: everything but the channel contents. -/
def event.noChan (e : event) : event := { e with c := none }

/-- `o` is a `Stop` on record `i`. -/
def Op.stops (o : Op) (i : Nat) : Bool :=
  match o with
  | .stop j => decide (j = i)
  | _ => false

/-- `o` is a `Reset` on record `i`. -/
def Op.resets (o : Op) (i : Nat) : Bool :=
  match o with
  | .reset j _ => decide (j = i)
  | _ => false

/-- `o` is a receive from the channel of record `i`. -/
def Op.recvs (o : Op) (i : Nat) : Bool :=
  match o with
  | .recv j => decide (j = i)
  | _ => false

/-- The duration argument of `o` is not negative. -/
def Op.nonneg (o : Op) : Prop :=
  match o with
  | .reset _ d => 0 ≤ d
  | .newTimer d => 0 ≤ d
  | .afterFunc d => 0 ≤ d
  | .newTicker d => 0 ≤ d
  | _ => True

/-- The consumers never stop or reset record `i` during the advance. -/
def Reactor.leaves (react : Reactor) (i : Nat) : Prop :=
  ∀ k mc, ∀ o ∈ react k mc, o.stops i = false ∧ o.resets i = false

/-- The consumers never reset record `i` during the advance. -/
def Reactor.noReset (react : Reactor) (i : Nat) : Prop :=
  ∀ k mc, ∀ o ∈ react k mc, o.resets i = false

/-- The consumers never receive from the channel of record `i` during the advance. -/
def Reactor.noRecv (react : Reactor) (i : Nat) : Prop :=
  ∀ k mc, ∀ o ∈ react k mc, o.recvs i = false

/-- The consumers only use non-negative durations during the advance. -/
def Reactor.nonneg (react : Reactor) : Prop :=
  ∀ k mc, ∀ o ∈ react k mc, o.nonneg

/-- Record `i` is neither stopped nor reset by the call. -/
def Cmd.leaves (c : Cmd) (i : Nat) : Prop :=
  match c with
  | .set _ react => react.leaves i
  | .add _ react => react.leaves i
  | .op o => o.stops i = false ∧ o.resets i = false

/-- Record `i` is not reset by the call. -/
def Cmd.noReset (c : Cmd) (i : Nat) : Prop :=
  match c with
  | .set _ react => react.noReset i
  | .add _ react => react.noReset i
  | .op o => o.resets i = false

/-- The targets of the advances in a sequence of calls that starts when the clock reads
`now`: `Set(t)` goes to `t`, `Add(d)` to the reading left by the previous advance plus `d`. -/
def advTargets : Time → List Cmd → List Time
  | _, [] => []
  | _, .set t _ :: cs => t :: advTargets t cs
  | now, .add d _ :: cs => (now + d) :: advTargets (now + d) cs
  | now, .op _ :: cs => advTargets now cs

/-- `o` creates no record and resets none: it is a `Stop` or a receive. -/
def Op.passive (o : Op) : Bool :=
  match o with
  | .stop _ => true
  | .recv _ => true
  | _ => false

/-- The consumers create no record and reset none during the advance. -/
def Reactor.passive (react : Reactor) : Prop :=
  ∀ k mc, ∀ o ∈ react k mc, o.passive = true

/-- Number of firing steps a record can still take in an advance to `now`: none when it is
not due, one when it is stopped or one-shot, and one per tick up to `now` for a ticker. -/
def cost (now : Time) (e : event) : Nat :=
  if now < e.next then 0
  else if e.stopped = true ∨ e.d = 0 then 1
  else ((now - e.next) / e.d).toNat + 1

/-- Total of `cost` over a slice of the registry. -/
def dueCost (now : Time) (heap : Nat → event) (l : List Nat) : Nat :=
  (l.map (fun j => cost now (heap j))).sum

/-- A call whose advance is bound to end: passive consumers during an advance, a non-negative
duration in a handle operation. -/
def Cmd.tame (c : Cmd) : Prop :=
  match c with
  | .set _ react => react.passive
  | .add _ react => react.passive
  | .op o => o.nonneg

/-- State of a ticker `i` with first tick at `nx` and interval `d` after `n` ticks, when the
furthest time reached by the clock so far is `M`: the record is allocated, tracked and not
stopped, its next fire time is `nx + n * d`, its deliveries are those in `L0` followed by the
`n` ticks, and `M` lies between the last tick and the next one. -/
def TickerAt (i : Nat) (nx : Time) (d : Duration) (L0 : List Delivery) (mc : manualClock)
    (M : Time) (n : Nat) : Prop :=
  i < mc.nalloc ∧ i ∈ mc.events ++ mc.newEvents ∧
  (mc.heap i).next = nx + (n : Int) * d ∧ (mc.heap i).d = d ∧ (mc.heap i).stopped = false ∧
  firedOf i mc.log = L0 ++ ticks i nx d n ∧
  M < nx + (n : Int) * d ∧ (1 ≤ n → nx + ((n : Int) - 1) * d ≤ M)

/-- The reading of the clock after a sequence of calls that starts when it reads `now`. -/
def nowAfter (now : Time) (cmds : List Cmd) : Time :=
  ((advTargets now cmds).getLast?).getD now

/-- A fresh clock at time 0 with one timer: `NewTimer(1ms)`, in microseconds. -/
def timerClock : manualClock := ((manualClock.fresh 0).NewTimer 1000).1

/-- A fresh clock at time 0 with one ticker: `NewTicker(5ms)`, in milliseconds. -/
def tickerClock : manualClock := ((manualClock.fresh 0).NewTicker 5).1

/-- Consumers that receive every tick of record `i` as soon as it is sent. -/
def drain (i : Nat) : Reactor := fun _ _ => [Op.recv i]

/-- A fresh clock at time 0 with `A = AfterFunc(10, f)` (record 0) and `B = NewTimer(100)`
(record 1); `f` is `resetReactor`. -/
def resetClock : manualClock := (((manualClock.fresh 0).AfterFunc 10).1.NewTimer 100).1

/-- The function of `A`: at the first firing step it calls `B.Reset(1)`. -/
def resetReactor : Reactor := fun k _ => if k = 0 then [Op.reset 1 1] else []

/-- A fresh clock at time 0 with one ticker made by `NewTicker(-5)`. -/
def negClock : manualClock := ((manualClock.fresh 0).NewTicker (-5)).1

/-- Consumers that stop record 0 after its second tick. -/
def stopAfterTwo : Reactor := fun k _ => if k = 1 then [Op.stop 0] else []

/-- The reactor seen from firing step `k0` on: its step `k` is step `k + k0` of `react`. -/
def Reactor.shift (react : Reactor) (k0 : Nat) : Reactor := fun k mc => react (k + k0) mc

/-- In state `mc`, record `i` is next fired at `nx`, once: whatever calls follow that neither
stop nor reset it, those whose advances all end before `nx` make no delivery for it, the
first advance whose target is at or after `nx` delivers it once, stamped `nx`, and nothing
called after that delivers it again. -/
def FiresNextAt (srt : Sorter) (i : Nat) (nx : Time) (mc : manualClock) : Prop :=
  ∀ (fuel : Nat) (pre : List Cmd) (adv : Cmd) (post : List Cmd) (t : Time)
    (mcA mcB mcC : manualClock),
    (∀ c ∈ pre ++ adv :: post, c.leaves i) →
    (∀ u ∈ advTargets mc.Now pre, u < nx) →
    advTargets (nowAfter mc.Now pre) [adv] = [t] → nx ≤ t →
    runCmds srt fuel mc pre = .done mcA →
    runCmds srt fuel mcA [adv] = .done mcB →
    runCmds srt fuel mcB post = .done mcC →
    firedOf i mcA.log = firedOf i mc.log ∧
    firedOf i mcB.log = firedOf i mc.log ++ [delivered i nx] ∧
    firedOf i mcC.log = firedOf i mc.log ++ [delivered i nx]

/-- In state `mc`, record `i` is not fired any more: no sequence of calls that does not reset
it makes a delivery for it. -/
def FiresNoMore (srt : Sorter) (i : Nat) (mc : manualClock) : Prop :=
  ∀ (fuel : Nat) (cmds : List Cmd) (mc' : manualClock),
    (∀ c ∈ cmds, c.noReset i) → runCmds srt fuel mc cmds = .done mc' →
    firedOf i mc'.log = firedOf i mc.log

/-- Registry invariant: no pointer occurs twice in the active list followed by the buffer,
every pointer there is allocated, and an allocated record has its `removed` flag set exactly
when it occurs in neither. -/
def Reg (mc : manualClock) : Prop :=
  (mc.events ++ mc.newEvents).Nodup ∧
  (∀ i ∈ mc.events ++ mc.newEvents, i < mc.nalloc) ∧
  (∀ i, i < mc.nalloc → ((mc.heap i).removed = true ↔ i ∉ mc.events ++ mc.newEvents))

/-- Reference firing loop, from the words of the specification: after every fired record the
whole active list is sorted again and the due boundary is computed from scratch. -/
def SetRef.loop (srt : Sorter) (react : Reactor) (now : Time) :
    Nat → Nat → manualClock → Outcome manualClock
  | 0, _, _ => .timeout
  | fuel + 1, k, mc =>
    match mc.events.getLast? with
    | none => .done mc
    | some e =>
      let mc4 := tailStep react k mc e
      if mc4.events = [] then .done mc4
      else
        let mc5 := resort srt mc4 0
        if mc5.events.length ≤ newLast now mc5 0 then .done mc5
        else SetRef.loop srt react now fuel (k + 1) mc5

/-- Reference advance, from the words of the specification: merge the buffer, sort, fire
the soonest due record, and after each firing merge, sort the whole list and find the due
records anew, until none is due; then set the time to the target. -/
def SetRef (srt : Sorter) (react : Reactor) (fuel : Nat) (mc : manualClock) (now : Time) :
    Outcome manualClock :=
  setNow now <|
    if mc.merge.events = [] then .done mc.merge
    else if (resort srt mc.merge 0).events.length ≤ newLast now (resort srt mc.merge 0) 0 then
      .done (resort srt mc.merge 0)
    else SetRef.loop srt react now fuel 0 (resort srt mc.merge 0)

/-- The set `nonwaiting` of wait.go: goroutine statuses that do not indicate waiting. -/
def nonwaiting : List String :=
  ["idle", "runnable", "running", "syscall", "dead", "enqueue", "copystack"]

/-- What `grStatus` returns: a Go `map[string]string` from goroutine id to status, as a list
of key/value pairs read with `List.lookup`. -/
abbrev GrStatus := List (String × String)

/-- Go `waitpoint.Reset`, given the result of `grStatus`: the ids to watch are those whose
status is not in `nonwaiting`. -/
def waitpoint.Reset (grs : GrStatus) : List String :=
  (grs.map (fun p => p.1)).filter (fun g =>
    match grs.lookup g with
    | some s => !nonwaiting.contains s
    | none => false)

/-- The function `busy` inside `waitpoint.Wait`, given the result of `grStatus`: some watched
id is found with a status in `nonwaiting`. -/
def waitpoint.busy (watch : List String) (grs : GrStatus) : Bool :=
  watch.any (fun g =>
    match grs.lookup g with
    | some s => nonwaiting.contains s
    | none => false)

/-- Go `waitpoint.Wait`: poll until not busy; `poll n` is what the `n`-th call of `grStatus`
returns, and the result is the index of the poll at which `Wait` returns. -/
def waitpoint.Wait (watch : List String) (poll : Nat → GrStatus) : Nat → Nat → Option Nat
  | 0, _ => none
  | fuel + 1, n =>
    if waitpoint.busy watch (poll n) then waitpoint.Wait watch poll fuel (n + 1) else some n

/-- A fresh clock at time 0 with one timer made by `NewTimer(0)`, due at once. -/
def zeroClock : manualClock := ((manualClock.fresh 0).NewTimer 0).1

/-- A fresh clock at time 0 with `A = AfterFunc(10, f)` (record 0); `f` is `selfReactor`. -/
def selfClock : manualClock := ((manualClock.fresh 0).AfterFunc 10).1

/-- The function of `A`: the first time it runs it calls `A.Reset(7)`. -/
def selfReactor : Reactor := fun k _ => if k = 0 then [Op.reset 0 7] else []

/-- A fresh clock at time 0 on which a consumer sleeps 1 ms (record 0), in milliseconds. -/
def chainClock : manualClock := ((manualClock.fresh 0).NewTimer 1).1

/-- The consumer of `chainClock`: woken from the sleep it calls `After(1ms)` (record 1); after
that has fired, `NewTimer(1ms)` (record 2); after that has fired, `Reset(5ms)` on it. -/
def chainReactor : Reactor := fun k _ =>
  if k = 0 then [Op.newTimer 1]
  else if k = 1 then [Op.newTimer 1]
  else if k = 2 then [Op.reset 2 5]
  else []

/-- The clock of `timerClock` after `Set(1ms)`: the timer has fired. -/
def firedClock : manualClock :=
  Outcome.getD (timerClock.Set insertionSorter quiet 10 1000) timerClock

/-- A fresh clock at time 0 on which `AfterFunc(10ms, f)` (record 0) is stopped at once and
then left behind by `Add(5s)`, in milliseconds. -/
def stoppedClock : manualClock :=
  Outcome.getD (runCmds insertionSorter 10 (manualClock.fresh 0)
    [Cmd.op (Op.afterFunc 10), Cmd.op (Op.stop 0), Cmd.add 5000 quiet]) (manualClock.fresh 0)

/-- A status map at snapshot time: goroutine 1 is running, 7 and 9 are blocked. -/
def snapS : GrStatus := [("1", "running"), ("7", "chan"), ("9", "select")]

/-- Status maps seen by later polls: at poll 0 goroutine 7 is runnable; from poll 1 on it is
blocked again, 9 is gone and 12, which is not in the snapshot, is running. -/
def pollS : Nat → GrStatus
  | 0 => [("1", "running"), ("7", "runnable"), ("9", "select")]
  | _ => [("1", "running"), ("7", "chan"), ("12", "running")]

/-- When `o` makes a ticker, its interval is not negative. -/
def Op.okTicker (o : Op) : Prop :=
  match o with
  | .newTicker d => 0 ≤ d
  | _ => True

/-- The consumers make no ticker with a negative interval during the advance. -/
def Reactor.okTicker (react : Reactor) : Prop :=
  ∀ k mc, ∀ o ∈ react k mc, o.okTicker

/-! ## The firing loop in list terms -/

theorem scanLast_eq (key : Nat → Time) (now : Time) :
    ∀ (rest : List Nat) (last : Nat) (first : Int),
      first = ((last + rest.length : Nat) : Int) - 1 →
      scanLast key now first rest last
        = some (last + (rest.takeWhile (fun i => After (key i) now)).length) := by
  intro rest
  induction rest with
  | nil =>
    intro last first h
    have : ¬ ((last : Int) ≤ first) := by simp at h; omega
    simp [scanLast, this]
  | cons i rest ih =>
    intro last first h
    have h1 : (last : Int) ≤ first := by simp at h; omega
    unfold scanLast
    rw [if_pos h1]
    by_cases hA : After (key i) now = true
    · rw [if_pos hA, ih (last + 1) first (by simp at h ⊢; omega)]
      simp [List.takeWhile, hA]; omega
    · rw [if_neg hA]
      simp [List.takeWhile, hA]

@[simp] theorem play_events (mc : manualClock) (i : Nat) (t : Time) :
    (mc.play i t).events = mc.events := by
  unfold manualClock.play; split <;> rfl

@[simp] theorem play_newEvents (mc : manualClock) (i : Nat) (t : Time) :
    (mc.play i t).newEvents = mc.newEvents := by
  unfold manualClock.play; split <;> rfl

@[simp] theorem play_now (mc : manualClock) (i : Nat) (t : Time) :
    (mc.play i t).now = mc.now := by
  unfold manualClock.play; split <;> rfl

@[simp] theorem play_nalloc (mc : manualClock) (i : Nat) (t : Time) :
    (mc.play i t).nalloc = mc.nalloc := by
  unfold manualClock.play; split <;> rfl

@[simp] theorem fire_events (mc : manualClock) (e : Nat) : (mc.fire e).events = mc.events := by
  simp [manualClock.fire]

@[simp] theorem fire_newEvents (mc : manualClock) (e : Nat) :
    (mc.fire e).newEvents = mc.newEvents := by
  simp [manualClock.fire]

@[simp] theorem fire_now (mc : manualClock) (e : Nat) : (mc.fire e).now = mc.key e := by
  simp [manualClock.fire, manualClock.key]

@[simp] theorem fire_nalloc (mc : manualClock) (e : Nat) : (mc.fire e).nalloc = mc.nalloc := by
  simp [manualClock.fire]

theorem applyOp_events (mc : manualClock) (o : Op) : (applyOp mc o).events = mc.events := by
  cases o <;> simp only [applyOp, Timer.Reset, manualClock.NewTimer, manualClock.AfterFunc,
    manualClock.NewTicker, manualClock.recv, manualClock.addEvent] <;>
    (try split) <;> (try split) <;> rfl

theorem applyOp_now (mc : manualClock) (o : Op) : (applyOp mc o).now = mc.now := by
  cases o <;> simp only [applyOp, Timer.Reset, manualClock.NewTimer, manualClock.AfterFunc,
    manualClock.NewTicker, manualClock.recv, manualClock.addEvent] <;>
    (try split) <;> (try split) <;> rfl

theorem applyOp_log (mc : manualClock) (o : Op) : (applyOp mc o).log = mc.log := by
  cases o <;> simp only [applyOp, Timer.Reset, manualClock.NewTimer, manualClock.AfterFunc,
    manualClock.NewTicker, manualClock.recv, manualClock.addEvent] <;>
    (try split) <;> (try split) <;> rfl

theorem applyOp_nalloc_le (mc : manualClock) (o : Op) : mc.nalloc ≤ (applyOp mc o).nalloc := by
  cases o <;> simp only [applyOp, Timer.Reset, manualClock.NewTimer, manualClock.AfterFunc,
    manualClock.NewTicker, manualClock.recv, manualClock.addEvent] <;>
    (try split) <;> (try split) <;> simp

@[simp] theorem runOps_events (mc : manualClock) (os : List Op) :
    (runOps mc os).events = mc.events := by
  induction os generalizing mc with
  | nil => rfl
  | cons o os ih => simp [runOps, ih, applyOp_events]

@[simp] theorem runOps_now (mc : manualClock) (os : List Op) :
    (runOps mc os).now = mc.now := by
  induction os generalizing mc with
  | nil => rfl
  | cons o os ih => simp [runOps, ih, applyOp_now]

@[simp] theorem runOps_log (mc : manualClock) (os : List Op) :
    (runOps mc os).log = mc.log := by
  induction os generalizing mc with
  | nil => rfl
  | cons o os ih => simp [runOps, ih, applyOp_log]

theorem runOps_nalloc_le (mc : manualClock) (os : List Op) :
    mc.nalloc ≤ (runOps mc os).nalloc := by
  induction os generalizing mc with
  | nil => exact le_refl _
  | cons o os ih => exact le_trans (applyOp_nalloc_le mc o) (ih _)

/-- Length of the registry after `tailStep`: the tail may have been cut, the buffer is appended. -/
theorem tailStep_length_ge (react : Reactor) (k : Nat) (mc : manualClock) (e : Nat) :
    mc.events.length - 1 ≤ (tailStep react k mc e).events.length := by
  unfold tailStep
  simp only [manualClock.merge]
  split <;> simp
  omega

/-- One unfolding of the firing loop, in list terms, at a valid loop entry. -/
theorem Set.loop_succ (srt : Sorter) (react : Reactor) (now : Time) (fuel k : Nat)
    (mc : manualClock) (last : Nat) (e : Nat)
    (hl : last < mc.events.length) (he : mc.events.getLast? = some e) :
    Set.loop srt react now (fuel + 1) k mc last ((mc.events.length : Int) - 1) =
      if After (mc.key e) now then .done mc
      else
        if (tailStep react k mc e).events = [] then .done (tailStep react k mc e)
        else
          if (resort srt (tailStep react k mc e) last).events.length
              ≤ newLast now (resort srt (tailStep react k mc e) last) last then
            .done (resort srt (tailStep react k mc e) last)
          else
            Set.loop srt react now fuel (k + 1) (resort srt (tailStep react k mc e) last)
              (newLast now (resort srt (tailStep react k mc e) last) last)
              (((resort srt (tailStep react k mc e) last).events.length : Int) - 1) := by
  have hev : evAt mc.events ((mc.events.length : Int) - 1) = some e := by
    unfold evAt
    have : ¬ ((mc.events.length : Int) - 1 < 0) := by omega
    rw [if_neg this, ← he, List.getLast?_eq_getElem?]
    congr 1
    omega
  rw [Set.loop]
  simp only [hev]
  by_cases hA : After (mc.key e) now = true
  · have hA2 : After (mc.heap e).Next now = true := hA
    simp [hA, hA2]
  · have hA2 : ¬ After (mc.heap e).Next now = true := hA
    rw [if_neg hA, if_neg hA2]
    have hds : dropStopped (runOps (mc.fire e) (react k (mc.fire e))) e
        ((mc.events.length : Int) - 1) =
        some (if ((runOps (mc.fire e) (react k (mc.fire e))).heap e).Stopped then
          { runOps (mc.fire e) (react k (mc.fire e)) with
              events := (runOps (mc.fire e) (react k (mc.fire e))).events.dropLast,
              heap := Function.update (runOps (mc.fire e) (react k (mc.fire e))).heap e
                { (runOps (mc.fire e) (react k (mc.fire e))).heap e with removed := true } }
          else runOps (mc.fire e) (react k (mc.fire e))) := by
      have hevs : (runOps (mc.fire e) (react k (mc.fire e))).events = mc.events := by simp
      unfold dropStopped
      split
      · have hs : sliceTo (runOps (mc.fire e) (react k (mc.fire e))).events
            ((mc.events.length : Int) - 1)
            = some ((runOps (mc.fire e) (react k (mc.fire e))).events.dropLast) := by
          unfold sliceTo
          rw [hevs]
          have : (0 : Int) ≤ (mc.events.length : Int) - 1 ∧
              (mc.events.length : Int) - 1 ≤ (mc.events.length : Int) := by
            omega
          rw [if_pos this, List.dropLast_eq_take]
          congr 2
          omega
        rw [hs]
      · rfl
    simp only [hds]
    have hts : (if ((runOps (mc.fire e) (react k (mc.fire e))).heap e).Stopped then
          { runOps (mc.fire e) (react k (mc.fire e)) with
              events := (runOps (mc.fire e) (react k (mc.fire e))).events.dropLast,
              heap := Function.update (runOps (mc.fire e) (react k (mc.fire e))).heap e
                { (runOps (mc.fire e) (react k (mc.fire e))).heap e with removed := true } }
          else runOps (mc.fire e) (react k (mc.fire e))).merge = tailStep react k mc e := rfl
    rw [hts]
    have hlen := tailStep_length_ge react k mc e
    generalize tailStep react k mc e = mc4 at hlen ⊢
    by_cases hnil : mc4.events = []
    · have : ((mc4.events.length : Int) - 1 < 0) := by simp [hnil]
      simp [hnil]
    · have hpos : 0 < mc4.events.length := List.length_pos.2 hnil
      have : ¬ ((mc4.events.length : Int) - 1 < 0) := by omega
      rw [if_neg this, if_neg hnil]
      have hsf : sortFrom srt mc4.key mc4.events last = some (resort srt mc4 last).events := by
        unfold sortFrom resort
        rw [if_pos (by omega)]
      simp only [hsf]
      have hm5 : ({ mc4 with events := (resort srt mc4 last).events } : manualClock)
          = resort srt mc4 last := rfl
      rw [hm5]
      have hlen5 : (resort srt mc4 last).events.length = mc4.events.length := by
        unfold resort
        simp [(srt.perm _ _).length_eq]
        omega
      have hsc := scanLast_eq (resort srt mc4 last).key now
        ((resort srt mc4 last).events.drop last) last ((mc4.events.length : Int) - 1)
        (by simp [hlen5]; omega)
      rw [hsc]
      have hnl : last + (((resort srt mc4 last).events.drop last).takeWhile
          (fun i => After ((resort srt mc4 last).key i) now)).length
          = newLast now (resort srt mc4 last) last := rfl
      simp only [hnl, hlen5]
      by_cases hx : mc4.events.length ≤ newLast now (resort srt mc4 last) last
      · have : ((newLast now (resort srt mc4 last) last : Nat) : Int) > (mc4.events.length : Int) - 1 := by
          omega
        rw [if_pos this, if_pos hx]
      · have : ¬ (((newLast now (resort srt mc4 last) last : Nat) : Int) > (mc4.events.length : Int) - 1) := by
          omega
        rw [if_neg this, if_neg hx]


@[simp] theorem resort_heap (srt : Sorter) (mc : manualClock) (last : Nat) :
    (resort srt mc last).heap = mc.heap := rfl

@[simp] theorem resort_key (srt : Sorter) (mc : manualClock) (last : Nat) :
    (resort srt mc last).key = mc.key := rfl

@[simp] theorem resort_log (srt : Sorter) (mc : manualClock) (last : Nat) :
    (resort srt mc last).log = mc.log := rfl

@[simp] theorem resort_now (srt : Sorter) (mc : manualClock) (last : Nat) :
    (resort srt mc last).now = mc.now := rfl

@[simp] theorem resort_nalloc (srt : Sorter) (mc : manualClock) (last : Nat) :
    (resort srt mc last).nalloc = mc.nalloc := rfl

@[simp] theorem resort_newEvents (srt : Sorter) (mc : manualClock) (last : Nat) :
    (resort srt mc last).newEvents = mc.newEvents := rfl

theorem resort_length (srt : Sorter) (mc : manualClock) (last : Nat) :
    (resort srt mc last).events.length = mc.events.length := by
  unfold resort
  simp [(srt.perm _ _).length_eq]
  omega

theorem resort_perm (srt : Sorter) (mc : manualClock) (last : Nat) :
    (resort srt mc last).events.Perm mc.events := by
  unfold resort
  simp only
  exact (List.Perm.append_left _ (srt.perm _ _)).trans (by rw [List.take_append_drop])

theorem resort_drop (srt : Sorter) (mc : manualClock) (last : Nat)
    (h : last ≤ mc.events.length) :
    (resort srt mc last).events.drop last = srt.run mc.key (mc.events.drop last) := by
  unfold resort
  simp only
  exact List.drop_left' (by simp [h])

theorem resort_take (srt : Sorter) (mc : manualClock) (last : Nat)
    (h : last ≤ mc.events.length) :
    (resort srt mc last).events.take last = mc.events.take last := by
  unfold resort
  simp only
  rw [List.take_append_of_le_length (by simp [h])]
  simp

/-- The slice left due after the scan is what remains of the sorted slice once its leading
not-due records are skipped. -/
theorem drop_newLast (srt : Sorter) (now : Time) (mc : manualClock) (last : Nat)
    (h : last ≤ mc.events.length) :
    (resort srt mc last).events.drop (newLast now (resort srt mc last) last)
      = (srt.run mc.key (mc.events.drop last)).dropWhile (fun i => After (mc.key i) now) := by
  unfold newLast
  rw [← List.drop_drop, resort_drop srt mc last h, resort_key]
  generalize srt.run mc.key (mc.events.drop last) = S
  induction S with
  | nil => rfl
  | cons a S ih =>
    by_cases ha : After (mc.key a) now = true
    · simp [List.takeWhile, List.dropWhile, ha, ih]
    · simp [List.takeWhile, List.dropWhile, ha]

theorem newLast_le (srt : Sorter) (now : Time) (mc : manualClock) (last : Nat)
    (h : last ≤ mc.events.length) :
    newLast now (resort srt mc last) last ≤ (resort srt mc last).events.length := by
  unfold newLast
  have h1 := (List.takeWhile_sublist (fun i => After ((resort srt mc last).key i) now)
    (l := (resort srt mc last).events.drop last)).length_le
  have h2 := resort_length srt mc last
  rw [List.length_drop] at h1
  omega

theorem le_newLast (now : Time) (mc : manualClock) (last : Nat) :
    last ≤ newLast now mc last := by
  unfold newLast; omega

/-- A record of the slice that is due stays in the slice after the re-sort and scan. -/
theorem mem_drop_newLast (srt : Sorter) (now : Time) (mc : manualClock) (last i : Nat)
    (h : last ≤ mc.events.length) (hi : i ∈ mc.events.drop last) (hdue : mc.key i ≤ now) :
    i ∈ (resort srt mc last).events.drop (newLast now (resort srt mc last) last) := by
  rw [drop_newLast srt now mc last h]
  have hi2 : i ∈ srt.run mc.key (mc.events.drop last) := (srt.perm _ _).mem_iff.2 hi
  generalize srt.run mc.key (mc.events.drop last) = S at hi2
  induction S with
  | nil => cases hi2
  | cons a S ih =>
    by_cases ha : After (mc.key a) now = true
    · rcases List.mem_cons.1 hi2 with rfl | hi3
      · exfalso
        simp [After] at ha
        exact lt_irrefl _ (lt_of_lt_of_le ha hdue)
      · simp [List.dropWhile, ha]
        exact ih hi3
    · simp [List.dropWhile, ha]
      simpa using hi2

/-- Every record of the slice after the re-sort and scan was in the slice before. -/
theorem of_mem_drop_newLast (srt : Sorter) (now : Time) (mc : manualClock) (last i : Nat)
    (h : last ≤ mc.events.length)
    (hi : i ∈ (resort srt mc last).events.drop (newLast now (resort srt mc last) last)) :
    i ∈ mc.events.drop last := by
  rw [drop_newLast srt now mc last h] at hi
  exact (srt.perm _ _).mem_iff.1 ((List.dropWhile_sublist _).subset hi)

/-- After the re-sort and the scan the loop-entry conditions hold again. -/
theorem head_of_resort (srt : Sorter) (now : Time) (mc : manualClock) (last : Nat)
    (h : last ≤ mc.events.length) (hnew : mc.newEvents = [])
    (hlt : newLast now (resort srt mc last) last < (resort srt mc last).events.length) :
    Head now (resort srt mc last) (newLast now (resort srt mc last) last) := by
  refine ⟨hlt, ?_, ?_, hnew⟩
  · rw [drop_newLast srt now mc last h]
    exact (srt.sorted _ _).sublist (List.dropWhile_sublist _)
  · rw [drop_newLast srt now mc last h]
    have hs := srt.sorted mc.key (mc.events.drop last)
    generalize srt.run mc.key (mc.events.drop last) = S at hs
    induction S with
    | nil => intro i hi; cases hi
    | cons a S ih =>
      by_cases ha : After (mc.key a) now = true
      · simp only [List.dropWhile, ha]
        exact ih (List.Pairwise.of_cons hs)
      · simp only [List.dropWhile, ha]
        intro i hi
        have hale : mc.key a ≤ now := by
          simp [After] at ha
          exact ha
        rcases List.mem_cons.1 hi with rfl | hi2
        · exact hale
        · exact le_trans (List.rel_of_pairwise_cons hs hi2) hale

theorem tailStep_newEvents (react : Reactor) (k : Nat) (mc : manualClock) (e : Nat) :
    (tailStep react k mc e).newEvents = [] := rfl

theorem getLast_mem_drop (l : List Nat) (last e : Nat) (hl : last < l.length)
    (he : l.getLast? = some e) : e ∈ l.drop last := by
  obtain ⟨ys, rfl⟩ := List.getLast?_eq_some_iff.1 he
  have : last ≤ ys.length := by simp at hl; omega
  rw [List.drop_append_of_le_length this]
  simp

theorem Head.tail_due {now : Time} {mc : manualClock} {last e : Nat} (h : Head now mc last)
    (he : mc.events.getLast? = some e) : mc.key e ≤ now :=
  h.2.2.1 e (getLast_mem_drop _ _ _ h.1 he)

/-- The tail of the registry is the earliest record of the due slice. -/
theorem Head.tail_min {now : Time} {mc : manualClock} {last e : Nat} (h : Head now mc last)
    (he : mc.events.getLast? = some e) : ∀ i ∈ mc.events.drop last, mc.key e ≤ mc.key i := by
  obtain ⟨ys, hys⟩ := List.getLast?_eq_some_iff.1 he
  have hl : last ≤ ys.length := by have := h.1; rw [hys] at this; simp at this; omega
  have hp := h.2.1
  rw [hys, List.drop_append_of_le_length hl] at hp ⊢
  intro i hi
  rcases List.mem_append.1 hi with hi | hi
  · exact (List.pairwise_append.1 hp).2.2 i hi e (by simp)
  · simp at hi; rw [hi]

theorem exists_getLast (l : List Nat) (h : 0 < l.length) : ∃ e, l.getLast? = some e := by
  cases hg : l.getLast? with
  | none => rw [List.getLast?_eq_none_iff] at hg; simp [hg] at h
  | some e => exact ⟨e, rfl⟩

/-- Invariant rule for the firing loop: a property that holds on entry and is kept by each
iteration (fire the tail, react, cut, merge, re-sort, scan) holds when the loop ends. -/
theorem Set.loop_rule (srt : Sorter) (react : Reactor) (now : Time)
    (Inv : Nat → manualClock → Nat → Prop) (Post : manualClock → Prop)
    (hstep : ∀ k mc last e, Head now mc last → Inv k mc last → mc.events.getLast? = some e →
      ((tailStep react k mc e).events = [] → Post (tailStep react k mc e)) ∧
      ((tailStep react k mc e).events ≠ [] →
        ((resort srt (tailStep react k mc e) last).events.length
            ≤ newLast now (resort srt (tailStep react k mc e) last) last →
          Post (resort srt (tailStep react k mc e) last)) ∧
        (newLast now (resort srt (tailStep react k mc e) last) last
            < (resort srt (tailStep react k mc e) last).events.length →
          Inv (k + 1) (resort srt (tailStep react k mc e) last)
            (newLast now (resort srt (tailStep react k mc e) last) last)))) :
    ∀ (fuel k : Nat) (mc : manualClock) (last : Nat) (mc' : manualClock),
      Head now mc last → Inv k mc last →
      Set.loop srt react now fuel k mc last ((mc.events.length : Int) - 1) = .done mc' →
      Post mc' := by
  intro fuel
  induction fuel with
  | zero => intro k mc last mc' _ _ h; simp [Set.loop] at h
  | succ fuel ih =>
    intro k mc last mc' hH hI h
    obtain ⟨e, he⟩ := exists_getLast mc.events (by have := hH.1; omega)
    rw [Set.loop_succ srt react now fuel k mc last e hH.1 he] at h
    have hdue := hH.tail_due he
    have hA : ¬ After (mc.key e) now = true := by simp [After]; exact hdue
    rw [if_neg hA] at h
    obtain ⟨h1, h2⟩ := hstep k mc last e hH hI he
    by_cases hnil : (tailStep react k mc e).events = []
    · rw [if_pos hnil] at h
      cases h
      exact h1 hnil
    · rw [if_neg hnil] at h
      obtain ⟨h3, h4⟩ := h2 hnil
      have hlen := tailStep_length_ge react k mc e
      have hl4 : last ≤ (tailStep react k mc e).events.length := by have := hH.1; omega
      by_cases hx : (resort srt (tailStep react k mc e) last).events.length
            ≤ newLast now (resort srt (tailStep react k mc e) last) last
      · rw [if_pos hx] at h
        cases h
        exact h3 hx
      · rw [if_neg hx] at h
        exact ih _ _ _ _ (head_of_resort srt now _ last hl4 (tailStep_newEvents _ _ _ _)
          (by omega)) (h4 (by omega)) h

/-- The firing loop never reads a slice out of range. -/
theorem Set.loop_safe (srt : Sorter) (react : Reactor) (now : Time) :
    ∀ (fuel k : Nat) (mc : manualClock) (last : Nat), Head now mc last →
      Set.loop srt react now fuel k mc last ((mc.events.length : Int) - 1) ≠ .outOfRange := by
  intro fuel
  induction fuel with
  | zero => intro k mc last _ h; simp [Set.loop] at h
  | succ fuel ih =>
    intro k mc last hH
    obtain ⟨e, he⟩ := exists_getLast mc.events (by have := hH.1; omega)
    rw [Set.loop_succ srt react now fuel k mc last e hH.1 he]
    have hlen := tailStep_length_ge react k mc e
    have hl4 : last ≤ (tailStep react k mc e).events.length := by have := hH.1; omega
    split
    · simp
    · split
      · simp
      · split
        · simp
        · rename_i hx
          exact ih _ _ _ (head_of_resort srt now _ last hl4 (tailStep_newEvents _ _ _ _)
            (by omega))

/-- The body of `Set` in list terms. -/
theorem Set_eq (srt : Sorter) (react : Reactor) (fuel : Nat) (mc : manualClock) (now : Time) :
    mc.Set srt react fuel now = setNow now
      (if mc.merge.events = [] then .done mc.merge
       else if (resort srt mc.merge 0).events.length ≤ newLast now (resort srt mc.merge 0) 0 then
         .done (resort srt mc.merge 0)
       else Set.loop srt react now fuel 0 (resort srt mc.merge 0)
          (newLast now (resort srt mc.merge 0) 0)
          (((resort srt mc.merge 0).events.length : Int) - 1)) := by
  unfold manualClock.Set
  congr 1
  by_cases hnil : mc.merge.events = []
  · simp [hnil]
  · have hpos : 0 < mc.merge.events.length := List.length_pos.2 hnil
    have hne : ¬ mc.merge.events.length = 0 := by omega
    rw [if_neg hne, if_neg hnil]
    have hm2 : resort srt mc.merge 0
        = ({ mc.merge with events := srt.run mc.merge.key mc.merge.events } : manualClock) := by
      unfold resort; simp
    have hnl : newLast now (resort srt mc.merge 0) 0
        = 0 + ((srt.run mc.merge.key mc.merge.events).takeWhile
            (fun i => After (mc.merge.key i) now)).length := by
      rw [hm2]; unfold newLast; simp [manualClock.key]
    rw [hnl, hm2]
    simp only
    have hsc := scanLast_eq mc.merge.key now (srt.run mc.merge.key mc.merge.events) 0
      (((srt.run mc.merge.key mc.merge.events).length : Int) - 1) (by simp)
    have hk : ({ mc.merge with events := srt.run mc.merge.key mc.merge.events } : manualClock).key
        = mc.merge.key := rfl
    rw [hk, hsc]
    simp only
    split
    · rename_i hx
      rw [if_pos (by omega)]
    · rename_i hx
      rw [if_neg (by omega)]

theorem setNow_done {now : Time} {o : Outcome manualClock} {mc' : manualClock}
    (h : setNow now o = .done mc') : ∃ m, o = .done m ∧ mc' = { m with now := now } := by
  cases o with
  | done m => simp [setNow] at h; exact ⟨m, rfl, h.symm⟩
  | outOfRange => simp [setNow] at h
  | timeout => simp [setNow] at h

/-- Invariant rule for a whole advance. -/
theorem Set_rule (srt : Sorter) (react : Reactor) (now : Time)
    (Inv : Nat → manualClock → Nat → Prop) (Post : manualClock → Prop) (mc : manualClock)
    (hinit : (mc.merge.events = [] → Post mc.merge) ∧
      (mc.merge.events ≠ [] →
        ((resort srt mc.merge 0).events.length ≤ newLast now (resort srt mc.merge 0) 0 →
          Post (resort srt mc.merge 0)) ∧
        (Head now (resort srt mc.merge 0) (newLast now (resort srt mc.merge 0) 0) →
          Inv 0 (resort srt mc.merge 0) (newLast now (resort srt mc.merge 0) 0))))
    (hstep : ∀ k mc last e, Head now mc last → Inv k mc last → mc.events.getLast? = some e →
      ((tailStep react k mc e).events = [] → Post (tailStep react k mc e)) ∧
      ((tailStep react k mc e).events ≠ [] →
        ((resort srt (tailStep react k mc e) last).events.length
            ≤ newLast now (resort srt (tailStep react k mc e) last) last →
          Post (resort srt (tailStep react k mc e) last)) ∧
        (newLast now (resort srt (tailStep react k mc e) last) last
            < (resort srt (tailStep react k mc e) last).events.length →
          Inv (k + 1) (resort srt (tailStep react k mc e) last)
            (newLast now (resort srt (tailStep react k mc e) last) last))))
    (fuel : Nat) (mc' : manualClock) (h : mc.Set srt react fuel now = .done mc') :
    ∃ m, Post m ∧ mc' = { m with now := now } := by
  rw [Set_eq] at h
  obtain ⟨m, hm, rfl⟩ := setNow_done h
  refine ⟨m, ?_, rfl⟩
  by_cases hnil : mc.merge.events = []
  · rw [if_pos hnil] at hm
    cases hm
    exact hinit.1 hnil
  · rw [if_neg hnil] at hm
    obtain ⟨h1, h2⟩ := hinit.2 hnil
    by_cases hx : (resort srt mc.merge 0).events.length ≤ newLast now (resort srt mc.merge 0) 0
    · rw [if_pos hx] at hm
      cases hm
      exact h1 hx
    · rw [if_neg hx] at hm
      have hH := head_of_resort srt now mc.merge 0 (Nat.zero_le _) rfl (by omega)
      exact Set.loop_rule srt react now Inv Post hstep fuel 0 _ _ m hH (h2 hH) hm


/-! ## Effect of handle operations on a record they do not address -/

theorem applyOp_noChan (mc : manualClock) (o : Op) (i : Nat) (hi : i < mc.nalloc)
    (hs : o.stops i = false) (hr : o.resets i = false) :
    ((applyOp mc o).heap i).noChan = (mc.heap i).noChan := by
  have hne : i ≠ mc.nalloc := Nat.ne_of_lt hi
  cases o with
  | stop j =>
    have hj : j ≠ i := by simpa [Op.stops] using hs
    simp only [applyOp]
    split
    · simp [Function.update_apply, Ne.symm hj]
    · rfl
  | reset j d =>
    have hj : j ≠ i := by simpa [Op.resets] using hr
    simp only [applyOp, Timer.Reset, manualClock.addEvent]
    split
    · split <;> simp [Function.update_apply, Ne.symm hj]
    · rfl
  | newTimer d =>
    simp [applyOp, manualClock.NewTimer, manualClock.addEvent, Function.update_apply, hne]
  | afterFunc d =>
    simp [applyOp, manualClock.AfterFunc, manualClock.NewTimer, manualClock.addEvent,
      Function.update_apply, hne]
  | newTicker d =>
    simp [applyOp, manualClock.NewTicker, manualClock.addEvent, Function.update_apply, hne]
  | recv j =>
    simp only [applyOp, manualClock.recv]
    split
    · by_cases hj : i = j
      · subst hj; simp [event.noChan]
      · simp [Function.update_apply, hj]
    · rfl

theorem applyOp_heap_same (mc : manualClock) (o : Op) (i : Nat) (hi : i < mc.nalloc)
    (hs : o.stops i = false) (hr : o.resets i = false) (hc : o.recvs i = false) :
    (applyOp mc o).heap i = mc.heap i := by
  have hne : i ≠ mc.nalloc := Nat.ne_of_lt hi
  cases o with
  | stop j =>
    have hj : j ≠ i := by simpa [Op.stops] using hs
    simp only [applyOp]
    split
    · simp [Function.update_apply, Ne.symm hj]
    · rfl
  | reset j d =>
    have hj : j ≠ i := by simpa [Op.resets] using hr
    simp only [applyOp, Timer.Reset, manualClock.addEvent]
    split
    · split <;> simp [Function.update_apply, Ne.symm hj]
    · rfl
  | newTimer d =>
    simp [applyOp, manualClock.NewTimer, manualClock.addEvent, Function.update_apply, hne]
  | afterFunc d =>
    simp [applyOp, manualClock.AfterFunc, manualClock.NewTimer, manualClock.addEvent,
      Function.update_apply, hne]
  | newTicker d =>
    simp [applyOp, manualClock.NewTicker, manualClock.addEvent, Function.update_apply, hne]
  | recv j =>
    have hj : j ≠ i := by simpa [Op.recvs] using hc
    simp only [applyOp, manualClock.recv]
    split
    · simp [Function.update_apply, Ne.symm hj]
    · rfl

theorem applyOp_stopped (mc : manualClock) (o : Op) (i : Nat) (hi : i < mc.nalloc)
    (hr : o.resets i = false) (hst : (mc.heap i).stopped = true) :
    ((applyOp mc o).heap i).stopped = true := by
  have hne : i ≠ mc.nalloc := Nat.ne_of_lt hi
  cases o with
  | stop j =>
    simp only [applyOp]
    split
    · by_cases hj : i = j
      · subst hj; simp [Timer.Stop]
      · simp [Function.update_apply, hj, hst]
    · exact hst
  | reset j d =>
    have hj : j ≠ i := by simpa [Op.resets] using hr
    simp only [applyOp, Timer.Reset, manualClock.addEvent]
    split
    · split <;> simp [Function.update_apply, Ne.symm hj, hst]
    · exact hst
  | newTimer d =>
    simp [applyOp, manualClock.NewTimer, manualClock.addEvent, Function.update_apply, hne, hst]
  | afterFunc d =>
    simp [applyOp, manualClock.AfterFunc, manualClock.NewTimer, manualClock.addEvent,
      Function.update_apply, hne, hst]
  | newTicker d =>
    simp [applyOp, manualClock.NewTicker, manualClock.addEvent, Function.update_apply, hne, hst]
  | recv j =>
    simp only [applyOp, manualClock.recv]
    split
    · by_cases hj : i = j
      · subst hj; simp [hst]
      · simp [Function.update_apply, hj, hst]
    · exact hst

/-- No handle operation puts a value into a channel. -/
theorem applyOp_chan (mc : manualClock) (o : Op) (i : Nat) (hi : i < mc.nalloc) :
    ((applyOp mc o).heap i).c = (mc.heap i).c ∨ ((applyOp mc o).heap i).c = none := by
  have hne : i ≠ mc.nalloc := Nat.ne_of_lt hi
  cases o with
  | stop j =>
    simp only [applyOp]
    split
    · by_cases hj : i = j
      · subst hj; simp [Timer.Stop]
      · simp [Function.update_apply, hj]
    · exact Or.inl rfl
  | reset j d =>
    simp only [applyOp, Timer.Reset, manualClock.addEvent]
    split
    · by_cases hj : i = j
      · subst hj; split <;> simp
      · split <;> simp [Function.update_apply, hj]
    · exact Or.inl rfl
  | newTimer d =>
    simp [applyOp, manualClock.NewTimer, manualClock.addEvent, Function.update_apply, hne]
  | afterFunc d =>
    simp [applyOp, manualClock.AfterFunc, manualClock.NewTimer, manualClock.addEvent,
      Function.update_apply, hne]
  | newTicker d =>
    simp [applyOp, manualClock.NewTicker, manualClock.addEvent, Function.update_apply, hne]
  | recv j =>
    simp only [applyOp, manualClock.recv]
    split
    · by_cases hj : i = j
      · subst hj; simp
      · simp [Function.update_apply, hj]
    · exact Or.inl rfl

theorem applyOp_mem_newEvents (mc : manualClock) (o : Op) (i : Nat) (hi : i ∈ mc.newEvents) :
    i ∈ (applyOp mc o).newEvents := by
  cases o <;> simp only [applyOp, Timer.Reset, manualClock.NewTimer, manualClock.AfterFunc,
    manualClock.NewTicker, manualClock.recv, manualClock.addEvent] <;>
    (try split) <;> (try split) <;> simp [hi]

theorem runOps_noChan (os : List Op) : ∀ (mc : manualClock) (i : Nat), i < mc.nalloc →
    (∀ o ∈ os, o.stops i = false ∧ o.resets i = false) →
    ((runOps mc os).heap i).noChan = (mc.heap i).noChan := by
  induction os with
  | nil => intro mc i _ _; rfl
  | cons o os ih =>
    intro mc i hi h
    have ho := h o (List.mem_cons_self _ _)
    rw [runOps, ih (applyOp mc o) i (lt_of_lt_of_le hi (applyOp_nalloc_le mc o))
      (fun o' ho' => h o' (List.mem_cons_of_mem _ ho')), applyOp_noChan mc o i hi ho.1 ho.2]

theorem runOps_heap_same (os : List Op) : ∀ (mc : manualClock) (i : Nat), i < mc.nalloc →
    (∀ o ∈ os, o.stops i = false ∧ o.resets i = false) → (∀ o ∈ os, o.recvs i = false) →
    (runOps mc os).heap i = mc.heap i := by
  induction os with
  | nil => intro mc i _ _ _; rfl
  | cons o os ih =>
    intro mc i hi h hc
    have ho := h o (List.mem_cons_self _ _)
    rw [runOps, ih (applyOp mc o) i (lt_of_lt_of_le hi (applyOp_nalloc_le mc o))
      (fun o' ho' => h o' (List.mem_cons_of_mem _ ho'))
      (fun o' ho' => hc o' (List.mem_cons_of_mem _ ho')),
      applyOp_heap_same mc o i hi ho.1 ho.2 (hc o (List.mem_cons_self _ _))]

theorem runOps_stopped (os : List Op) : ∀ (mc : manualClock) (i : Nat), i < mc.nalloc →
    (∀ o ∈ os, o.resets i = false) → (mc.heap i).stopped = true →
    ((runOps mc os).heap i).stopped = true := by
  induction os with
  | nil => intro mc i _ _ h; exact h
  | cons o os ih =>
    intro mc i hi h hst
    exact ih (applyOp mc o) i (lt_of_lt_of_le hi (applyOp_nalloc_le mc o))
      (fun o' ho' => h o' (List.mem_cons_of_mem _ ho'))
      (applyOp_stopped mc o i hi (h o (List.mem_cons_self _ _)) hst)

theorem runOps_chan (os : List Op) : ∀ (mc : manualClock) (i : Nat), i < mc.nalloc →
    ((runOps mc os).heap i).c = (mc.heap i).c ∨ ((runOps mc os).heap i).c = none := by
  induction os with
  | nil => intro mc i _; exact Or.inl rfl
  | cons o os ih =>
    intro mc i hi
    rcases ih (applyOp mc o) i (lt_of_lt_of_le hi (applyOp_nalloc_le mc o)) with h | h
    · rcases applyOp_chan mc o i hi with h2 | h2
      · exact Or.inl (h.trans h2)
      · exact Or.inr (h.trans h2)
    · exact Or.inr h

theorem runOps_mem_newEvents (os : List Op) : ∀ (mc : manualClock) (i : Nat),
    i ∈ mc.newEvents → i ∈ (runOps mc os).newEvents := by
  induction os with
  | nil => intro mc i h; exact h
  | cons o os ih => intro mc i h; exact ih _ i (applyOp_mem_newEvents mc o i h)


/-! ## One firing step and one advance, seen from a single record -/

/-- Records that agree up to channel contents agree on every other field. -/
theorem noChan_fields {a b : event} (h : a.noChan = b.noChan) :
    a.next = b.next ∧ a.d = b.d ∧ a.fn = b.fn ∧ a.stopped = b.stopped ∧ a.removed = b.removed := by
  unfold event.noChan at h
  injection h with _ h1 h2 h3 h4 h5
  exact ⟨h1, h2, h3, h4, h5⟩

theorem firedOf_append (i : Nat) (l l' : List Delivery) :
    firedOf i (l ++ l') = firedOf i l ++ firedOf i l' := by
  simp [firedOf]

theorem fire_heap_ne (mc : manualClock) (e i : Nat) (h : i ≠ e) :
    (mc.fire e).heap i = mc.heap i := by
  unfold manualClock.fire manualClock.play
  simp only
  split
  · rfl
  · simp [Function.update_apply, h]

theorem fire_firedOf_ne (mc : manualClock) (e i : Nat) (h : i ≠ e) :
    firedOf i (mc.fire e).log = firedOf i mc.log := by
  unfold manualClock.fire manualClock.play
  simp only
  split
  · rfl
  · simp [firedOf, List.filter_append, Ne.symm h]

theorem fire_stopped (mc : manualClock) (e : Nat) (h : (mc.heap e).stopped = true) :
    (mc.fire e).heap = mc.heap ∧ (mc.fire e).log = mc.log := by
  unfold manualClock.fire manualClock.play
  simp [event.Stopped, h]

theorem fire_active (mc : manualClock) (e : Nat) (h : (mc.heap e).stopped = false) :
    (mc.fire e).heap e = (mc.heap e).play (mc.key e) ∧
    (mc.fire e).log = mc.log ++ [delivered e (mc.key e)] := by
  unfold manualClock.fire manualClock.play
  simp [event.Stopped, h, manualClock.key, event.Next, delivered]

theorem tailStep_log (react : Reactor) (k : Nat) (mc : manualClock) (e : Nat) :
    (tailStep react k mc e).log = (mc.fire e).log := by
  unfold tailStep manualClock.merge
  simp only
  split <;> simp

theorem tailStep_now (react : Reactor) (k : Nat) (mc : manualClock) (e : Nat) :
    (tailStep react k mc e).now = mc.key e := by
  unfold tailStep manualClock.merge
  simp only
  split <;> simp

theorem tailStep_nalloc (react : Reactor) (k : Nat) (mc : manualClock) (e : Nat) :
    (tailStep react k mc e).nalloc
      = (runOps (mc.fire e) (react k (mc.fire e))).nalloc := by
  unfold tailStep manualClock.merge
  simp only
  split <;> rfl

theorem tailStep_nalloc_le (react : Reactor) (k : Nat) (mc : manualClock) (e : Nat) :
    mc.nalloc ≤ (tailStep react k mc e).nalloc := by
  rw [tailStep_nalloc]
  have := runOps_nalloc_le (mc.fire e) (react k (mc.fire e))
  simpa using this

theorem tailStep_heap_ne (react : Reactor) (k : Nat) (mc : manualClock) (e i : Nat)
    (h : i ≠ e) :
    (tailStep react k mc e).heap i
      = (runOps (mc.fire e) (react k (mc.fire e))).heap i := by
  unfold tailStep manualClock.merge
  simp only
  split
  · simp [Function.update_apply, h]
  · rfl

theorem tailStep_heap_self (react : Reactor) (k : Nat) (mc : manualClock) (e : Nat) :
    (tailStep react k mc e).heap e
      = if ((runOps (mc.fire e) (react k (mc.fire e))).heap e).stopped then
          { (runOps (mc.fire e) (react k (mc.fire e))).heap e with removed := true }
        else (runOps (mc.fire e) (react k (mc.fire e))).heap e := by
  unfold tailStep manualClock.merge
  simp only [event.Stopped]
  split <;> simp

theorem tailStep_events (react : Reactor) (k : Nat) (mc : manualClock) (e : Nat) :
    (tailStep react k mc e).events
      = (if ((runOps (mc.fire e) (react k (mc.fire e))).heap e).stopped then
          mc.events.dropLast else mc.events)
        ++ (runOps (mc.fire e) (react k (mc.fire e))).newEvents := by
  unfold tailStep manualClock.merge
  simp only [event.Stopped]
  split <;> simp

theorem mem_drop_append (l l' : List Nat) (n i : Nat) (h : i ∈ l.drop n) :
    i ∈ (l ++ l').drop n := by
  by_cases hn : n ≤ l.length
  · rw [List.drop_append_of_le_length hn]
    exact List.mem_append_left _ h
  · rw [List.drop_eq_nil_of_le (by omega)] at h
    cases h

/-- A record of the due slice other than the tail stays in the slice through `tailStep`. -/
theorem mem_drop_tailStep_ne (react : Reactor) (k : Nat) (mc : manualClock) (last e i : Nat)
    (he : mc.events.getLast? = some e) (hi : i ∈ mc.events.drop last) (hne : i ≠ e) :
    i ∈ (tailStep react k mc e).events.drop last := by
  rw [tailStep_events]
  apply mem_drop_append
  split
  · obtain ⟨ys, hys⟩ := List.getLast?_eq_some_iff.1 he
    rw [hys] at hi ⊢
    rw [List.dropLast_concat]
    by_cases hn : last ≤ ys.length
    · rw [List.drop_append_of_le_length hn] at hi
      rcases List.mem_append.1 hi with h | h
      · exact h
      · simp at h; exact absurd h hne
    · rw [List.drop_eq_nil_of_le (by simp; omega)] at hi
      cases hi
  · exact hi

/-- The tail stays in the due slice through `tailStep` when it is not stopped afterwards. -/
theorem mem_drop_tailStep_self (react : Reactor) (k : Nat) (mc : manualClock) (last e : Nat)
    (he : mc.events.getLast? = some e) (hl : last < mc.events.length)
    (hns : ((runOps (mc.fire e) (react k (mc.fire e))).heap e).stopped = false) :
    e ∈ (tailStep react k mc e).events.drop last := by
  rw [tailStep_events, hns]
  apply mem_drop_append
  simp only [Bool.false_eq_true, if_false]
  exact getLast_mem_drop _ _ _ hl he

/-- Through `tailStep` of another record, a record the consumers neither stop nor reset keeps
everything but its channel contents, and gets no delivery. -/
theorem tailStep_other (react : Reactor) (k : Nat) (mc : manualClock) (e i : Nat)
    (hne : i ≠ e) (hi : i < mc.nalloc) (hl : react.leaves i) :
    ((tailStep react k mc e).heap i).noChan = (mc.heap i).noChan ∧
    firedOf i (tailStep react k mc e).log = firedOf i mc.log ∧
    (react.noRecv i → (tailStep react k mc e).heap i = mc.heap i) := by
  refine ⟨?_, ?_, ?_⟩
  · rw [tailStep_heap_ne _ _ _ _ _ hne, runOps_noChan _ _ _ (by simpa using hi) (hl _ _),
      fire_heap_ne _ _ _ hne]
  · rw [tailStep_log, fire_firedOf_ne _ _ _ hne]
  · intro hc
    rw [tailStep_heap_ne _ _ _ _ _ hne,
      runOps_heap_same _ _ _ (by simpa using hi) (hl _ _) (hc _ _), fire_heap_ne _ _ _ hne]

/-- Simple form of the invariant rule: a property of the clock state that survives the merge,
a re-sort and a firing step holds of the state in which `Set` assigns the target time. -/
theorem Set_inv (srt : Sorter) (react : Reactor) (now : Time) (P : manualClock → Prop)
    (mc : manualClock) (h0 : P mc.merge)
    (hres : ∀ m last, P m → P (resort srt m last))
    (hstep : ∀ k m last e, Head now m last → P m → m.events.getLast? = some e →
      P (tailStep react k m e))
    (fuel : Nat) (mc' : manualClock) (h : mc.Set srt react fuel now = .done mc') :
    ∃ m, P m ∧ mc' = { m with now := now } := by
  refine Set_rule srt react now (fun _ m _ => P m) P mc ?_ ?_ fuel mc' h
  · exact ⟨fun _ => h0, fun _ => ⟨fun _ => hres _ _ h0, fun _ => hres _ _ h0⟩⟩
  · intro k m last e hH hP he
    have := hstep k m last e hH hP he
    exact ⟨fun _ => this, fun _ => ⟨fun _ => hres _ _ this, fun _ => hres _ _ this⟩⟩

/-- A stopped record that the consumers do not reset stays stopped through an advance and
gets no delivery; its channel never gains a value. -/
theorem Set_stopped (srt : Sorter) (react : Reactor) (fuel : Nat) (mc mc' : manualClock)
    (now : Time) (i : Nat) (hi : i < mc.nalloc) (hst : (mc.heap i).stopped = true)
    (hr : react.noReset i) (h : mc.Set srt react fuel now = .done mc') :
    i < mc'.nalloc ∧ (mc'.heap i).stopped = true ∧ firedOf i mc'.log = firedOf i mc.log ∧
    ((mc'.heap i).c = (mc.heap i).c ∨ (mc'.heap i).c = none) := by
  suffices hstep : _ by
    obtain ⟨m, hm, rfl⟩ := Set_inv srt react now
      (fun m => i < m.nalloc ∧ (m.heap i).stopped = true ∧ firedOf i m.log = firedOf i mc.log ∧
        ((m.heap i).c = (mc.heap i).c ∨ (m.heap i).c = none)) mc
      ⟨hi, hst, rfl, Or.inl rfl⟩ (fun m last hP => hP) hstep fuel mc' h
    exact hm
  · intro k m last e _ hP he
    obtain ⟨h1, h2, h3, h4⟩ := hP
    have hfs : ((m.fire e).heap i).stopped = true ∧ firedOf i (m.fire e).log = firedOf i m.log
        ∧ ((m.fire e).heap i).c = (m.heap i).c := by
      by_cases hie : i = e
      · subst hie
        have := fire_stopped m i h2
        rw [this.1, this.2]
        exact ⟨h2, rfl, rfl⟩
      · rw [fire_heap_ne _ _ _ hie, fire_firedOf_ne _ _ _ hie]
        exact ⟨h2, rfl, rfl⟩
    have hro := runOps_stopped (react k (m.fire e)) (m.fire e) i (by simpa using h1)
      (hr _ _) hfs.1
    have hch := runOps_chan (react k (m.fire e)) (m.fire e) i (by simpa using h1)
    refine ⟨lt_of_lt_of_le h1 (tailStep_nalloc_le _ _ _ _), ?_, ?_, ?_⟩
    · by_cases hie : i = e
      · subst hie
        rw [tailStep_heap_self, hro]
        simp [hro]
      · rw [tailStep_heap_ne _ _ _ _ _ hie]
        exact hro
    · rw [tailStep_log, hfs.2.1, h3]
    · have hc2 : ((tailStep react k m e).heap i).c
          = ((runOps (m.fire e) (react k (m.fire e))).heap i).c := by
        by_cases hie : i = e
        · subst hie
          rw [tailStep_heap_self]
          split <;> rfl
        · rw [tailStep_heap_ne _ _ _ _ _ hie]
      rw [hc2]
      rcases hch with hch | hch
      · rw [hch, hfs.2.2]; exact h4
      · exact Or.inr hch

/-- A record that is not due and that the consumers neither stop nor reset comes out of
an advance as it went in, its channel contents apart, and without a delivery; when the consumers
do not receive from it either, the whole record is unchanged. -/
theorem Set_notDue (srt : Sorter) (react : Reactor) (fuel : Nat) (mc mc' : manualClock)
    (now : Time) (i : Nat) (hi : i < mc.nalloc) (hlate : now < (mc.heap i).next)
    (hl : react.leaves i) (h : mc.Set srt react fuel now = .done mc') :
    i < mc'.nalloc ∧ (mc'.heap i).noChan = (mc.heap i).noChan ∧
    firedOf i mc'.log = firedOf i mc.log ∧
    (react.noRecv i → mc'.heap i = mc.heap i) ∧
    (i ∈ mc.events ++ mc.newEvents → i ∈ mc'.events) := by
  suffices hstep : _ by
    obtain ⟨m, hm, rfl⟩ := Set_inv srt react now
      (fun m => i < m.nalloc ∧ (m.heap i).noChan = (mc.heap i).noChan ∧
        firedOf i m.log = firedOf i mc.log ∧ (react.noRecv i → m.heap i = mc.heap i) ∧
        (i ∈ mc.events ++ mc.newEvents → i ∈ m.events)) mc
      ⟨hi, rfl, rfl, fun _ => rfl, fun ht => ht⟩
      (fun m last hP => ⟨hP.1, hP.2.1, hP.2.2.1, hP.2.2.2.1,
        fun ht => (resort_perm srt m last).mem_iff.2 (hP.2.2.2.2 ht)⟩) hstep fuel mc' h
    exact hm
  · intro k m last e hH hP he
    obtain ⟨h1, h2, h3, h4, h5⟩ := hP
    have hne : i ≠ e := by
      intro hie
      subst hie
      have hdue := hH.tail_due he
      have hk : m.key i = (mc.heap i).next := (noChan_fields h2).1
      rw [hk] at hdue
      exact lt_irrefl _ (lt_of_lt_of_le hlate hdue)
    obtain ⟨t1, t2, t3⟩ := tailStep_other react k m e i hne h1 hl
    exact ⟨lt_of_lt_of_le h1 (tailStep_nalloc_le _ _ _ _), t1.trans h2, t2.trans h3,
      fun hc => (t3 hc).trans (h4 hc),
      fun ht => by
        have := mem_drop_tailStep_ne react k m 0 e i he (by simpa using h5 ht) hne
        simpa using this⟩



theorem drop_eq_nil_of_len_le (l : List Nat) (n i : Nat) (h : l.length ≤ n) (hi : i ∈ l.drop n) :
    False := by
  rw [List.drop_eq_nil_of_le h] at hi
  cases hi

/-- Two-phase invariant rule for following one record `i` through an advance: while phase
`A` lasts the record sits in the due slice; a firing step either keeps phase `A` or moves to
phase `B`, which is then kept until the advance ends. -/
theorem Set_phase (srt : Sorter) (react : Reactor) (now : Time) (i : Nat)
    (A B : manualClock → Prop) (mc : manualClock)
    (hAres : ∀ m last, A m → A (resort srt m last))
    (hBres : ∀ m last, B m → B (resort srt m last))
    (hAkey : ∀ m, A m → m.key i ≤ now)
    (h0 : (A mc.merge ∧ i ∈ mc.merge.events) ∨ B mc.merge)
    (hstepA : ∀ k m last e, Head now m last → A m → i ∈ m.events.drop last →
      m.events.getLast? = some e →
      B (tailStep react k m e) ∨
        (A (tailStep react k m e) ∧ i ∈ (tailStep react k m e).events.drop last))
    (hstepB : ∀ k m last e, Head now m last → B m → m.events.getLast? = some e →
      B (tailStep react k m e))
    (fuel : Nat) (mc' : manualClock) (h : mc.Set srt react fuel now = .done mc') :
    ∃ m, B m ∧ mc' = { m with now := now } := by
  have hgen : ∀ (m : manualClock) (last : Nat), last ≤ m.events.length →
      ((A m ∧ i ∈ m.events.drop last) ∨ B m) →
      (m.events = [] → B m) ∧
      (m.events ≠ [] →
        ((resort srt m last).events.length ≤ newLast now (resort srt m last) last →
          B (resort srt m last)) ∧
        (newLast now (resort srt m last) last < (resort srt m last).events.length →
          ((A (resort srt m last) ∧
            i ∈ (resort srt m last).events.drop (newLast now (resort srt m last) last)) ∨
            B (resort srt m last)))) := by
    intro m last hlast hAB
    rcases hAB with ⟨hA, hi⟩ | hB
    · have hi2 := mem_drop_newLast srt now m last i hlast hi (hAkey m hA)
      refine ⟨fun hnil => ?_, fun _ => ⟨fun hx => ?_, fun _ => Or.inl ⟨hAres _ _ hA, hi2⟩⟩⟩
      · have := List.mem_of_mem_drop hi
        rw [hnil] at this
        cases this
      · exact (drop_eq_nil_of_len_le _ _ _ hx hi2).elim
    · exact ⟨fun _ => hB, fun _ => ⟨fun _ => hBres _ _ hB, fun _ => Or.inr (hBres _ _ hB)⟩⟩
  refine Set_rule srt react now
    (fun _ m last => (A m ∧ i ∈ m.events.drop last) ∨ B m) B mc ?_ ?_ fuel mc' h
  · have := hgen mc.merge 0 (Nat.zero_le _) (by simpa using h0)
    exact ⟨this.1, fun hne => ⟨(this.2 hne).1, fun hH => (this.2 hne).2 hH.1⟩⟩
  · intro k m last e hH hI he
    have hlen := tailStep_length_ge react k m e
    have hl4 : last ≤ (tailStep react k m e).events.length := by have := hH.1; omega
    have hAB : (A (tailStep react k m e) ∧ i ∈ (tailStep react k m e).events.drop last) ∨
        B (tailStep react k m e) := by
      rcases hI with ⟨hA, hi⟩ | hB
      · rcases hstepA k m last e hH hA hi he with hB | hA2
        · exact Or.inr hB
        · exact Or.inl hA2
      · exact Or.inr (hstepB k m last e hH hB he)
    exact hgen _ last hl4 hAB

/-- What `play` does to a record that is not stopped. -/
theorem play_active (e : event) (t : Time) (h : e.stopped = false) :
    (e.play t).d = e.d ∧ (e.play t).fn = e.fn ∧ (e.play t).removed = e.removed ∧
    (e.d = 0 → (e.play t).stopped = true ∧ (e.play t).next = e.next) ∧
    (e.d ≠ 0 → (e.play t).stopped = false ∧ (e.play t).next = t + e.d) := by
  unfold event.play
  simp only [event.Stopped, h, Bool.false_eq_true, if_false]
  by_cases hd : e.d = 0
  · simp only [hd, ne_eq, not_true_eq_false, if_false]
    split
    · simp
    · split <;> simp
  · simp only [hd, ne_eq, not_false_eq_true, if_true]
    split
    · simp [h]
    · split <;> simp [h]

/-- A record that is due, not stopped and tracked, and that the consumers neither stop nor reset,
is fired by the advance with its scheduled time as timestamp; a one-shot record is fired exactly
once and is stopped afterwards. -/
theorem Set_due (srt : Sorter) (react : Reactor) (fuel : Nat) (mc mc' : manualClock)
    (now : Time) (i : Nat) (hi : i < mc.nalloc) (htr : i ∈ mc.events ++ mc.newEvents)
    (hns : (mc.heap i).stopped = false) (hdue : (mc.heap i).next ≤ now)
    (hl : react.leaves i) (h : mc.Set srt react fuel now = .done mc') :
    i < mc'.nalloc ∧
    ∃ rest, firedOf i mc'.log = firedOf i mc.log ++
        delivered i (mc.heap i).next :: rest ∧
      ((mc.heap i).d = 0 → rest = [] ∧ (mc'.heap i).stopped = true) := by
  have hnr : react.noReset i := fun k s o ho => (hl k s o ho).2
  obtain ⟨m, hm, rfl⟩ := Set_phase srt react now i
    (fun m => i < m.nalloc ∧ (m.heap i).noChan = (mc.heap i).noChan ∧
      firedOf i m.log = firedOf i mc.log)
    (fun m => i < m.nalloc ∧
      ∃ rest, firedOf i m.log = firedOf i mc.log ++
        delivered i (mc.heap i).next :: rest ∧
      ((mc.heap i).d = 0 → rest = [] ∧ (m.heap i).stopped = true)) mc
    (fun m last hP => hP) (fun m last hP => hP)
    (fun m hA => by
      have : m.key i = (mc.heap i).next := (noChan_fields hA.2.1).1
      rw [this]; exact hdue)
    (Or.inl ⟨⟨hi, rfl, rfl⟩, htr⟩)
    (by
      intro k m last e hH hA hmem he
      obtain ⟨h1, h2, h3⟩ := hA
      have hf := noChan_fields h2
      by_cases hie : i = e
      · subst hie
        left
        have hact : (m.heap i).stopped = false := by rw [hf.2.2.2.1]; exact hns
        obtain ⟨a1, a2⟩ := fire_active m i hact
        obtain ⟨p1, p2, p3, p4, p5⟩ := play_active (m.heap i) (m.key i) hact
        refine ⟨lt_of_lt_of_le h1 (tailStep_nalloc_le _ _ _ _), [], ?_, ?_⟩
        · rw [tailStep_log, a2, firedOf_append, h3]
          have hk : m.key i = (mc.heap i).next := hf.1
          simp [firedOf, hk, delivered]
        · intro hd0
          refine ⟨rfl, ?_⟩
          have hst : ((m.fire i).heap i).stopped = true := by
            rw [a1]
            exact (p4 (by rw [hf.2.1]; exact hd0)).1
          have hro := runOps_stopped (react k (m.fire i)) (m.fire i) i (by simpa using h1)
            (hnr _ _) hst
          rw [tailStep_heap_self, hro]
          simp [hro]
      · right
        obtain ⟨t1, t2, _⟩ := tailStep_other react k m e i hie h1 hl
        exact ⟨⟨lt_of_lt_of_le h1 (tailStep_nalloc_le _ _ _ _), t1.trans h2, t2.trans h3⟩,
          mem_drop_tailStep_ne react k m last e i he hmem hie⟩)
    (by
      intro k m last e hH hB he
      obtain ⟨h1, rest, h2, h3⟩ := hB
      refine ⟨lt_of_lt_of_le h1 (tailStep_nalloc_le _ _ _ _), ?_⟩
      by_cases hie : i = e
      · subst hie
        by_cases hd0 : (mc.heap i).d = 0
        · obtain ⟨r0, hst⟩ := h3 hd0
          have hfs := fire_stopped m i hst
          refine ⟨rest, ?_, fun _ => ⟨r0, ?_⟩⟩
          · rw [tailStep_log, hfs.2, h2]
          · have hro := runOps_stopped (react k (m.fire i)) (m.fire i) i (by simpa using h1)
              (hnr _ _) (by rw [hfs.1]; exact hst)
            rw [tailStep_heap_self, hro]
            simp [hro]
        · rw [tailStep_log]
          have hlog : ∃ extra, firedOf i (m.fire i).log = firedOf i m.log ++ extra := by
            cases hs : (m.heap i).stopped with
            | true => exact ⟨[], by rw [(fire_stopped m i hs).2]; simp⟩
            | false => exact ⟨_, by rw [(fire_active m i hs).2, firedOf_append]⟩
          obtain ⟨extra, hex⟩ := hlog
          exact ⟨rest ++ extra, by rw [hex, h2]; simp, fun hd => absurd hd hd0⟩
      · obtain ⟨t1, t2, _⟩ := tailStep_other react k m e i hie h1 hl
        refine ⟨rest, t2.trans h2, fun hd => ⟨(h3 hd).1, ?_⟩⟩
        rw [(noChan_fields t1).2.2.2.1]
        exact (h3 hd).2)
    fuel mc' h
  exact hm



/-- A record other than the tail stays in the registry through `tailStep`. -/
theorem mem_tailStep_ne (react : Reactor) (k : Nat) (mc : manualClock) (e i : Nat)
    (he : mc.events.getLast? = some e) (hi : i ∈ mc.events) (hne : i ≠ e) :
    i ∈ (tailStep react k mc e).events := by
  have := mem_drop_tailStep_ne react k mc 0 e i he (by simpa using hi) hne
  simpa using this

/-- The deliveries of a ticker whose first tick is due at `nx`: `n` ticks, `d` apart. -/
theorem ticks_succ (i : Nat) (nx d : Time) (n : Nat) :
    ticks i nx d (n + 1) = ticks i nx d n ++ [delivered i (nx + (n : Int) * d)] := by
  unfold ticks
  rw [List.range_succ, List.map_append]
  simp

/-- A ticker that is tracked and that the consumers neither stop nor reset: an advance fires
it at `nx`, `nx + d`, ... as long as these times do not exceed the target, and leaves its next
fire time just beyond the target. -/
theorem Set_ticker (srt : Sorter) (react : Reactor) (fuel : Nat) (mc mc' : manualClock)
    (now : Time) (i : Nat) (hi : i < mc.nalloc) (htr : i ∈ mc.events ++ mc.newEvents)
    (hns : (mc.heap i).stopped = false) (hd : 0 < (mc.heap i).d)
    (hl : react.leaves i) (h : mc.Set srt react fuel now = .done mc') :
    i < mc'.nalloc ∧ i ∈ mc'.events ++ mc'.newEvents ∧
    ∃ n : Nat, (mc'.heap i).next = (mc.heap i).next + (n : Int) * (mc.heap i).d ∧
      (mc'.heap i).d = (mc.heap i).d ∧ (mc'.heap i).stopped = false ∧
      firedOf i mc'.log = firedOf i mc.log ++ ticks i (mc.heap i).next (mc.heap i).d n ∧
      now < (mc.heap i).next + (n : Int) * (mc.heap i).d ∧
      (1 ≤ n → (mc.heap i).next + ((n : Int) - 1) * (mc.heap i).d ≤ now) := by
  obtain ⟨m, hm, rfl⟩ := Set_phase srt react now i
    (fun m => i < m.nalloc ∧
      ∃ n : Nat, (m.heap i).next = (mc.heap i).next + (n : Int) * (mc.heap i).d ∧
      (m.heap i).d = (mc.heap i).d ∧ (m.heap i).stopped = false ∧
      firedOf i m.log = firedOf i mc.log ++ ticks i (mc.heap i).next (mc.heap i).d n ∧
      (mc.heap i).next + (n : Int) * (mc.heap i).d ≤ now)
    (fun m => i < m.nalloc ∧ i ∈ m.events ∧
      ∃ n : Nat, (m.heap i).next = (mc.heap i).next + (n : Int) * (mc.heap i).d ∧
      (m.heap i).d = (mc.heap i).d ∧ (m.heap i).stopped = false ∧
      firedOf i m.log = firedOf i mc.log ++ ticks i (mc.heap i).next (mc.heap i).d n ∧
      now < (mc.heap i).next + (n : Int) * (mc.heap i).d ∧
      (1 ≤ n → (mc.heap i).next + ((n : Int) - 1) * (mc.heap i).d ≤ now)) mc
    (fun m last hP => hP)
    (fun m last hP => ⟨hP.1, (resort_perm srt m last).mem_iff.2 hP.2.1, hP.2.2⟩)
    (fun m hA => by
      obtain ⟨_, n, h1, _, _, _, h5⟩ := hA
      show (m.heap i).next ≤ now
      rw [h1]; exact h5)
    (by
      by_cases hdue : (mc.heap i).next ≤ now
      · exact Or.inl ⟨⟨hi, 0, by simp [manualClock.merge], rfl, hns,
          by simp [manualClock.merge, ticks], by simpa using hdue⟩, htr⟩
      · exact Or.inr ⟨hi, htr, 0, by simp [manualClock.merge], rfl, hns,
          by simp [manualClock.merge, ticks], by simpa using hdue, by simp⟩)
    (by
      intro k m last e hH hA hmem he
      obtain ⟨h1, n, a1, a2, a3, a4, a5⟩ := hA
      have hlt := lt_of_lt_of_le h1 (tailStep_nalloc_le react k m e)
      by_cases hie : i = e
      · subst hie
        obtain ⟨f1, f2⟩ := fire_active m i a3
        obtain ⟨p1, p2, p3, p4, p5⟩ := play_active (m.heap i) (m.key i) a3
        have hdne : (m.heap i).d ≠ 0 := by rw [a2]; exact ne_of_gt hd
        have hro := runOps_noChan (react k (m.fire i)) (m.fire i) i (by simpa using h1) (hl _ _)
        have hf := noChan_fields hro
        rw [f1] at hf
        have hns2 : ((runOps (m.fire i) (react k (m.fire i))).heap i).stopped = false := by
          rw [hf.2.2.2.1]; exact (p5 hdne).1
        have hself : (tailStep react k m i).heap i
            = (runOps (m.fire i) (react k (m.fire i))).heap i := by
          rw [tailStep_heap_self, hns2]; simp
        have hmem2 := mem_drop_tailStep_self react k m last i he hH.1 hns2
        have hnext : ((tailStep react k m i).heap i).next
            = (mc.heap i).next + ((n + 1 : Nat) : Int) * (mc.heap i).d := by
          rw [hself, hf.1, (p5 hdne).2, a2]
          show (m.heap i).next + (mc.heap i).d = _
          rw [a1]; push_cast; ring
        have hlog : firedOf i (tailStep react k m i).log = firedOf i mc.log ++ ticks i (mc.heap i).next (mc.heap i).d (n + 1) := by
          rw [tailStep_log, f2, firedOf_append, a4, ticks_succ]
          have : m.key i = (mc.heap i).next + (n : Int) * (mc.heap i).d := a1
          simp [firedOf, delivered, this]
        by_cases hnext2 : (mc.heap i).next + ((n + 1 : Nat) : Int) * (mc.heap i).d ≤ now
        · right
          exact ⟨⟨hlt, n + 1, hnext, by rw [hself, hf.2.1, p1, a2], by rw [hself]; exact hns2,
            hlog, hnext2⟩, hmem2⟩
        · left
          refine ⟨hlt, List.mem_of_mem_drop hmem2, n + 1, hnext, by rw [hself, hf.2.1, p1, a2],
            by rw [hself]; exact hns2, hlog, lt_of_not_le hnext2, fun _ => ?_⟩
          push_cast
          simpa using a5
      · right
        obtain ⟨t1, t2, _⟩ := tailStep_other react k m e i hie h1 hl
        have hf := noChan_fields t1
        exact ⟨⟨hlt, n, by rw [hf.1, a1], by rw [hf.2.1, a2], by rw [hf.2.2.2.1, a3],
          by rw [t2, a4], a5⟩, mem_drop_tailStep_ne react k m last e i he hmem hie⟩)
    (by
      intro k m last e hH hB he
      obtain ⟨h1, hmem, n, a1, a2, a3, a4, a5, a6⟩ := hB
      have hie : i ≠ e := by
        intro hie
        subst hie
        have hdue : (m.heap i).next ≤ now := hH.tail_due he
        rw [a1] at hdue
        exact lt_irrefl _ (lt_of_lt_of_le a5 hdue)
      obtain ⟨t1, t2, _⟩ := tailStep_other react k m e i hie h1 hl
      have hf := noChan_fields t1
      exact ⟨lt_of_lt_of_le h1 (tailStep_nalloc_le react k m e),
        mem_tailStep_ne react k m e i he hmem hie, n, by rw [hf.1, a1], by rw [hf.2.1, a2],
        by rw [hf.2.2.2.1, a3], by rw [t2, a4], a5, a6⟩)
    fuel mc' h
  obtain ⟨h1, hmem, n, hn⟩ := hm
  exact ⟨h1, List.mem_append_left _ hmem, n, hn⟩


/-! ## Timestamps of the deliveries of one advance -/

/-- Every delivery made during an advance carries the clock reading of its moment as
timestamp, and that reading is not after the target. -/
theorem Set_log_stamps (srt : Sorter) (react : Reactor) (fuel : Nat) (mc mc' : manualClock)
    (now : Time) (h : mc.Set srt react fuel now = .done mc') :
    ∃ added, mc'.log = mc.log ++ added ∧ ∀ x ∈ added, x.clock = x.stamp ∧ x.stamp ≤ now := by
  suffices hstep : _ by
    obtain ⟨m, hm, rfl⟩ := Set_inv srt react now
      (fun m => ∃ added, m.log = mc.log ++ added ∧ ∀ x ∈ added, x.clock = x.stamp ∧ x.stamp ≤ now)
      mc ⟨[], by simp [manualClock.merge], by simp⟩ (fun m last hP => hP) hstep fuel mc' h
    exact hm
  intro k m last e hH hP he
  obtain ⟨added, h1, h2⟩ := hP
  rw [tailStep_log]
  cases hs : (m.heap e).stopped with
  | true => rw [(fire_stopped m e hs).2]; exact ⟨added, h1, h2⟩
  | false =>
    rw [(fire_active m e hs).2, h1]
    refine ⟨added ++ [delivered e (m.key e)], by simp, ?_⟩
    intro x hx
    rcases List.mem_append.1 hx with hx | hx
    · exact h2 x hx
    · simp at hx
      subst hx
      exact ⟨rfl, hH.tail_due he⟩

/-- An operation with a non-negative duration leaves each fire time as it was or moves it to
the clock reading or later; what it appends to the buffer has such a fire time; intervals stay
non-negative. -/
theorem applyOp_key (mc : manualClock) (o : Op) (ho : o.nonneg) :
    (∀ j, (applyOp mc o).key j = mc.key j ∨ mc.now ≤ (applyOp mc o).key j) ∧
    (∀ j ∈ (applyOp mc o).newEvents, j ∈ mc.newEvents ∨ mc.now ≤ (applyOp mc o).key j) ∧
    ((∀ j, 0 ≤ (mc.heap j).d) → ∀ j, 0 ≤ ((applyOp mc o).heap j).d) := by
  cases o with
  | stop i =>
    simp only [applyOp]
    split
    · refine ⟨fun j => Or.inl ?_, fun j hj => Or.inl hj, fun hd j => ?_⟩
      · by_cases hji : j = i
        · subst hji; simp [manualClock.key, Timer.Stop, event.Next]
        · simp [manualClock.key, Function.update_apply, hji]
      · by_cases hji : j = i
        · subst hji; simpa [Timer.Stop] using hd j
        · simpa [Function.update_apply, hji] using hd j
    · exact ⟨fun j => Or.inl rfl, fun j hj => Or.inl hj, fun hd => hd⟩
  | reset i d =>
    have hd0 : (0 : Int) ≤ d := ho
    simp only [applyOp, Timer.Reset, manualClock.addEvent, manualClock.Now]
    split
    · split
      · refine ⟨fun j => ?_, fun j hj => ?_, fun hd j => ?_⟩
        · by_cases hji : j = i
          · subst hji; right; simp [manualClock.key, event.Next]; exact hd0
          · left; simp [manualClock.key, Function.update_apply, hji]
        · simp only [List.mem_append, List.mem_singleton] at hj
          rcases hj with hj | hj
          · exact Or.inl hj
          · subst hj; right; simp [manualClock.key, event.Next]; exact hd0
        · by_cases hji : j = i
          · subst hji; simpa using hd j
          · simpa [Function.update_apply, hji] using hd j
      · refine ⟨fun j => ?_, fun j hj => Or.inl hj, fun hd j => ?_⟩
        · by_cases hji : j = i
          · subst hji; right; simp [manualClock.key, event.Next]; exact hd0
          · left; simp [manualClock.key, Function.update_apply, hji]
        · by_cases hji : j = i
          · subst hji; simpa using hd j
          · simpa [Function.update_apply, hji] using hd j
    · exact ⟨fun j => Or.inl rfl, fun j hj => Or.inl hj, fun hd => hd⟩
  | newTimer d =>
    have hd0 : (0 : Int) ≤ d := ho
    simp only [applyOp, manualClock.NewTimer, manualClock.addEvent, manualClock.Now]
    refine ⟨fun j => ?_, fun j hj => ?_, fun hd j => ?_⟩
    · by_cases hji : j = mc.nalloc
      · subst hji; right; simp [manualClock.key, event.Next]; exact hd0
      · left; simp [manualClock.key, Function.update_apply, hji]
    · simp only [List.mem_append, List.mem_singleton] at hj
      rcases hj with hj | hj
      · exact Or.inl hj
      · subst hj; right; simp [manualClock.key, event.Next]; exact hd0
    · by_cases hji : j = mc.nalloc
      · subst hji; simp
      · simpa [Function.update_apply, hji] using hd j
  | afterFunc d =>
    have hd0 : (0 : Int) ≤ d := ho
    simp only [applyOp, manualClock.AfterFunc, manualClock.NewTimer, manualClock.addEvent,
      manualClock.Now]
    refine ⟨fun j => ?_, fun j hj => ?_, fun hd j => ?_⟩
    · by_cases hji : j = mc.nalloc
      · subst hji; right; simp [manualClock.key, event.Next]; exact hd0
      · left; simp [manualClock.key, Function.update_apply, hji]
    · simp only [List.mem_append, List.mem_singleton] at hj
      rcases hj with hj | hj
      · exact Or.inl hj
      · subst hj; right; simp [manualClock.key, event.Next]; exact hd0
    · by_cases hji : j = mc.nalloc
      · subst hji; simp
      · simpa [Function.update_apply, hji] using hd j
  | newTicker d =>
    have hd0 : (0 : Int) ≤ d := ho
    simp only [applyOp, manualClock.NewTicker, manualClock.addEvent, manualClock.Now]
    refine ⟨fun j => ?_, fun j hj => ?_, fun hd j => ?_⟩
    · by_cases hji : j = mc.nalloc
      · subst hji; right; simp [manualClock.key, event.Next]; exact hd0
      · left; simp [manualClock.key, Function.update_apply, hji]
    · simp only [List.mem_append, List.mem_singleton] at hj
      rcases hj with hj | hj
      · exact Or.inl hj
      · subst hj; right; simp [manualClock.key, event.Next]; exact hd0
    · by_cases hji : j = mc.nalloc
      · subst hji; simpa using hd0
      · simpa [Function.update_apply, hji] using hd j
  | recv i =>
    simp only [applyOp, manualClock.recv]
    split
    · refine ⟨fun j => Or.inl ?_, fun j hj => Or.inl hj, fun hd j => ?_⟩
      · by_cases hji : j = i
        · subst hji; simp [manualClock.key, event.Next]
        · simp [manualClock.key, Function.update_apply, hji]
      · by_cases hji : j = i
        · subst hji; simpa using hd j
        · simpa [Function.update_apply, hji] using hd j
    · exact ⟨fun j => Or.inl rfl, fun j hj => Or.inl hj, fun hd => hd⟩

theorem runOps_key (os : List Op) : ∀ (mc : manualClock), (∀ o ∈ os, o.nonneg) →
    (∀ j, (runOps mc os).key j = mc.key j ∨ mc.now ≤ (runOps mc os).key j) ∧
    (∀ j ∈ (runOps mc os).newEvents, j ∈ mc.newEvents ∨ mc.now ≤ (runOps mc os).key j) ∧
    ((∀ j, 0 ≤ (mc.heap j).d) → ∀ j, 0 ≤ ((runOps mc os).heap j).d) := by
  induction os with
  | nil => intro mc _; exact ⟨fun j => Or.inl rfl, fun j hj => Or.inl hj, fun hd => hd⟩
  | cons o os ih =>
    intro mc h
    obtain ⟨a1, a2, a3⟩ := applyOp_key mc o (h o (List.mem_cons_self _ _))
    obtain ⟨b1, b2, b3⟩ := ih (applyOp mc o) (fun o' ho' => h o' (List.mem_cons_of_mem _ ho'))
    rw [applyOp_now] at b1 b2
    refine ⟨fun j => ?_, fun j hj => ?_, fun hd => b3 (a3 hd)⟩
    · rcases b1 j with hb | hb
      · rcases a1 j with ha | ha
        · exact Or.inl (hb.trans ha)
        · right; rw [runOps, hb]; exact ha
      · exact Or.inr hb
    · rcases b2 j hj with hb | hb
      · rcases a2 j hb with ha | ha
        · exact Or.inl ha
        · rcases b1 j with hc | hc
          · right; rw [runOps, hc]; exact ha
          · exact Or.inr hc
      · exact Or.inr hb



theorem mem_drop_append_cases (A B : List Nat) (n j : Nat) (h : j ∈ (A ++ B).drop n) :
    j ∈ A.drop n ∨ j ∈ B := by
  rw [List.drop_append_eq_append_drop] at h
  rcases List.mem_append.1 h with h | h
  · exact Or.inl h
  · exact Or.inr (List.mem_of_mem_drop h)

theorem mem_drop_dropLast (l : List Nat) (n j : Nat) (h : j ∈ l.dropLast.drop n) :
    j ∈ l.drop n := by
  rw [List.dropLast_eq_take, List.drop_take] at h
  exact List.mem_of_mem_take h

/-- Fire times after `fire`: unchanged, or not before the time of the fired record. -/
theorem fire_key (mc : manualClock) (e : Nat) (hd : 0 ≤ (mc.heap e).d) (j : Nat) :
    (mc.fire e).key j = mc.key j ∨ mc.key e ≤ (mc.fire e).key j := by
  by_cases hje : j = e
  · subst hje
    cases hs : (mc.heap j).stopped with
    | true => left; unfold manualClock.key; rw [(fire_stopped mc j hs).1]
    | false =>
      obtain ⟨f1, _⟩ := fire_active mc j hs
      obtain ⟨_, _, _, p4, p5⟩ := play_active (mc.heap j) (mc.key j) hs
      by_cases hd0 : (mc.heap j).d = 0
      · left
        show ((mc.fire j).heap j).next = (mc.heap j).next
        rw [f1]; exact (p4 hd0).2
      · right
        show mc.key j ≤ ((mc.fire j).heap j).next
        rw [f1, (p5 hd0).2]
        linarith
  · left
    unfold manualClock.key
    rw [fire_heap_ne mc e j hje]

theorem fire_d (mc : manualClock) (e j : Nat) : ((mc.fire e).heap j).d = (mc.heap j).d := by
  by_cases hje : j = e
  · subst hje
    cases hs : (mc.heap j).stopped with
    | true => rw [(fire_stopped mc j hs).1]
    | false => rw [(fire_active mc j hs).1]; exact (play_active _ _ hs).1
  · rw [fire_heap_ne mc e j hje]

theorem tailStep_key_d (react : Reactor) (k : Nat) (mc : manualClock) (e j : Nat) :
    (tailStep react k mc e).key j = (runOps (mc.fire e) (react k (mc.fire e))).key j ∧
    ((tailStep react k mc e).heap j).d
      = ((runOps (mc.fire e) (react k (mc.fire e))).heap j).d := by
  by_cases hje : j = e
  · subst hje
    unfold manualClock.key
    rw [tailStep_heap_self]
    split <;> exact ⟨rfl, rfl⟩
  · unfold manualClock.key
    rw [tailStep_heap_ne _ _ _ _ _ hje]
    exact ⟨rfl, rfl⟩

/-- With non-negative intervals and durations, the deliveries of one advance are made in
order of time: the timestamps appended to the log are non-decreasing. -/
theorem Set_ordered (srt : Sorter) (react : Reactor) (fuel : Nat) (mc mc' : manualClock)
    (now : Time) (hd : ∀ j, 0 ≤ (mc.heap j).d) (hnn : react.nonneg)
    (h : mc.Set srt react fuel now = .done mc') :
    ∃ added, mc'.log = mc.log ++ added ∧
      (added.map (fun x => x.stamp)).Pairwise (fun a b => a ≤ b) := by
  suffices hstep : _ by
    obtain ⟨m, hm, rfl⟩ := Set_rule srt react now
      (fun _ m last => (∀ j, 0 ≤ (m.heap j).d) ∧ ∃ added, m.log = mc.log ++ added ∧
        (added.map (fun x => x.stamp)).Pairwise (fun a b => a ≤ b) ∧
        ∀ x ∈ added, ∀ j ∈ m.events.drop last, x.stamp ≤ m.key j)
      (fun m => ∃ added, m.log = mc.log ++ added ∧
        (added.map (fun x => x.stamp)).Pairwise (fun a b => a ≤ b)) mc
      ⟨fun _ => ⟨[], by simp [manualClock.merge], by simp⟩,
        fun _ => ⟨fun _ => ⟨[], by simp [manualClock.merge], by simp⟩,
          fun _ => ⟨hd, [], by simp [manualClock.merge], by simp, by simp⟩⟩⟩
      hstep fuel mc' h
    exact hm
  intro k m last e hH hI he
  obtain ⟨hdm, added, h1, h2, h3⟩ := hI
  have hemem := getLast_mem_drop _ _ _ hH.1 he
  have hmin := hH.tail_min he
  -- the log after the step
  have hlog : ∃ added', (tailStep react k m e).log = mc.log ++ added' ∧
      (added'.map (fun x => x.stamp)).Pairwise (fun a b => a ≤ b) ∧
      ∀ x ∈ added', x.stamp ≤ m.key e := by
    rw [tailStep_log]
    cases hs : (m.heap e).stopped with
    | true =>
      rw [(fire_stopped m e hs).2]
      exact ⟨added, h1, h2, fun x hx => h3 x hx e hemem⟩
    | false =>
      rw [(fire_active m e hs).2, h1]
      refine ⟨added ++ [delivered e (m.key e)], by simp, ?_, ?_⟩
      · rw [List.map_append, List.pairwise_append]
        refine ⟨h2, by simp, ?_⟩
        intro a ha b hb
        obtain ⟨x, hx, rfl⟩ := List.mem_map.1 ha
        simp [delivered] at hb
        subst hb
        exact h3 x hx e hemem
      · intro x hx
        rcases List.mem_append.1 hx with hx | hx
        · exact h3 x hx e hemem
        · simp at hx; subst hx; exact le_refl _
  obtain ⟨added', l1, l2, l3⟩ := hlog
  -- fire times after the step
  have hro := runOps_key (react k (m.fire e)) (m.fire e) (hnn _ _)
  have hnowf : (m.fire e).now = m.key e := fire_now m e
  rw [hnowf] at hro
  obtain ⟨r1, r2, r3⟩ := hro
  have hkey : ∀ j, (tailStep react k m e).key j = m.key j ∨
      m.key e ≤ (tailStep react k m e).key j := by
    intro j
    rw [(tailStep_key_d react k m e j).1]
    rcases r1 j with hr | hr
    · rcases fire_key m e (hdm e) j with hf | hf
      · exact Or.inl (hr.trans hf)
      · right; rw [hr]; exact hf
    · exact Or.inr hr
  have hdT : ∀ j, 0 ≤ ((tailStep react k m e).heap j).d := by
    intro j
    rw [(tailStep_key_d react k m e j).2]
    exact r3 (fun j => by rw [fire_d]; exact hdm j) j
  have hsuf : ∀ j ∈ (tailStep react k m e).events.drop last,
      m.key e ≤ (tailStep react k m e).key j := by
    intro j hj
    rw [tailStep_events] at hj
    rcases mem_drop_append_cases _ _ _ _ hj with hj | hj
    · have hj2 : j ∈ m.events.drop last := by
        split at hj
        · exact mem_drop_dropLast _ _ _ hj
        · exact hj
      rcases hkey j with hk | hk
      · rw [hk]; exact hmin j hj2
      · exact hk
    · rcases r2 j hj with hn | hn
      · rw [fire_newEvents, hH.2.2.2] at hn; cases hn
      · rw [(tailStep_key_d react k m e j).1]; exact hn
  have hlen := tailStep_length_ge react k m e
  have hl4 : last ≤ (tailStep react k m e).events.length := by have := hH.1; omega
  refine ⟨fun _ => ⟨added', l1, l2⟩, fun _ => ⟨fun _ => ⟨added', l1, l2⟩, fun _ => ?_⟩⟩
  refine ⟨hdT, added', l1, l2, ?_⟩
  intro x hx j hj
  have hj2 := of_mem_drop_newLast srt now _ last j hl4 hj
  exact le_trans (l3 x hx) (hsuf j hj2)


/-! ## Termination of an advance with passive consumers -/


theorem applyOp_passive (mc : manualClock) (o : Op) (ho : o.passive = true) :
    (applyOp mc o).newEvents = mc.newEvents ∧
    ∀ j, ((applyOp mc o).heap j).next = (mc.heap j).next ∧
      ((applyOp mc o).heap j).d = (mc.heap j).d ∧
      ((mc.heap j).stopped = true → ((applyOp mc o).heap j).stopped = true) := by
  cases o with
  | stop i =>
    simp only [applyOp]
    split
    · refine ⟨rfl, fun j => ?_⟩
      by_cases hji : j = i
      · subst hji; simp [Timer.Stop]
      · simp [Function.update_apply, hji]
    · exact ⟨rfl, fun j => ⟨rfl, rfl, fun h => h⟩⟩
  | recv i =>
    simp only [applyOp, manualClock.recv]
    split
    · refine ⟨rfl, fun j => ?_⟩
      by_cases hji : j = i
      · subst hji; simp
      · simp [Function.update_apply, hji]
    · exact ⟨rfl, fun j => ⟨rfl, rfl, fun h => h⟩⟩
  | reset i d => simp [Op.passive] at ho
  | newTimer d => simp [Op.passive] at ho
  | afterFunc d => simp [Op.passive] at ho
  | newTicker d => simp [Op.passive] at ho

theorem runOps_passive (os : List Op) : ∀ (mc : manualClock), (∀ o ∈ os, o.passive = true) →
    (runOps mc os).newEvents = mc.newEvents ∧
    ∀ j, ((runOps mc os).heap j).next = (mc.heap j).next ∧
      ((runOps mc os).heap j).d = (mc.heap j).d ∧
      ((mc.heap j).stopped = true → ((runOps mc os).heap j).stopped = true) := by
  induction os with
  | nil => intro mc _; exact ⟨rfl, fun j => ⟨rfl, rfl, fun h => h⟩⟩
  | cons o os ih =>
    intro mc h
    obtain ⟨a1, a2⟩ := applyOp_passive mc o (h o (List.mem_cons_self _ _))
    obtain ⟨b1, b2⟩ := ih (applyOp mc o) (fun o' ho' => h o' (List.mem_cons_of_mem _ ho'))
    refine ⟨b1.trans a1, fun j => ?_⟩
    obtain ⟨c1, c2, c3⟩ := a2 j
    obtain ⟨d1, d2, d3⟩ := b2 j
    exact ⟨d1.trans c1, d2.trans c2, fun hs => d3 (c3 hs)⟩

/-- Stopping a record does not raise its cost. -/
theorem cost_mono (now : Time) (e e' : event) (hn : e'.next = e.next) (hd : e'.d = e.d)
    (hs : e.stopped = true → e'.stopped = true) : cost now e' ≤ cost now e := by
  unfold cost
  rw [hn, hd]
  by_cases h1 : now < e.next
  · simp [h1]
  · simp only [h1, if_false]
    by_cases h2 : e.stopped = true ∨ e.d = 0
    · have : e'.stopped = true ∨ e.d = 0 := h2.imp hs id
      simp [h2, this]
    · simp only [h2, if_false]
      split <;> omega

theorem cost_pos (now : Time) (e : event) (h : e.next ≤ now) : 1 ≤ cost now e := by
  unfold cost
  rw [if_neg (not_lt.2 h)]
  split <;> omega

/-- A tick lowers the cost of a ticker. -/
theorem cost_tick (now : Time) (e e' : event) (hdue : e.next ≤ now) (hd : 0 < e.d)
    (hs : e.stopped = false) (hn : e'.next = e.next + e.d) (hd' : e'.d = e.d) :
    cost now e' < cost now e := by
  have hne : e.d ≠ 0 := ne_of_gt hd
  have hc : cost now e = ((now - e.next) / e.d).toNat + 1 := by
    unfold cost
    rw [if_neg (not_lt.2 hdue), if_neg (by simp [hs, hne])]
  rw [hc]
  unfold cost
  rw [hn, hd']
  by_cases h1 : now < e.next + e.d
  · rw [if_pos h1]; omega
  · rw [if_neg h1]
    have hq : 1 ≤ (now - e.next) / e.d := by
      rw [Int.le_ediv_iff_mul_le hd]
      linarith
    have hq2 : (now - (e.next + e.d)) / e.d = (now - e.next) / e.d - 1 := by
      have : now - (e.next + e.d) = (now - e.next) + (-1) * e.d := by ring
      rw [this, Int.add_mul_ediv_right _ _ hne]
      ring
    rw [hq2]
    obtain ⟨q, hqdef⟩ : ∃ q : Int, q = (now - e.next) / e.d := ⟨_, rfl⟩
    rw [← hqdef] at hq ⊢
    have hq' : (1 : Int) ≤ q := hq
    clear hq hqdef hq2 hc
    split <;> omega




theorem dueCost_append (now : Time) (heap : Nat → event) (l l' : List Nat) :
    dueCost now heap (l ++ l') = dueCost now heap l + dueCost now heap l' := by
  simp [dueCost]

theorem dueCost_le (now : Time) (heap heap' : Nat → event) (l : List Nat)
    (h : ∀ j, cost now (heap' j) ≤ cost now (heap j)) :
    dueCost now heap' l ≤ dueCost now heap l := by
  induction l with
  | nil => simp [dueCost]
  | cons a l ih =>
    simp only [dueCost, List.map_cons, List.sum_cons] at ih ⊢
    exact Nat.add_le_add (h a) ih

theorem dueCost_perm (now : Time) (heap : Nat → event) (l l' : List Nat) (h : l.Perm l') :
    dueCost now heap l = dueCost now heap l' := by
  unfold dueCost
  exact (h.map _).sum_eq

theorem dueCost_sublist (now : Time) (heap : Nat → event) (l l' : List Nat)
    (h : l.Sublist l') : dueCost now heap l ≤ dueCost now heap l' := by
  unfold dueCost
  exact (h.map _).sum_le_sum (fun _ _ => Nat.zero_le _)

/-- The re-sort and the scan do not raise the cost of the due slice. -/
theorem dueCost_newLast (srt : Sorter) (now : Time) (mc : manualClock) (last : Nat)
    (h : last ≤ mc.events.length) :
    dueCost now (resort srt mc last).heap
        ((resort srt mc last).events.drop (newLast now (resort srt mc last) last))
      ≤ dueCost now mc.heap (mc.events.drop last) := by
  rw [drop_newLast srt now mc last h, resort_heap]
  exact le_trans (dueCost_sublist now mc.heap _ _ (List.dropWhile_sublist _))
    (le_of_eq (dueCost_perm now mc.heap _ _ (srt.perm _ _)))

/-- The cost of a record depends on its fire time, interval and stopped flag only. -/
theorem cost_congr (now : Time) (e e' : event) (hn : e'.next = e.next) (hd : e'.d = e.d)
    (hs : e'.stopped = e.stopped) : cost now e' = cost now e := by
  unfold cost
  rw [hn, hd, hs]

/-- With passive consumers a firing step adds nothing to the registry, raises the cost of no
record and lowers the cost of the fired record unless that record is cut off. -/
theorem tailStep_cost (react : Reactor) (k : Nat) (m : manualClock) (e : Nat) (now : Time)
    (hp : react.passive) (hnew : m.newEvents = []) (hd : ∀ j, 0 ≤ (m.heap j).d)
    (hdue : m.key e ≤ now) :
    (tailStep react k m e).events
      = (if ((runOps (m.fire e) (react k (m.fire e))).heap e).stopped then
          m.events.dropLast else m.events) ∧
    (∀ j, cost now ((tailStep react k m e).heap j) ≤ cost now (m.heap j)) ∧
    (((runOps (m.fire e) (react k (m.fire e))).heap e).stopped = false →
      cost now ((tailStep react k m e).heap e) < cost now (m.heap e)) ∧
    (∀ j, 0 ≤ ((tailStep react k m e).heap j).d) := by
  obtain ⟨r1, r2⟩ := runOps_passive (react k (m.fire e)) (m.fire e) (hp _ _)
  have hT : ∀ j, ((tailStep react k m e).heap j).next
        = ((runOps (m.fire e) (react k (m.fire e))).heap j).next ∧
      ((tailStep react k m e).heap j).d = ((runOps (m.fire e) (react k (m.fire e))).heap j).d ∧
      ((tailStep react k m e).heap j).stopped
        = ((runOps (m.fire e) (react k (m.fire e))).heap j).stopped := by
    intro j
    by_cases hje : j = e
    · subst hje
      rw [tailStep_heap_self]
      split <;> exact ⟨rfl, rfl, rfl⟩
    · rw [tailStep_heap_ne _ _ _ _ _ hje]
      exact ⟨rfl, rfl, rfl⟩
  have hfire : ∀ j, cost now ((m.fire e).heap j) ≤ cost now (m.heap j) ∧
      (j = e → ((m.fire e).heap j).stopped = false → cost now ((m.fire e).heap j)
        < cost now (m.heap j)) := by
    intro j
    by_cases hje : j = e
    · subst hje
      cases hs : (m.heap j).stopped with
      | true =>
        rw [(fire_stopped m j hs).1]
        exact ⟨le_refl _, fun _ h => by rw [hs] at h; cases h⟩
      | false =>
        obtain ⟨f1, _⟩ := fire_active m j hs
        obtain ⟨p1, _, _, p4, p5⟩ := play_active (m.heap j) (m.key j) hs
        rw [f1]
        by_cases hd0 : (m.heap j).d = 0
        · refine ⟨cost_mono now _ _ (p4 hd0).2 p1 (fun h => (p4 hd0).1), fun _ h => ?_⟩
          rw [(p4 hd0).1] at h; cases h
        · have hpos : 0 < (m.heap j).d := lt_of_le_of_ne (hd j) (Ne.symm hd0)
          have := cost_tick now (m.heap j) ((m.heap j).play (m.key j)) hdue hpos hs
            (p5 hd0).2 p1
          exact ⟨le_of_lt this, fun _ _ => this⟩
    · rw [fire_heap_ne m e j hje]
      exact ⟨le_refl _, fun h => absurd h hje⟩
  have hro : ∀ j, cost now ((tailStep react k m e).heap j) ≤ cost now ((m.fire e).heap j) := by
    intro j
    obtain ⟨t1, t2, t3⟩ := hT j
    obtain ⟨q1, q2, q3⟩ := r2 j
    exact cost_mono now _ _ (t1.trans q1) (t2.trans q2) (fun h => by rw [t3]; exact q3 h)
  refine ⟨?_, fun j => le_trans (hro j) (hfire j).1, fun hns => ?_, fun j => ?_⟩
  · rw [tailStep_events, r1, fire_newEvents, hnew]
    simp
  · have hfs : ((m.fire e).heap e).stopped = false := by
      cases hq : ((m.fire e).heap e).stopped with
      | false => rfl
      | true => rw [(r2 e).2.2 hq] at hns; cases hns
    exact lt_of_le_of_lt (hro e) ((hfire e).2 rfl hfs)
  · rw [(hT j).2.1, (r2 j).2.1, fire_d]
    exact hd j

/-- With passive consumers every firing step lowers the cost of the due slice. -/
theorem dueCost_tailStep (react : Reactor) (k : Nat) (m : manualClock) (last e : Nat)
    (now : Time) (hp : react.passive) (hH : Head now m last) (hd : ∀ j, 0 ≤ (m.heap j).d)
    (he : m.events.getLast? = some e) :
    dueCost now (tailStep react k m e).heap ((tailStep react k m e).events.drop last)
      < dueCost now m.heap (m.events.drop last) := by
  obtain ⟨c1, c2, c3, _⟩ := tailStep_cost react k m e now hp hH.2.2.2 hd (hH.tail_due he)
  obtain ⟨ys, hys⟩ := List.getLast?_eq_some_iff.1 he
  have hl : last ≤ ys.length := by have := hH.1; rw [hys] at this; simp at this; omega
  have hpos := cost_pos now (m.heap e) (hH.tail_due he)
  rw [c1, hys, List.dropLast_concat, List.drop_append_of_le_length hl, dueCost_append]
  have hle := dueCost_le now m.heap (tailStep react k m e).heap (ys.drop last) c2
  cases hs : ((runOps (m.fire e) (react k (m.fire e))).heap e).stopped with
  | true =>
    simp only [if_true]
    have : dueCost now m.heap [e] = cost now (m.heap e) := by simp [dueCost]
    omega
  | false =>
    simp only [Bool.false_eq_true, if_false]
    rw [List.drop_append_of_le_length hl, dueCost_append]
    have h1 : dueCost now m.heap [e] = cost now (m.heap e) := by simp [dueCost]
    have h2 : dueCost now (tailStep react k m e).heap [e]
        = cost now ((tailStep react k m e).heap e) := by simp [dueCost]
    have := c3 hs
    omega

/-- With passive consumers and non-negative intervals the firing loop ends within as many
steps as the cost of the due slice. -/
theorem Set.loop_returns (srt : Sorter) (react : Reactor) (now : Time) (hp : react.passive) :
    ∀ (fuel k : Nat) (m : manualClock) (last : Nat), Head now m last →
      (∀ j, 0 ≤ (m.heap j).d) → dueCost now m.heap (m.events.drop last) < fuel →
      ∃ mc', Set.loop srt react now fuel k m last ((m.events.length : Int) - 1) = .done mc' := by
  intro fuel
  induction fuel with
  | zero => intro k m last _ _ h; omega
  | succ fuel ih =>
    intro k m last hH hd hc
    obtain ⟨e, he⟩ := exists_getLast m.events (by have := hH.1; omega)
    rw [Set.loop_succ srt react now fuel k m last e hH.1 he]
    have hlen := tailStep_length_ge react k m e
    have hl4 : last ≤ (tailStep react k m e).events.length := by have := hH.1; omega
    split
    · exact ⟨_, rfl⟩
    · split
      · exact ⟨_, rfl⟩
      · split
        · exact ⟨_, rfl⟩
        · rename_i hx
          have h1 := dueCost_tailStep react k m last e now hp hH hd he
          have h2 := dueCost_newLast srt now (tailStep react k m e) last hl4
          refine ih _ _ _ (head_of_resort srt now _ last hl4 (tailStep_newEvents _ _ _ _)
            (by omega)) ?_ (by omega)
          exact (tailStep_cost react k m e now hp hH.2.2.2 hd (hH.tail_due he)).2.2.2

/-- More fuel does not change the result of the firing loop. -/
theorem Set.loop_fuel (srt : Sorter) (react : Reactor) (now : Time) :
    ∀ (fuel k : Nat) (m : manualClock) (last : Nat) (r : manualClock), Head now m last →
      Set.loop srt react now fuel k m last ((m.events.length : Int) - 1) = .done r →
      ∀ fuel', fuel ≤ fuel' →
        Set.loop srt react now fuel' k m last ((m.events.length : Int) - 1) = .done r := by
  intro fuel
  induction fuel with
  | zero => intro k m last r _ h; simp [Set.loop] at h
  | succ fuel ih =>
    intro k m last r hH h fuel' hle
    obtain ⟨f, rfl⟩ : ∃ f, fuel' = f + 1 := ⟨fuel' - 1, by omega⟩
    obtain ⟨e, he⟩ := exists_getLast m.events (by have := hH.1; omega)
    rw [Set.loop_succ srt react now _ k m last e hH.1 he] at h ⊢
    have hlen := tailStep_length_ge react k m e
    have hl4 : last ≤ (tailStep react k m e).events.length := by have := hH.1; omega
    split
    · rename_i h1; rw [if_pos h1] at h; exact h
    · rename_i h1
      rw [if_neg h1] at h
      split
      · rename_i h2; rw [if_pos h2] at h; exact h
      · rename_i h2
        rw [if_neg h2] at h
        split
        · rename_i h3; rw [if_pos h3] at h; exact h
        · rename_i h3
          rw [if_neg h3] at h
          exact ih _ _ _ r (head_of_resort srt now _ last hl4 (tailStep_newEvents _ _ _ _)
            (by omega)) h f (by omega)

/-- More fuel does not change the result of an advance. -/
theorem Set_fuel (srt : Sorter) (react : Reactor) (fuel fuel' : Nat) (mc r : manualClock)
    (now : Time) (h : mc.Set srt react fuel now = .done r) (hle : fuel ≤ fuel') :
    mc.Set srt react fuel' now = .done r := by
  rw [Set_eq] at h ⊢
  obtain ⟨m, hm, rfl⟩ := setNow_done h
  by_cases h1 : mc.merge.events = []
  · rw [if_pos h1] at hm ⊢
    cases hm; rfl
  · rw [if_neg h1] at hm ⊢
    by_cases h2 : (resort srt mc.merge 0).events.length ≤ newLast now (resort srt mc.merge 0) 0
    · rw [if_pos h2] at hm ⊢
      cases hm; rfl
    · rw [if_neg h2] at hm ⊢
      have hH := head_of_resort srt now mc.merge 0 (Nat.zero_le _) rfl (by omega)
      rw [Set.loop_fuel srt react now fuel 0 _ _ m hH hm fuel' hle]
      rfl

/-- With passive consumers and non-negative intervals an advance returns, given fuel for as
many firing steps as the cost of the registry; the intervals stay non-negative. -/
theorem Set_returns (srt : Sorter) (react : Reactor) (mc : manualClock) (now : Time)
    (hp : react.passive) (hd : ∀ j, 0 ≤ (mc.heap j).d) :
    ∃ mc', (∀ fuel, dueCost now mc.heap (mc.events ++ mc.newEvents) < fuel →
      mc.Set srt react fuel now = .done mc') := by
  have hcost : dueCost now (resort srt mc.merge 0).heap
      ((resort srt mc.merge 0).events.drop (newLast now (resort srt mc.merge 0) 0))
      ≤ dueCost now mc.heap (mc.events ++ mc.newEvents) := by
    have := dueCost_newLast srt now mc.merge 0 (Nat.zero_le _)
    simpa [manualClock.merge] using this
  by_cases h1 : mc.merge.events = []
  · refine ⟨{ mc.merge with now := now }, fun fuel _ => ?_⟩
    rw [Set_eq, if_pos h1]; rfl
  · by_cases h2 : (resort srt mc.merge 0).events.length ≤ newLast now (resort srt mc.merge 0) 0
    · refine ⟨{ resort srt mc.merge 0 with now := now }, fun fuel _ => ?_⟩
      rw [Set_eq, if_neg h1, if_pos h2]; rfl
    · have hH := head_of_resort srt now mc.merge 0 (Nat.zero_le _) rfl (by omega)
      obtain ⟨r, hr⟩ := Set.loop_returns srt react now hp
        (dueCost now mc.heap (mc.events ++ mc.newEvents) + 1) 0 _ _ hH hd (by omega)
      refine ⟨{ r with now := now }, fun fuel hf => ?_⟩
      rw [Set_eq, if_neg h1, if_neg h2,
        Set.loop_fuel srt react now _ 0 _ _ r hH hr fuel (by omega)]
      rfl


/-! ## Sequences of calls -/

/-- When `Set` returns, the clock reads the target. -/
theorem Set_now (srt : Sorter) (react : Reactor) (fuel : Nat) (mc mc' : manualClock)
    (now : Time) (h : mc.Set srt react fuel now = .done mc') : mc'.now = now := by
  unfold manualClock.Set at h
  obtain ⟨m, _, rfl⟩ := setNow_done h
  rfl

theorem runCmds_set {srt : Sorter} {fuel : Nat} {mc mc' : manualClock} {t : Time}
    {react : Reactor} {cs : List Cmd}
    (h : runCmds srt fuel mc (.set t react :: cs) = .done mc') :
    ∃ m1, mc.Set srt react fuel t = .done m1 ∧ runCmds srt fuel m1 cs = .done mc' := by
  rw [runCmds] at h
  split at h
  · rename_i m1 h1; exact ⟨m1, h1, h⟩
  · cases h
  · cases h

theorem runCmds_add {srt : Sorter} {fuel : Nat} {mc mc' : manualClock} {d : Duration}
    {react : Reactor} {cs : List Cmd}
    (h : runCmds srt fuel mc (.add d react :: cs) = .done mc') :
    ∃ m1, mc.Set srt react fuel (mc.now + d) = .done m1 ∧
      runCmds srt fuel m1 cs = .done mc' := by
  rw [runCmds] at h
  split at h
  · rename_i m1 h1; exact ⟨m1, h1, h⟩
  · cases h
  · cases h

/-- Invariant rule for a sequence of calls. -/
theorem runCmds_rule (srt : Sorter) (fuel : Nat) (C : Cmd → Prop) (P : manualClock → Prop)
    (hset : ∀ mc t react mc', C (.set t react) → P mc →
      mc.Set srt react fuel t = .done mc' → P mc')
    (hadd : ∀ mc d react mc', C (.add d react) → P mc →
      mc.Set srt react fuel (mc.now + d) = .done mc' → P mc')
    (hop : ∀ mc o, C (.op o) → P mc → P (applyOp mc o)) :
    ∀ (cmds : List Cmd) (mc mc' : manualClock), (∀ c ∈ cmds, C c) → P mc →
      runCmds srt fuel mc cmds = .done mc' → P mc' := by
  intro cmds
  induction cmds with
  | nil => intro mc mc' _ hP h; simp [runCmds] at h; subst h; exact hP
  | cons c cs ih =>
    intro mc mc' hC hP h
    have hc := hC c (List.mem_cons_self _ _)
    have hcs : ∀ c' ∈ cs, C c' := fun c' hc' => hC c' (List.mem_cons_of_mem _ hc')
    cases c with
    | set t react =>
      obtain ⟨m1, h1, h2⟩ := runCmds_set h
      exact ih m1 mc' hcs (hset mc t react m1 hc hP h1) h2
    | add d react =>
      obtain ⟨m1, h1, h2⟩ := runCmds_add h
      exact ih m1 mc' hcs (hadd mc d react m1 hc hP h1) h2
    | op o =>
      exact ih _ mc' hcs (hop mc o hc hP) h

/-- After a sequence of calls the clock reads the target of the last advance. -/
theorem runCmds_now (srt : Sorter) (fuel : Nat) : ∀ (cmds : List Cmd) (mc mc' : manualClock),
    runCmds srt fuel mc cmds = .done mc' →
    mc'.now = ((advTargets mc.now cmds).getLast?).getD mc.now := by
  intro cmds
  induction cmds with
  | nil => intro mc mc' h; simp [runCmds] at h; subst h; simp [advTargets]
  | cons c cs ih =>
    intro mc mc' h
    cases c with
    | set t react =>
      obtain ⟨m1, h1, h2⟩ := runCmds_set h
      have hn := Set_now _ _ _ _ _ _ h1
      rw [ih m1 mc' h2, hn, advTargets]
      cases hg : advTargets t cs with
      | nil => simp
      | cons a l =>
        rw [List.getLast?_cons_cons, List.getLast?_eq_getLast _ (List.cons_ne_nil a l)]
        rfl
    | add d react =>
      obtain ⟨m1, h1, h2⟩ := runCmds_add h
      have hn := Set_now _ _ _ _ _ _ h1
      rw [ih m1 mc' h2, hn, advTargets]
      cases hg : advTargets (mc.now + d) cs with
      | nil => simp
      | cons a l =>
        rw [List.getLast?_cons_cons, List.getLast?_eq_getLast _ (List.cons_ne_nil a l)]
        rfl
    | op o =>
      rw [runCmds] at h
      rw [ih _ mc' h, applyOp_now, advTargets]

/-- A stopped record that no call resets stays stopped through a sequence of calls and gets
no delivery; its channel never gains a value. -/
theorem runCmds_stopped (srt : Sorter) (fuel : Nat) (i : Nat) (cmds : List Cmd)
    (mc mc' : manualClock) (hC : ∀ c ∈ cmds, c.noReset i) (hi : i < mc.nalloc)
    (hst : (mc.heap i).stopped = true) (h : runCmds srt fuel mc cmds = .done mc') :
    i < mc'.nalloc ∧ (mc'.heap i).stopped = true ∧ firedOf i mc'.log = firedOf i mc.log ∧
    ((mc'.heap i).c = (mc.heap i).c ∨ (mc'.heap i).c = none) := by
  refine runCmds_rule srt fuel (fun c => c.noReset i)
    (fun m => i < m.nalloc ∧ (m.heap i).stopped = true ∧ firedOf i m.log = firedOf i mc.log ∧
      ((m.heap i).c = (mc.heap i).c ∨ (m.heap i).c = none)) ?_ ?_ ?_ cmds mc mc' hC
    ⟨hi, hst, rfl, Or.inl rfl⟩ h
  · intro m t react m' hc hP hs
    obtain ⟨a1, a2, a3, a4⟩ := Set_stopped srt react fuel m m' t i hP.1 hP.2.1 hc hs
    refine ⟨a1, a2, a3.trans hP.2.2.1, ?_⟩
    rcases a4 with a4 | a4
    · rw [a4]; exact hP.2.2.2
    · exact Or.inr a4
  · intro m d react m' hc hP hs
    obtain ⟨a1, a2, a3, a4⟩ := Set_stopped srt react fuel m m' _ i hP.1 hP.2.1 hc hs
    refine ⟨a1, a2, a3.trans hP.2.2.1, ?_⟩
    rcases a4 with a4 | a4
    · rw [a4]; exact hP.2.2.2
    · exact Or.inr a4
  · intro m o hc hP
    refine ⟨lt_of_lt_of_le hP.1 (applyOp_nalloc_le m o), applyOp_stopped m o i hP.1 hc hP.2.1,
      by rw [applyOp_log]; exact hP.2.2.1, ?_⟩
    rcases applyOp_chan m o i hP.1 with a4 | a4
    · rw [a4]; exact hP.2.2.2
    · exact Or.inr a4

theorem applyOp_mem_tracked (mc : manualClock) (o : Op) (i : Nat)
    (h : i ∈ mc.events ++ mc.newEvents) :
    i ∈ (applyOp mc o).events ++ (applyOp mc o).newEvents := by
  rw [applyOp_events]
  rcases List.mem_append.1 h with h | h
  · exact List.mem_append_left _ h
  · exact List.mem_append_right _ (applyOp_mem_newEvents mc o i h)

/-- A tracked record that no call stops or resets, through a sequence of calls none of whose
advances reaches its fire time: it stays as it is, tracked, and gets no delivery. -/
theorem runCmds_notDue (srt : Sorter) (fuel : Nat) (i : Nat) (nx : Time) :
    ∀ (cmds : List Cmd) (mc mc' : manualClock), (∀ c ∈ cmds, c.leaves i) →
      (∀ t ∈ advTargets mc.now cmds, t < nx) → i < mc.nalloc → (mc.heap i).next = nx →
      i ∈ mc.events ++ mc.newEvents →
      runCmds srt fuel mc cmds = .done mc' →
      i < mc'.nalloc ∧ (mc'.heap i).noChan = (mc.heap i).noChan ∧
      firedOf i mc'.log = firedOf i mc.log ∧ i ∈ mc'.events ++ mc'.newEvents := by
  intro cmds
  induction cmds with
  | nil =>
    intro mc mc' _ _ hi _ htr h
    simp [runCmds] at h; subst h
    exact ⟨hi, rfl, rfl, htr⟩
  | cons c cs ih =>
    intro mc mc' hC hT hi hnx htr h
    have hc := hC c (List.mem_cons_self _ _)
    have hcs : ∀ c' ∈ cs, c'.leaves i := fun c' hc' => hC c' (List.mem_cons_of_mem _ hc')
    cases c with
    | set t react =>
      obtain ⟨m1, h1, h2⟩ := runCmds_set h
      have ht : t < nx := hT t (by simp [advTargets])
      obtain ⟨a1, a2, a3, _, a5⟩ := Set_notDue srt react fuel mc m1 t i hi (by rw [hnx]; exact ht)
        hc h1
      have hn := Set_now _ _ _ _ _ _ h1
      obtain ⟨b1, b2, b3, b4⟩ := ih m1 mc' hcs
        (fun u hu => hT u (by rw [advTargets]; rw [hn] at hu; exact List.mem_cons_of_mem _ hu))
        a1 ((noChan_fields a2).1.trans hnx) (List.mem_append_left _ (a5 htr)) h2
      exact ⟨b1, b2.trans a2, b3.trans a3, b4⟩
    | add d react =>
      obtain ⟨m1, h1, h2⟩ := runCmds_add h
      have ht : mc.now + d < nx := hT _ (by simp [advTargets])
      obtain ⟨a1, a2, a3, _, a5⟩ := Set_notDue srt react fuel mc m1 _ i hi (by rw [hnx]; exact ht)
        hc h1
      have hn := Set_now _ _ _ _ _ _ h1
      obtain ⟨b1, b2, b3, b4⟩ := ih m1 mc' hcs
        (fun u hu => hT u (by rw [advTargets]; rw [hn] at hu; exact List.mem_cons_of_mem _ hu))
        a1 ((noChan_fields a2).1.trans hnx) (List.mem_append_left _ (a5 htr)) h2
      exact ⟨b1, b2.trans a2, b3.trans a3, b4⟩
    | op o =>
      rw [runCmds] at h
      have a2 := applyOp_noChan mc o i hi hc.1 hc.2
      obtain ⟨b1, b2, b3, b4⟩ := ih (applyOp mc o) mc' hcs
        (fun u hu => hT u (by rw [advTargets]; rw [applyOp_now] at hu; exact hu))
        (lt_of_lt_of_le hi (applyOp_nalloc_le mc o)) ((noChan_fields a2).1.trans hnx)
        (applyOp_mem_tracked mc o i htr) h
      exact ⟨b1, b2.trans a2, by rw [b3, applyOp_log], b4⟩



theorem ticks_add (i : Nat) (nx d : Time) (n n2 : Nat) :
    ticks i nx d (n + n2) = ticks i nx d n ++ ticks i (nx + (n : Int) * d) d n2 := by
  induction n2 with
  | zero => simp [ticks]
  | succ n2 ih =>
    rw [← Nat.add_assoc, ticks_succ, ih, ticks_succ, List.append_assoc]
    have e : nx + ((n + n2 : Nat) : Int) * d = nx + (n : Int) * d + (n2 : Int) * d := by
      push_cast; ring
    rw [e]

/-- One advance takes a ticker from one `TickerAt` state to the next. -/
theorem TickerAt.set {i : Nat} {nx : Time} {d : Duration} {L0 : List Delivery}
    {mc : manualClock} {M : Time} {n : Nat} (hT : TickerAt i nx d L0 mc M n) (hd : 0 < d)
    (srt : Sorter) (react : Reactor) (fuel : Nat) (t : Time) (m1 : manualClock)
    (hl : react.leaves i) (h : mc.Set srt react fuel t = .done m1) :
    ∃ n', TickerAt i nx d L0 m1 (max M t) n' := by
  obtain ⟨a1, a2, a3, a4, a5, a6, a7, a8⟩ := hT
  obtain ⟨b1, b2, n2, b3, b4, b5, b6, b7, b8⟩ :=
    Set_ticker srt react fuel mc m1 t i a1 a2 a5 (by rw [a4]; exact hd) hl h
  rw [a3, a4] at b3 b6 b7 b8
  have hn2 : (0 : Int) ≤ (n2 : Int) * d := mul_nonneg (Int.ofNat_nonneg _) (le_of_lt hd)
  refine ⟨n + n2, b1, b2, ?_, b4.trans a4, b5, ?_, ?_, ?_⟩
  · rw [b3]; push_cast; ring
  · rw [b6, a6, ticks_add, List.append_assoc]
  · have e1 : nx + ((n + n2 : Nat) : Int) * d = nx + (n : Int) * d + (n2 : Int) * d := by
      push_cast; ring
    rw [e1]
    exact max_lt (by linarith) b7
  · intro _
    have e1 : nx + (((n + n2 : Nat) : Int) - 1) * d
        = nx + (n : Int) * d + ((n2 : Int) - 1) * d := by
      push_cast; ring
    rw [e1]
    by_cases hz : 1 ≤ n2
    · exact le_trans (b8 hz) (le_max_right _ _)
    · have hn2z : n2 = 0 := by omega
      have hn1 : 1 ≤ n := by omega
      subst hn2z
      have := a8 hn1
      refine le_trans ?_ (le_max_left _ _)
      push_cast
      linarith

/-- A handle operation that neither stops nor resets the ticker keeps its `TickerAt` state. -/
theorem TickerAt.op {i : Nat} {nx : Time} {d : Duration} {L0 : List Delivery}
    {mc : manualClock} {M : Time} {n : Nat} (hT : TickerAt i nx d L0 mc M n) (o : Op)
    (hs : o.stops i = false) (hr : o.resets i = false) :
    TickerAt i nx d L0 (applyOp mc o) M n := by
  obtain ⟨a1, a2, a3, a4, a5, a6, a7, a8⟩ := hT
  have hf := noChan_fields (applyOp_noChan mc o i a1 hs hr)
  exact ⟨lt_of_lt_of_le a1 (applyOp_nalloc_le mc o), applyOp_mem_tracked mc o i a2,
    hf.1.trans a3, hf.2.1.trans a4, hf.2.2.2.1.trans a5, by rw [applyOp_log]; exact a6, a7, a8⟩

/-- A sequence of calls that neither stop nor reset a ticker takes it from one `TickerAt`
state to another, the furthest time reached being raised by each advance. -/
theorem runCmds_ticker (srt : Sorter) (fuel : Nat) (i : Nat) (nx : Time) (d : Duration)
    (L0 : List Delivery) (hd : 0 < d) :
    ∀ (cmds : List Cmd) (mc mc' : manualClock) (M : Time) (n : Nat),
      (∀ c ∈ cmds, c.leaves i) → TickerAt i nx d L0 mc M n →
      runCmds srt fuel mc cmds = .done mc' →
      ∃ n', TickerAt i nx d L0 mc' ((advTargets mc.now cmds).foldl max M) n' := by
  intro cmds
  induction cmds with
  | nil =>
    intro mc mc' M n _ hT h
    simp [runCmds] at h; subst h
    exact ⟨n, by simpa [advTargets] using hT⟩
  | cons c cs ih =>
    intro mc mc' M n hC hT h
    have hc := hC c (List.mem_cons_self _ _)
    have hcs : ∀ c' ∈ cs, c'.leaves i := fun c' hc' => hC c' (List.mem_cons_of_mem _ hc')
    cases c with
    | set t react =>
      obtain ⟨m1, h1, h2⟩ := runCmds_set h
      obtain ⟨n1, hT1⟩ := hT.set hd srt react fuel t m1 hc h1
      obtain ⟨n2, hT2⟩ := ih m1 mc' _ n1 hcs hT1 h2
      rw [Set_now _ _ _ _ _ _ h1] at hT2
      exact ⟨n2, by simpa [advTargets] using hT2⟩
    | add d' react =>
      obtain ⟨m1, h1, h2⟩ := runCmds_add h
      obtain ⟨n1, hT1⟩ := hT.set hd srt react fuel _ m1 hc h1
      obtain ⟨n2, hT2⟩ := ih m1 mc' _ n1 hcs hT1 h2
      rw [Set_now _ _ _ _ _ _ h1] at hT2
      exact ⟨n2, by simpa [advTargets] using hT2⟩
    | op o =>
      rw [runCmds] at h
      obtain ⟨n2, hT2⟩ := ih _ mc' M n hcs (hT.op o hc.1 hc.2) h
      rw [applyOp_now] at hT2
      exact ⟨n2, by simpa [advTargets] using hT2⟩

theorem passive_nonneg {react : Reactor} (hp : react.passive) : react.nonneg := by
  intro k mc o ho
  have := hp k mc o ho
  cases o <;> simp [Op.passive] at this <;> trivial

/-- Intervals stay non-negative through an advance in which only non-negative durations are
used. -/
theorem Set_d_nonneg (srt : Sorter) (react : Reactor) (fuel : Nat) (mc mc' : manualClock)
    (now : Time) (hd : ∀ j, 0 ≤ (mc.heap j).d) (hnn : react.nonneg)
    (h : mc.Set srt react fuel now = .done mc') : ∀ j, 0 ≤ (mc'.heap j).d := by
  suffices hstep : _ by
    obtain ⟨m, hm, rfl⟩ := Set_inv srt react now (fun m => ∀ j, 0 ≤ (m.heap j).d) mc hd
      (fun m last hP => hP) hstep fuel mc' h
    exact hm
  intro k m last e _ hP _ j
  rw [(tailStep_key_d react k m e j).2]
  exact (runOps_key (react k (m.fire e)) (m.fire e) (hnn _ _)).2.2
    (fun j => by rw [fire_d]; exact hP j) j

/-- A sequence of tame calls returns, given enough fuel. -/
theorem runCmds_returns (srt : Sorter) : ∀ (cmds : List Cmd) (mc : manualClock),
    (∀ c ∈ cmds, c.tame) → (∀ j, 0 ≤ (mc.heap j).d) →
    ∃ mc' fuel0, ∀ fuel, fuel0 ≤ fuel → runCmds srt fuel mc cmds = .done mc' := by
  intro cmds
  induction cmds with
  | nil => intro mc _ _; exact ⟨mc, 0, fun _ _ => rfl⟩
  | cons c cs ih =>
    intro mc hC hd
    have hc := hC c (List.mem_cons_self _ _)
    have hcs : ∀ c' ∈ cs, c'.tame := fun c' hc' => hC c' (List.mem_cons_of_mem _ hc')
    cases c with
    | set t react =>
      obtain ⟨m1, h1⟩ := Set_returns srt react mc t hc hd
      have hd1 := Set_d_nonneg srt react _ mc m1 t hd (passive_nonneg hc) (h1 _ (Nat.lt_succ_self _))
      obtain ⟨mc', f2, h2⟩ := ih m1 hcs hd1
      refine ⟨mc', max (dueCost t mc.heap (mc.events ++ mc.newEvents) + 1) f2, fun fuel hf => ?_⟩
      have hf1 : dueCost t mc.heap (mc.events ++ mc.newEvents) < fuel :=
        lt_of_lt_of_le (Nat.lt_succ_self _) (le_trans (le_max_left _ _) hf)
      rw [runCmds, h1 fuel hf1]
      exact h2 fuel (le_trans (le_max_right _ _) hf)
    | add d react =>
      obtain ⟨m1, h1⟩ := Set_returns srt react mc (mc.now + d) hc hd
      have hd1 := Set_d_nonneg srt react _ mc m1 _ hd (passive_nonneg hc)
        (h1 _ (Nat.lt_succ_self _))
      obtain ⟨mc', f2, h2⟩ := ih m1 hcs hd1
      refine ⟨mc', max (dueCost (mc.now + d) mc.heap (mc.events ++ mc.newEvents) + 1) f2,
        fun fuel hf => ?_⟩
      have hf1 : dueCost (mc.now + d) mc.heap (mc.events ++ mc.newEvents) < fuel :=
        lt_of_lt_of_le (Nat.lt_succ_self _) (le_trans (le_max_left _ _) hf)
      rw [runCmds, manualClock.Add, manualClock.Now, h1 fuel hf1]
      exact h2 fuel (le_trans (le_max_right _ _) hf)
    | op o =>
      obtain ⟨mc', f2, h2⟩ := ih (applyOp mc o) hcs
        ((runOps_key [o] mc (by intro o' ho'; simp at ho'; subst ho'; exact hc)).2.2 hd)
      exact ⟨mc', f2, fun fuel hf => by rw [runCmds]; exact h2 fuel hf⟩


/-! ## Concrete clocks and further facts about sequences of calls -/

theorem fresh_d_nonneg (t0 : Time) : ∀ j, 0 ≤ ((manualClock.fresh t0).heap j).d := by
  intro j; simp [manualClock.fresh]

theorem applyOp_d_nonneg (mc : manualClock) (o : Op) (ho : o.nonneg)
    (hd : ∀ j, 0 ≤ (mc.heap j).d) : ∀ j, 0 ≤ ((applyOp mc o).heap j).d :=
  (applyOp_key mc o ho).2.2 hd

theorem quiet_passive : quiet.passive := by
  intro k mc o ho; cases ho

theorem drain_passive (i : Nat) : (drain i).passive := by
  intro k mc o ho
  simp [drain] at ho
  subst ho; rfl

theorem timerClock_d_nonneg : ∀ j, 0 ≤ (timerClock.heap j).d :=
  applyOp_d_nonneg (manualClock.fresh 0) (.newTimer 1000) (by simp [Op.nonneg])
    (fresh_d_nonneg 0)

theorem tickerClock_d_nonneg : ∀ j, 0 ≤ (tickerClock.heap j).d :=
  applyOp_d_nonneg (manualClock.fresh 0) (.newTicker 5) (by simp [Op.nonneg])
    (fresh_d_nonneg 0)


theorem tame_d_nonneg (srt : Sorter) (fuel : Nat) (cmds : List Cmd) (mc mc' : manualClock)
    (hC : ∀ c ∈ cmds, c.tame) (hd : ∀ j, 0 ≤ (mc.heap j).d)
    (h : runCmds srt fuel mc cmds = .done mc') : ∀ j, 0 ≤ (mc'.heap j).d := by
  refine runCmds_rule srt fuel (fun c => c.tame) (fun m => ∀ j, 0 ≤ (m.heap j).d)
    ?_ ?_ ?_ cmds mc mc' hC hd h
  · intro m t react m' hc hP hs
    exact Set_d_nonneg srt react fuel m m' t hP (passive_nonneg hc) hs
  · intro m d react m' hc hP hs
    exact Set_d_nonneg srt react fuel m m' _ hP (passive_nonneg hc) hs
  · intro m o hc hP
    exact (applyOp_key m o hc).2.2 hP

/-- Three consecutive sequences of tame calls return with a common amount of fuel. -/
theorem runCmds_returns3 (srt : Sorter) (c1 c2 c3 : List Cmd) (mc : manualClock)
    (h1 : ∀ c ∈ c1, c.tame) (h2 : ∀ c ∈ c2, c.tame) (h3 : ∀ c ∈ c3, c.tame)
    (hd : ∀ j, 0 ≤ (mc.heap j).d) :
    ∃ fuel mcA mcB mcC, runCmds srt fuel mc c1 = .done mcA ∧
      runCmds srt fuel mcA c2 = .done mcB ∧ runCmds srt fuel mcB c3 = .done mcC := by
  obtain ⟨mcA, f1, r1⟩ := runCmds_returns srt c1 mc h1 hd
  have hdA := tame_d_nonneg srt f1 c1 mc mcA h1 hd (r1 f1 (le_refl _))
  obtain ⟨mcB, f2, r2⟩ := runCmds_returns srt c2 mcA h2 hdA
  have hdB := tame_d_nonneg srt f2 c2 mcA mcB h2 hdA (r2 f2 (le_refl _))
  obtain ⟨mcC, f3, r3⟩ := runCmds_returns srt c3 mcB h3 hdB
  exact ⟨max f1 (max f2 f3), mcA, mcB, mcC, r1 _ (le_max_left _ _),
    r2 _ (le_trans (le_max_left _ _) (le_max_right _ _)),
    r3 _ (le_trans (le_max_right _ _) (le_max_right _ _))⟩

/-- The state right after `NewTimer(d)`: the new record is allocated, buffered, one-shot, not
stopped and due `d` after the current reading; clock and log are as before. -/
theorem NewTimer_state (mc : manualClock) (d : Duration) :
    mc.nalloc < (mc.NewTimer d).1.nalloc ∧
    mc.nalloc ∈ (mc.NewTimer d).1.events ++ (mc.NewTimer d).1.newEvents ∧
    ((mc.NewTimer d).1.heap mc.nalloc).next = mc.now + d ∧
    ((mc.NewTimer d).1.heap mc.nalloc).d = 0 ∧
    ((mc.NewTimer d).1.heap mc.nalloc).stopped = false ∧
    (mc.NewTimer d).1.log = mc.log ∧ (mc.NewTimer d).1.now = mc.now := by
  simp [manualClock.NewTimer, manualClock.addEvent, manualClock.Now]

/-- The state right after `NewTicker(d)`. -/
theorem NewTicker_state (mc : manualClock) (d : Duration) :
    mc.nalloc < (mc.NewTicker d).1.nalloc ∧
    mc.nalloc ∈ (mc.NewTicker d).1.events ++ (mc.NewTicker d).1.newEvents ∧
    ((mc.NewTicker d).1.heap mc.nalloc).next = mc.now + d ∧
    ((mc.NewTicker d).1.heap mc.nalloc).d = d ∧
    ((mc.NewTicker d).1.heap mc.nalloc).stopped = false ∧
    (mc.NewTicker d).1.log = mc.log ∧ (mc.NewTicker d).1.now = mc.now := by
  simp [manualClock.NewTicker, manualClock.addEvent, manualClock.Now]

theorem leaves_noReset {c : Cmd} {i : Nat} (h : c.leaves i) : c.noReset i := by
  cases c with
  | set t react => exact fun k s o ho => (h k s o ho).2
  | add d react => exact fun k s o ho => (h k s o ho).2
  | op o => exact h.2



theorem foldl_max_eq (ts : List Time) : ∀ (M T : Time), (∀ u ∈ ts, u ≤ T) → M ≤ T →
    (M = T ∨ T ∈ ts) → ts.foldl max M = T := by
  induction ts with
  | nil =>
    intro M T _ _ h
    rcases h with h | h
    · simpa using h
    · cases h
  | cons a ts ih =>
    intro M T hmax hM h
    have ha : a ≤ T := hmax a (List.mem_cons_self _ _)
    rw [List.foldl_cons]
    refine ih (max M a) T (fun u hu => hmax u (List.mem_cons_of_mem _ hu)) (max_le hM ha) ?_
    rcases h with h | h
    · left; rw [h]; exact max_eq_left ha
    · rcases List.mem_cons.1 h with h | h
      · left; rw [← h]; exact max_eq_right hM
      · exact Or.inr h

/-- The number of ticks between `start` and `T` is the floor of `(T - start) / d`. -/
theorem ticks_count (start T d : Int) (n : Nat) (hd : 0 < d)
    (h1 : start + (n : Int) * d ≤ T) (h2 : T < start + ((n : Int) + 1) * d) :
    ((T - start) / d).toNat = n := by
  have a1 : (n : Int) ≤ (T - start) / d := Int.le_ediv_of_mul_le hd (by linarith)
  have a2 : (T - start) / d < (n : Int) + 1 := Int.ediv_lt_of_lt_mul hd (by linarith)
  omega


theorem quiet_leaves (i : Nat) : quiet.leaves i := by
  intro k mc o ho; cases ho

theorem quiet_noRecv (i : Nat) : quiet.noRecv i := by
  intro k mc o ho; cases ho

theorem quiet_noReset (i : Nat) : quiet.noReset i := by
  intro k mc o ho; cases ho

theorem drain_leaves (i j : Nat) : (drain j).leaves i := by
  intro k mc o ho
  simp [drain] at ho
  subst ho
  exact ⟨rfl, rfl⟩

/-- `play` puts the timestamp into the empty channel of a record without function. -/
theorem play_chan (e : event) (t : Time) (hs : e.stopped = false) (hfn : e.fn = false)
    (hc : e.c = none) : (e.play t).c = some t := by
  unfold event.play
  by_cases hd : e.d = 0 <;> simp [event.Stopped, hs, hfn, hc, hd]

theorem stopAfterTwo_nonneg : stopAfterTwo.nonneg := by
  intro k mc o ho
  unfold stopAfterTwo at ho
  split at ho
  · simp at ho; subst ho; trivial
  · cases ho


/-! ## Claims C1 to C10 -/

/-- C1: when `Set(t)` returns, `Now()` equals `t`, and when `Add(d)` returns, `Now()` equals its
value before the call plus `d`, for every registry and every consumer behaviour, however many
records were fired; with passive consumers and non-negative intervals `Set(t)` does return. -/
theorem now_after_advance (srt : Sorter) (react : Reactor) (mc : manualClock) (t : Time)
    (d : Duration) :
    (∀ fuel mc', mc.Set srt react fuel t = .done mc' → mc'.Now = t) ∧
    (∀ fuel mc', mc.Add srt react fuel d = .done mc' → mc'.Now = mc.Now + d) ∧
    (react.passive → (∀ j, 0 ≤ (mc.heap j).d) →
      ∃ mc', mc'.Now = t ∧ ∀ fuel, dueCost t mc.heap (mc.events ++ mc.newEvents) < fuel →
        mc.Set srt react fuel t = .done mc') := by
  refine ⟨fun fuel mc' h => Set_now _ _ _ _ _ _ h, fun fuel mc' h => Set_now _ _ _ _ _ _ h, ?_⟩
  intro hp hd
  obtain ⟨mc', h⟩ := Set_returns srt react mc t hp hd
  exact ⟨mc', Set_now _ _ _ _ _ _ (h _ (Nat.lt_succ_self _)), h⟩

/-- Instance of C1: on a clock with a 5 ms ticker, `Set(12)` and `Add(12)` return with the clock
at 12, two ticks having been fired on the way. -/
theorem now_after_advance_witness :
    (Outcome.getD (tickerClock.Set insertionSorter quiet 10 12) tickerClock).Now = 12 ∧
    (Outcome.getD (tickerClock.Add insertionSorter quiet 10 12) tickerClock).Now
      = tickerClock.Now + 12 ∧
    (∃ mc', mc'.Now = 12 ∧ ∀ fuel,
      dueCost 12 tickerClock.heap (tickerClock.events ++ tickerClock.newEvents) < fuel →
        tickerClock.Set insertionSorter quiet fuel 12 = .done mc') :=
  ⟨(now_after_advance insertionSorter quiet tickerClock 12 12).1 10 _ rfl,
   (now_after_advance insertionSorter quiet tickerClock 12 12).2.1 10 _ rfl,
   (now_after_advance insertionSorter quiet tickerClock 12 12).2.2 quiet_passive
     tickerClock_d_nonneg⟩

/-- C2: a one-shot timer made by `NewTimer(d)` when the clock reads `start`, which no call stops
or resets: calls whose advances all end before `start + d` do not fire it; the first advance
whose target is at or after `start + d` fires it once, stamped `start + d`; whatever is called
afterwards, it is not fired again.  With tame calls (passive consumers) the calls do return. -/
theorem timer_fires_exactly_once (srt : Sorter) (mc : manualClock) (d : Duration)
    (pre : List Cmd) (adv : Cmd) (post : List Cmd) (t : Time)
    (hfresh : firedOf mc.nalloc mc.log = [])
    (hl : ∀ c ∈ pre ++ adv :: post, c.leaves mc.nalloc)
    (hpre : ∀ u ∈ advTargets mc.Now pre, u < mc.Now + d)
    (hadv : advTargets (nowAfter mc.Now pre) [adv] = [t]) (ht : mc.Now + d ≤ t) :
    (∀ fuel mcA mcB mcC,
      runCmds srt fuel (mc.NewTimer d).1 pre = .done mcA →
      runCmds srt fuel mcA [adv] = .done mcB →
      runCmds srt fuel mcB post = .done mcC →
      firedOf mc.nalloc mcA.log = [] ∧
      firedOf mc.nalloc mcB.log = [delivered mc.nalloc (mc.Now + d)] ∧
      firedOf mc.nalloc mcC.log = [delivered mc.nalloc (mc.Now + d)]) ∧
    ((∀ c ∈ pre ++ adv :: post, c.tame) → (∀ j, 0 ≤ (mc.heap j).d) →
      ∃ fuel mcA mcB mcC, runCmds srt fuel (mc.NewTimer d).1 pre = .done mcA ∧
        runCmds srt fuel mcA [adv] = .done mcB ∧ runCmds srt fuel mcB post = .done mcC) := by
  obtain ⟨s1, s2, s3, s4, s5, s6, s7⟩ := NewTimer_state mc d
  have hlpre : ∀ c ∈ pre, c.leaves mc.nalloc := fun c hc => hl c (List.mem_append_left _ hc)
  have hladv : adv.leaves mc.nalloc :=
    hl adv (List.mem_append_right _ (List.mem_cons_self _ _))
  have hlpost : ∀ c ∈ post, c.leaves mc.nalloc :=
    fun c hc => hl c (List.mem_append_right _ (List.mem_cons_of_mem _ hc))
  constructor
  · intro fuel mcA mcB mcC hA hB hC
    -- before the firing advance
    obtain ⟨a1, a2, a3, a4⟩ := runCmds_notDue srt fuel mc.nalloc (mc.now + d) pre
      (mc.NewTimer d).1 mcA hlpre (by rw [s7]; exact hpre) s1 s3 s2 hA
    have hfA : firedOf mc.nalloc mcA.log = [] := by rw [a3, s6]; exact hfresh
    have hf := noChan_fields a2
    have hnowA : mcA.now = nowAfter mc.Now pre := by
      rw [runCmds_now srt fuel pre _ mcA hA, s7]; rfl
    -- the firing advance
    have hset : ∃ react, react.leaves mc.nalloc ∧ mcA.Set srt react fuel t = .done mcB := by
      cases adv with
      | set t' react =>
        obtain ⟨m1, h1, h2⟩ := runCmds_set hB
        simp [runCmds] at h2; subst h2
        simp [advTargets] at hadv; subst hadv
        exact ⟨react, hladv, h1⟩
      | add d' react =>
        obtain ⟨m1, h1, h2⟩ := runCmds_add hB
        simp [runCmds] at h2; subst h2
        simp [advTargets] at hadv
        rw [hnowA, hadv] at h1
        exact ⟨react, hladv, h1⟩
      | op o => simp [advTargets] at hadv
    obtain ⟨react, hlr, hS⟩ := hset
    obtain ⟨b1, rest, b2, b3⟩ := Set_due srt react fuel mcA mcB t mc.nalloc a1 a4
      (by rw [hf.2.2.2.1, s5]) (by rw [hf.1, s3]; exact ht) hlr hS
    obtain ⟨b4, b5⟩ := b3 (by rw [hf.2.1, s4])
    have hfB : firedOf mc.nalloc mcB.log = [delivered mc.nalloc (mc.Now + d)] := by
      rw [b2, hfA, b4, hf.1, s3]; rfl
    -- afterwards
    obtain ⟨_, _, c3, _⟩ := runCmds_stopped srt fuel mc.nalloc post mcB mcC
      (fun c hc => leaves_noReset (hlpost c hc)) b1 b5 hC
    exact ⟨hfA, hfB, c3.trans hfB⟩
  · intro ht hd
    have hd0 : ∀ j, 0 ≤ ((mc.NewTimer d).1.heap j).d := by
      intro j
      by_cases hj : j = mc.nalloc
      · subst hj; rw [s4]
      · simpa [manualClock.NewTimer, manualClock.addEvent, Function.update_apply, hj] using hd j
    exact runCmds_returns3 srt pre [adv] post _
      (fun c hc => ht c (List.mem_append_left _ hc))
      (fun c hc => by
        simp at hc; subst hc
        exact ht _ (List.mem_append_right _ (List.mem_cons_self _ _)))
      (fun c hc => ht c (List.mem_append_right _ (List.mem_cons_of_mem _ hc))) hd0

/-- Instance of C2: `NewTimer(1ms)` on a fresh clock; `Add(500µs)` does not fire it, the next
`Add(500µs)` fires it once, stamped `T0 + 1ms`, and a further `Add(5s)` does not fire it again. -/
theorem timer_fires_exactly_once_witness :
    firedOf 0 (Outcome.getD (runCmds insertionSorter 10 timerClock [Cmd.add 500 quiet])
      timerClock).log = [] ∧
    firedOf 0 (Outcome.getD (runCmds insertionSorter 10
      (Outcome.getD (runCmds insertionSorter 10 timerClock [Cmd.add 500 quiet]) timerClock)
      [Cmd.add 500 quiet]) timerClock).log = [delivered 0 1000] ∧
    firedOf 0 (Outcome.getD (runCmds insertionSorter 10
      (Outcome.getD (runCmds insertionSorter 10
        (Outcome.getD (runCmds insertionSorter 10 timerClock [Cmd.add 500 quiet]) timerClock)
        [Cmd.add 500 quiet]) timerClock)
      [Cmd.add 5000000 quiet]) timerClock).log = [delivered 0 1000] :=
  (timer_fires_exactly_once insertionSorter (manualClock.fresh 0) 1000
    [Cmd.add 500 quiet] (Cmd.add 500 quiet) [Cmd.add 5000000 quiet] 1000 rfl
    (by intro c hc; simp at hc; rcases hc with rfl | rfl | rfl <;> exact quiet_leaves 0)
    (by intro u hu; simp [advTargets, manualClock.fresh, manualClock.Now] at hu; subst hu; decide)
    rfl (by decide)).1 10 _ _ _ rfl rfl rfl

/-- C3: a ticker made by `NewTicker(d)`, `d > 0`, when the clock reads `start`, which no call
stops or resets: after calls whose last advance ends at `T ≥ start`, no earlier one going beyond
`T`, it has been fired `floor((T - start) / d)` times in all, the `k`-th time stamped
`start + k * d`, in this order, and its next fire time is `start + (floor((T - start) / d) + 1) * d`.
With tame calls (passive consumers) the calls do return. -/
theorem ticker_fires_on_schedule (srt : Sorter) (mc : manualClock) (d : Duration)
    (cmds : List Cmd) (T : Time) (hd : 0 < d)
    (hfresh : firedOf mc.nalloc mc.log = [])
    (hl : ∀ c ∈ cmds, c.leaves mc.nalloc)
    (hlast : (advTargets mc.Now cmds).getLast? = some T)
    (hmax : ∀ u ∈ advTargets mc.Now cmds, u ≤ T) (hT : mc.Now ≤ T) :
    (∀ fuel mc', runCmds srt fuel (mc.NewTicker d).1 cmds = .done mc' →
      firedOf mc.nalloc mc'.log
        = ticks mc.nalloc (mc.Now + d) d ((T - mc.Now) / d).toNat ∧
      (mc'.heap mc.nalloc).next
        = mc.Now + ((((T - mc.Now) / d).toNat : Int) + 1) * d) ∧
    ((∀ c ∈ cmds, c.tame) → (∀ j, 0 ≤ (mc.heap j).d) →
      ∃ fuel mc', runCmds srt fuel (mc.NewTicker d).1 cmds = .done mc') := by
  obtain ⟨s1, s2, s3, s4, s5, s6, s7⟩ := NewTicker_state mc d
  constructor
  · intro fuel mc' h
    have h0 : TickerAt mc.nalloc (mc.now + d) d [] (mc.NewTicker d).1 mc.now 0 :=
      ⟨s1, s2, by rw [s3]; simp, s4, s5, by rw [s6, hfresh]; simp [ticks], by simpa using hd,
        by simp⟩
    obtain ⟨n, hn⟩ := runCmds_ticker srt fuel mc.nalloc (mc.now + d) d [] hd cmds _ mc'
      mc.now 0 hl h0 h
    rw [s7] at hn
    have hmem : T ∈ advTargets mc.now cmds := List.mem_of_mem_getLast? hlast
    have hfm : (advTargets mc.now cmds).foldl max mc.now = T :=
      foldl_max_eq _ mc.now T hmax hT (Or.inr hmem)
    rw [hfm] at hn
    obtain ⟨_, _, n1, _, _, n2, n3, n4⟩ := hn
    have hcount : ((T - mc.now) / d).toNat = n := by
      apply ticks_count mc.now T d n hd
      · by_cases hz : 1 ≤ n
        · have := n4 hz; linarith
        · have : n = 0 := by omega
          subst this; simpa using hT
      · linarith
    show firedOf mc.nalloc mc'.log = ticks mc.nalloc (mc.now + d) d ((T - mc.now) / d).toNat ∧
      (mc'.heap mc.nalloc).next = mc.now + ((((T - mc.now) / d).toNat : Int) + 1) * d
    rw [hcount]
    refine ⟨by simpa using n2, ?_⟩
    rw [n1]; ring
  · intro ht hd0
    have hd1 : ∀ j, 0 ≤ ((mc.NewTicker d).1.heap j).d := by
      intro j
      by_cases hj : j = mc.nalloc
      · subst hj; rw [s4]; exact le_of_lt hd
      · simpa [manualClock.NewTicker, manualClock.addEvent, Function.update_apply, hj] using hd0 j
    obtain ⟨mc', f, hr⟩ := runCmds_returns srt cmds _ ht hd1
    exact ⟨f, mc', hr f (le_refl _)⟩

/-- Instance of C3: `NewTicker(5ms)` on a fresh clock, then one `Add(12ms)`, the consumer
receiving each tick: the ticker is fired twice inside that `Add`, stamped `T0 + 5ms` then
`T0 + 10ms`, and is next due at `T0 + 15ms`. -/
theorem ticker_fires_on_schedule_witness :
    firedOf 0 (Outcome.getD (runCmds insertionSorter 10 tickerClock [Cmd.add 12 (drain 0)])
      tickerClock).log = [delivered 0 5, delivered 0 10] ∧
    ((Outcome.getD (runCmds insertionSorter 10 tickerClock [Cmd.add 12 (drain 0)])
      tickerClock).heap 0).next = 15 :=
  (ticker_fires_on_schedule insertionSorter (manualClock.fresh 0) 5 [Cmd.add 12 (drain 0)] 12
    (by decide) rfl
    (by intro c hc; simp at hc; subst hc; exact drain_leaves 0 0)
    rfl
    (by intro u hu; simp [advTargets, manualClock.fresh, manualClock.Now] at hu; subst hu; decide)
    (by decide)).1 10 _ rfl

/-- C4 at the failing input: `A = AfterFunc(10, f)`, `B = NewTimer(100)`, `f` calls
`B.Reset(1)`.  `Set(50)` fires `A` at 10, and returns with `B` tracked, not stopped, due at 11,
which is before the target 50, and never fired. -/
theorem Set_leaves_reset_record_unfired :
    ∃ mc', resetClock.Set insertionSorter resetReactor 10 50 = .done mc' ∧
      mc'.Now = 50 ∧ mc'.events = [1] ∧ mc'.newEvents = [] ∧
      (mc'.heap 1).stopped = false ∧ (mc'.heap 1).next = 11 ∧
      mc'.log = [delivered 0 10] :=
  ⟨_, rfl, by decide, by decide, by decide, by decide, by decide, by decide⟩

/-- C5: `Set(target)` fires no record early.  For a record the consumers neither stop nor
reset: if its next fire time is later than the target, the advance makes no delivery for it and
leaves its next fire time and stopped flag as they are, and its channel contents too unless a
consumer receives from it; if it is tracked, not stopped and due exactly at the target, the
advance fires it, stamped with the target.  With passive consumers the advance does return. -/
theorem Set_fires_none_early (srt : Sorter) (react : Reactor) (mc : manualClock) (now : Time)
    (i : Nat) (hi : i < mc.nalloc) (hl : react.leaves i) :
    (∀ fuel mc', mc.Set srt react fuel now = .done mc' →
      (now < (mc.heap i).next →
        firedOf i mc'.log = firedOf i mc.log ∧ (mc'.heap i).next = (mc.heap i).next ∧
        (mc'.heap i).stopped = (mc.heap i).stopped ∧
        (react.noRecv i → (mc'.heap i).c = (mc.heap i).c)) ∧
      ((mc.heap i).next = now → (mc.heap i).stopped = false →
        i ∈ mc.events ++ mc.newEvents →
        ∃ rest, firedOf i mc'.log = firedOf i mc.log ++ delivered i now :: rest)) ∧
    (react.passive → (∀ j, 0 ≤ (mc.heap j).d) →
      ∃ mc', ∀ fuel, dueCost now mc.heap (mc.events ++ mc.newEvents) < fuel →
        mc.Set srt react fuel now = .done mc') := by
  refine ⟨fun fuel mc' h => ⟨fun hlate => ?_, fun hnow hns htr => ?_⟩,
    fun hp hd => Set_returns srt react mc now hp hd⟩
  · obtain ⟨_, a2, a3, a4, _⟩ := Set_notDue srt react fuel mc mc' now i hi hlate hl h
    have hf := noChan_fields a2
    exact ⟨a3, hf.1, hf.2.2.2.1, fun hc => by rw [a4 hc]⟩
  · obtain ⟨_, rest, b2, _⟩ := Set_due srt react fuel mc mc' now i hi htr hns (le_of_eq hnow)
      hl h
    rw [hnow] at b2
    exact ⟨rest, b2⟩

/-- Instance of C5: `NewTimer(1ms)`, then `Add(500µs)` delivers nothing and leaves the timer as it
is; a second `Add(500µs)` delivers once, stamped `T0 + 1ms`. -/
theorem Set_fires_none_early_witness :
    (firedOf 0 (Outcome.getD (timerClock.Set insertionSorter quiet 10 500) timerClock).log = []
      ∧ ((Outcome.getD (timerClock.Set insertionSorter quiet 10 500) timerClock).heap 0).next
        = 1000
      ∧ ((Outcome.getD (timerClock.Set insertionSorter quiet 10 500) timerClock).heap 0).stopped
        = false
      ∧ ((Outcome.getD (timerClock.Set insertionSorter quiet 10 500) timerClock).heap 0).c
        = none) ∧
    (∃ rest, firedOf 0 (Outcome.getD ((Outcome.getD (timerClock.Set insertionSorter quiet 10 500)
        timerClock).Set insertionSorter quiet 10 1000) timerClock).log
      = [] ++ delivered 0 1000 :: rest) :=
  ⟨(fun h => ⟨h.1, h.2.1, h.2.2.1, h.2.2.2 (quiet_noRecv 0)⟩)
      (((Set_fires_none_early insertionSorter quiet timerClock 500 0 (by decide)
        (quiet_leaves 0)).1 10 _ rfl).1 (by decide)),
    ((Set_fires_none_early insertionSorter quiet
        (Outcome.getD (timerClock.Set insertionSorter quiet 10 500) timerClock) 1000 0
        (by decide) (quiet_leaves 0)).1 10 _ rfl).2 (by decide) (by decide) (by decide)⟩

/-- C7, as stated, fails: with a ticker of negative interval in the registry (`NewTicker(-5)`)
and consumers that only call `Stop`, one `Set(0)` fires at -5 and then at -10. -/
theorem Set_order_fails_with_negative_interval :
    stopAfterTwo.nonneg ∧
    ∃ mc', negClock.Set insertionSorter stopAfterTwo 5 0 = .done mc' ∧
      mc'.log.map (fun x => x.stamp) = [-5, -10] ∧
      ¬ (mc'.log.map (fun x => x.stamp)).Pairwise (fun a b => a ≤ b) :=
  ⟨stopAfterTwo_nonneg, _, rfl, by decide, by decide⟩

/-- C7 (amended): within one `Set`, records are fired in ascending order of time: the
timestamps of the deliveries made by the call are non-decreasing, for every registry whose records
have non-negative intervals and every consumer behaviour that uses only non-negative durations.
With passive consumers the call does return. -/
theorem Set_fires_in_time_order (srt : Sorter) (react : Reactor) (mc : manualClock) (now : Time)
    (hd : ∀ j, 0 ≤ (mc.heap j).d) (hnn : react.nonneg) :
    (∀ fuel mc', mc.Set srt react fuel now = .done mc' →
      ∃ added, mc'.log = mc.log ++ added ∧
        (added.map (fun x => x.stamp)).Pairwise (fun a b => a ≤ b)) ∧
    (react.passive →
      ∃ mc', ∀ fuel, dueCost now mc.heap (mc.events ++ mc.newEvents) < fuel →
        mc.Set srt react fuel now = .done mc') :=
  ⟨fun fuel mc' h => Set_ordered srt react fuel mc mc' now hd hnn h,
    fun hp => Set_returns srt react mc now hp hd⟩

/-- Instance of C7: on the clock with the 5 ms ticker, `Set(12)` appends deliveries with
non-decreasing timestamps. -/
theorem Set_fires_in_time_order_witness :
    ∃ added, (Outcome.getD (tickerClock.Set insertionSorter quiet 10 12) tickerClock).log
        = tickerClock.log ++ added ∧
      (added.map (fun x => x.stamp)).Pairwise (fun a b => a ≤ b) :=
  (Set_fires_in_time_order insertionSorter quiet tickerClock 12 tickerClock_d_nonneg
    (passive_nonneg quiet_passive)).1 10 _ rfl

/-- C8 at the failing input: the state left by `Add(50)` in the scenario of C4 is reached from a
fresh clock with non-negative durations only; there `Now()` is 50, and `Add(10)` fires `B` with
the clock set back to 11 before it goes to 60. -/
theorem Add_moves_time_backwards :
    ∃ m1 m2, resetClock.Add insertionSorter resetReactor 10 50 = .done m1 ∧ m1.Now = 50 ∧
      m1.Add insertionSorter quiet 10 10 = .done m2 ∧
      m2.log = m1.log ++ [{ ev := 1, stamp := 11, clock := 11 }] ∧ m2.Now = 60 :=
  ⟨_, _, rfl, by decide, rfl, by decide, by decide⟩

/-- C9: `Timer.Stop` returns true exactly when the timer was not stopped before the call and
leaves it stopped, all other fields being unchanged; so a second `Stop`, or a `Stop` on a timer
that `play` has fired, returns false.  As a handle operation it changes nothing but that record:
not the registry, the buffer, the clock, nor any other record. -/
theorem Timer_Stop_spec (t : event) (mc : manualClock) (i : Nat) (now : Time) :
    ((Timer.Stop t).2 = true ↔ t.stopped = false) ∧
    (Timer.Stop t).1 = { t with stopped := true } ∧
    (Timer.Stop (Timer.Stop t).1).2 = false ∧
    (t.d = 0 → (Timer.Stop (t.play now)).2 = false) ∧
    (applyOp mc (.stop i)).events = mc.events ∧
    (applyOp mc (.stop i)).newEvents = mc.newEvents ∧
    (applyOp mc (.stop i)).now = mc.now ∧
    (∀ j, j ≠ i → (applyOp mc (.stop i)).heap j = mc.heap j) ∧
    (i < mc.nalloc → (applyOp mc (.stop i)).heap i = (Timer.Stop (mc.heap i)).1) := by
  refine ⟨by simp [Timer.Stop], rfl, by simp [Timer.Stop], fun hd => ?_, ?_, ?_, ?_,
    fun j hj => ?_, fun hi => ?_⟩
  · cases hs : t.stopped with
    | true => simp [Timer.Stop, event.play, event.Stopped, hs]
    | false =>
      have := (play_active t now hs).2.2.2.1 hd
      simp [Timer.Stop, this.1]
  · exact applyOp_events mc _
  · simp only [applyOp]; split <;> rfl
  · exact applyOp_now mc _
  · simp only [applyOp]
    split
    · simp [Function.update_apply, hj]
    · rfl
  · simp [applyOp, hi]

/-- Instance of C9: the timer of `timerClock` is active, so `Stop` returns true; once `play` has
fired it `Stop` returns false. -/
theorem Timer_Stop_spec_witness :
    (Timer.Stop (timerClock.heap 0)).2 = true ∧
    (Timer.Stop ((timerClock.heap 0).play 1000)).2 = false ∧
    (applyOp timerClock (.stop 0)).heap 0 = (Timer.Stop (timerClock.heap 0)).1 :=
  ⟨(Timer_Stop_spec (timerClock.heap 0) timerClock 0 1000).1.2 (by decide),
    (Timer_Stop_spec (timerClock.heap 0) timerClock 0 1000).2.2.2.1 (by decide),
    (Timer_Stop_spec (timerClock.heap 0) timerClock 0 1000).2.2.2.2.2.2.2.2 (by decide)⟩

/-- C10: a stopped record is never delivered.  After `Stop` on a timer or ticker, whatever calls
follow, as long as none resets the record: no delivery of the record is made (its function is not
invoked, nothing is sent on its channel, which can only lose its value to a receive) and it stays
stopped, however far the clock is advanced.  With tame calls the calls do return. -/
theorem stopped_never_delivered (srt : Sorter) (mc : manualClock) (i : Nat) (cmds : List Cmd)
    (hi : i < mc.nalloc) (hC : ∀ c ∈ cmds, c.noReset i) :
    (∀ fuel mc', runCmds srt fuel (applyOp mc (.stop i)) cmds = .done mc' →
      firedOf i mc'.log = firedOf i mc.log ∧
      ((mc'.heap i).c = (mc.heap i).c ∨ (mc'.heap i).c = none) ∧
      (mc'.heap i).stopped = true) ∧
    ((∀ c ∈ cmds, c.tame) → (∀ j, 0 ≤ (mc.heap j).d) →
      ∃ fuel mc', runCmds srt fuel (applyOp mc (.stop i)) cmds = .done mc') := by
  have hst : ((applyOp mc (.stop i)).heap i).stopped = true := by
    simp [applyOp, hi, Timer.Stop]
  have hc0 : ((applyOp mc (.stop i)).heap i).c = (mc.heap i).c := by
    simp [applyOp, hi, Timer.Stop]
  constructor
  · intro fuel mc' h
    obtain ⟨_, a2, a3, a4⟩ := runCmds_stopped srt fuel i cmds _ mc' hC
      (lt_of_lt_of_le hi (applyOp_nalloc_le mc _)) hst h
    rw [applyOp_log] at a3
    rw [hc0] at a4
    exact ⟨a3, a4, a2⟩
  · intro ht hd
    obtain ⟨mc', f, hr⟩ := runCmds_returns srt cmds (applyOp mc (.stop i)) ht
      (applyOp_d_nonneg mc _ trivial hd)
    exact ⟨f, mc', hr f (le_refl _)⟩

/-- Instance of C10: the 5 ms ticker is stopped at once; `Add(12ms)` and `Add(5s)` then deliver
nothing for it. -/
theorem stopped_never_delivered_witness :
    firedOf 0 (Outcome.getD (runCmds insertionSorter 10 (applyOp tickerClock (.stop 0))
      [Cmd.add 12 quiet, Cmd.add 5000 quiet]) tickerClock).log = firedOf 0 tickerClock.log ∧
    (((Outcome.getD (runCmds insertionSorter 10 (applyOp tickerClock (.stop 0))
      [Cmd.add 12 quiet, Cmd.add 5000 quiet]) tickerClock).heap 0).c = (tickerClock.heap 0).c ∨
     ((Outcome.getD (runCmds insertionSorter 10 (applyOp tickerClock (.stop 0))
      [Cmd.add 12 quiet, Cmd.add 5000 quiet]) tickerClock).heap 0).c = none) ∧
    ((Outcome.getD (runCmds insertionSorter 10 (applyOp tickerClock (.stop 0))
      [Cmd.add 12 quiet, Cmd.add 5000 quiet]) tickerClock).heap 0).stopped = true :=
  (stopped_never_delivered insertionSorter tickerClock 0 [Cmd.add 12 quiet, Cmd.add 5000 quiet]
    (by decide)
    (by intro c hc; simp at hc; rcases hc with rfl | rfl <;> exact quiet_noReset 0)).1 10 _ rfl

/-! ## The registry invariant and rules for the firing loop -/

/-- A change of the records that keeps every `removed` flag, with the lists and the allocation
count unchanged, keeps the registry invariant. -/
theorem Reg_of_same (mc mc' : manualClock) (h : Reg mc) (he : mc'.events = mc.events)
    (hn : mc'.newEvents = mc.newEvents) (ha : mc'.nalloc = mc.nalloc)
    (hr : ∀ j, (mc'.heap j).removed = (mc.heap j).removed) : Reg mc' := by
  obtain ⟨h1, h2, h3⟩ := h
  refine ⟨by rw [he, hn]; exact h1, by rw [he, hn, ha]; exact h2, fun j hj => ?_⟩
  rw [he, hn, hr j]
  exact h3 j (by rw [← ha]; exact hj)

/-- Allocating a record that is not removed and appending it to the buffer keeps the registry
invariant. -/
theorem Reg_alloc (mc mc' : manualClock) (h : Reg mc) (he : mc'.events = mc.events)
    (hn : mc'.newEvents = mc.newEvents ++ [mc.nalloc]) (ha : mc'.nalloc = mc.nalloc + 1)
    (hr : ∀ j, j ≠ mc.nalloc → (mc'.heap j).removed = (mc.heap j).removed)
    (hnew : (mc'.heap mc.nalloc).removed = false) : Reg mc' := by
  obtain ⟨h1, h2, h3⟩ := h
  have hfresh : mc.nalloc ∉ mc.events ++ mc.newEvents :=
    fun hm => lt_irrefl _ (h2 _ hm)
  have hl : mc'.events ++ mc'.newEvents = (mc.events ++ mc.newEvents) ++ [mc.nalloc] := by
    rw [he, hn, List.append_assoc]
  refine ⟨?_, ?_, fun j hj => ?_⟩
  · rw [hl]
    exact List.nodup_append.2 ⟨h1, List.nodup_singleton _, by
      intro a ha1 ha2
      simp at ha2; subst ha2; exact hfresh ha1⟩
  · rw [hl, ha]
    intro i hi
    rcases List.mem_append.1 hi with hi | hi
    · exact Nat.lt_succ_of_lt (h2 i hi)
    · simp at hi; subst hi; exact Nat.lt_succ_self _
  · rw [hl]
    by_cases hjn : j = mc.nalloc
    · subst hjn
      rw [hnew]
      simp
    · rw [hr j hjn, h3 j (by rw [ha] at hj; omega)]
      simp [hjn]

theorem Reg_fresh (t0 : Time) : Reg (manualClock.fresh t0) := by
  refine ⟨by simp [manualClock.fresh], by simp [manualClock.fresh], fun i hi => ?_⟩
  simp [manualClock.fresh] at hi

theorem Reg_applyOp (mc : manualClock) (o : Op) (h : Reg mc) : Reg (applyOp mc o) := by
  cases o with
  | stop i =>
    simp only [applyOp]
    split
    · refine Reg_of_same mc _ h rfl rfl rfl (fun j => ?_)
      by_cases hji : j = i
      · subst hji; simp [Timer.Stop]
      · simp [Function.update_apply, hji]
    · exact h
  | recv i =>
    simp only [applyOp, manualClock.recv]
    split
    · refine Reg_of_same mc _ h rfl rfl rfl (fun j => ?_)
      by_cases hji : j = i
      · subst hji; simp
      · simp [Function.update_apply, hji]
    · exact h
  | newTimer d =>
    refine Reg_alloc mc _ h rfl rfl rfl (fun j hj => ?_) ?_
    · simp [applyOp, manualClock.NewTimer, manualClock.addEvent, Function.update_apply, hj]
    · simp [applyOp, manualClock.NewTimer, manualClock.addEvent]
  | afterFunc d =>
    refine Reg_alloc mc _ h rfl rfl rfl (fun j hj => ?_) ?_
    · simp [applyOp, manualClock.AfterFunc, manualClock.NewTimer, manualClock.addEvent,
        Function.update_apply, hj]
    · simp [applyOp, manualClock.AfterFunc, manualClock.NewTimer, manualClock.addEvent]
  | newTicker d =>
    refine Reg_alloc mc _ h rfl rfl rfl (fun j hj => ?_) ?_
    · simp [applyOp, manualClock.NewTicker, manualClock.addEvent, Function.update_apply, hj]
    · simp [applyOp, manualClock.NewTicker, manualClock.addEvent]
  | reset i d =>
    simp only [applyOp]
    split
    · rename_i hi
      obtain ⟨h1, h2, h3⟩ := h
      unfold Timer.Reset
      cases hr : (mc.heap i).removed with
      | false =>
        simp only [hr, Bool.false_eq_true, if_false]
        refine Reg_of_same mc _ ⟨h1, h2, h3⟩ rfl rfl rfl (fun j => ?_)
        by_cases hji : j = i
        · subst hji; simp [hr]
        · simp [Function.update_apply, hji]
      | true =>
        simp only [hr, if_true, manualClock.addEvent]
        have hni : i ∉ mc.events ++ mc.newEvents := (h3 i hi).1 hr
        refine ⟨?_, ?_, fun j hj => ?_⟩
        · show (mc.events ++ (mc.newEvents ++ [i])).Nodup
          rw [← List.append_assoc]
          exact List.nodup_append.2 ⟨h1, List.nodup_singleton _, by
            intro a ha1 ha2
            simp at ha2; subst ha2; exact hni ha1⟩
        · show ∀ a ∈ mc.events ++ (mc.newEvents ++ [i]), a < mc.nalloc
          intro a ha
          rw [← List.append_assoc] at ha
          rcases List.mem_append.1 ha with ha | ha
          · exact h2 a ha
          · simp at ha; subst ha; exact hi
        · show ((Function.update mc.heap i _ j).removed = true ↔
            j ∉ mc.events ++ (mc.newEvents ++ [i]))
          rw [← List.append_assoc]
          by_cases hji : j = i
          · subst hji; simp
          · have := h3 j hj
            simp only [Function.update_apply, hji, if_false]
            rw [this]
            simp [hji]
    · exact h

theorem Reg_runOps (os : List Op) : ∀ (mc : manualClock), Reg mc → Reg (runOps mc os) := by
  induction os with
  | nil => intro mc h; exact h
  | cons o os ih => intro mc h; exact ih _ (Reg_applyOp mc o h)

theorem fire_removed (mc : manualClock) (e j : Nat) :
    ((mc.fire e).heap j).removed = (mc.heap j).removed := by
  by_cases hje : j = e
  · subst hje
    cases hs : (mc.heap j).stopped with
    | true => rw [(fire_stopped mc j hs).1]
    | false => rw [(fire_active mc j hs).1]; exact (play_active _ _ hs).2.2.1
  · rw [fire_heap_ne mc e j hje]

theorem Reg_fire (mc : manualClock) (e : Nat) (h : Reg mc) : Reg (mc.fire e) :=
  Reg_of_same mc _ h (fire_events mc e) (fire_newEvents mc e) (fire_nalloc mc e)
    (fire_removed mc e)

theorem Reg_merge (mc : manualClock) (h : Reg mc) : Reg mc.merge := by
  obtain ⟨h1, h2, h3⟩ := h
  exact ⟨by simpa [manualClock.merge] using h1, by simpa [manualClock.merge] using h2,
    fun j hj => by simpa [manualClock.merge] using h3 j hj⟩

theorem Reg_resort (srt : Sorter) (mc : manualClock) (last : Nat) (h : Reg mc) :
    Reg (resort srt mc last) := by
  obtain ⟨h1, h2, h3⟩ := h
  have hp : ((resort srt mc last).events ++ (resort srt mc last).newEvents).Perm
      (mc.events ++ mc.newEvents) :=
    List.Perm.append_right _ (resort_perm srt mc last)
  exact ⟨hp.nodup_iff.2 h1, fun i hi => h2 i (hp.mem_iff.1 hi),
    fun j hj => by rw [hp.mem_iff]; exact h3 j hj⟩

/-- A firing step keeps the registry invariant. -/
theorem Reg_tailStep (react : Reactor) (k : Nat) (mc : manualClock) (e : Nat) (h : Reg mc)
    (he : mc.events.getLast? = some e) : Reg (tailStep react k mc e) := by
  have h2 := Reg_runOps (react k (mc.fire e)) _ (Reg_fire mc e h)
  obtain ⟨ys, hys⟩ := List.getLast?_eq_some_iff.1 he
  have hev : (runOps (mc.fire e) (react k (mc.fire e))).events = ys ++ [e] := by
    rw [runOps_events, fire_events, hys]
  have hE := tailStep_events react k mc e
  have hN := tailStep_newEvents react k mc e
  have hA := tailStep_nalloc react k mc e
  have hS := tailStep_heap_self react k mc e
  have hO := fun i (hi : i ≠ e) => tailStep_heap_ne react k mc e i hi
  generalize tailStep react k mc e = T at hE hN hA hS hO
  generalize runOps (mc.fire e) (react k (mc.fire e)) = mc2 at h2 hev hE hA hS hO
  obtain ⟨a1, a2, a3⟩ := h2
  rw [hev] at a1 a2 a3
  have hys' : mc.events.dropLast = ys := by rw [hys, List.dropLast_concat]
  rw [hys', hys] at hE
  cases hs : (mc2.heap e).stopped with
  | false =>
    simp only [hs, Bool.false_eq_true, if_false] at hE hS
    refine ⟨by rw [hE, hN, List.append_nil]; exact a1,
      by rw [hE, hN, List.append_nil, hA]; exact a2, fun j hj => ?_⟩
    rw [hE, hN, List.append_nil]
    rw [hA] at hj
    by_cases hje : j = e
    · subst hje; rw [hS]; exact a3 j hj
    · rw [hO j hje]; exact a3 j hj
  | true =>
    simp only [hs, if_true] at hE hS
    have hnd : (ys ++ [e] ++ mc2.newEvents).Nodup := a1
    have hsub : (ys ++ mc2.newEvents).Sublist (ys ++ [e] ++ mc2.newEvents) :=
      List.Sublist.append (List.sublist_append_left ys [e]) (List.Sublist.refl _)
    have hne : e ∉ ys ++ mc2.newEvents := by
      intro hm
      have h3 : (ys ++ ([e] ++ mc2.newEvents)).Nodup := by
        rw [← List.append_assoc]; exact hnd
      have h4 := List.nodup_append.1 h3
      rcases List.mem_append.1 hm with hm | hm
      · exact h4.2.2 hm (by simp)
      · have h5 := List.nodup_append.1 h4.2.1
        exact h5.2.2 (by simp) hm
    refine ⟨by rw [hE, hN, List.append_nil]; exact hnd.sublist hsub,
      by rw [hE, hN, List.append_nil, hA]; exact fun i hi => a2 i (hsub.subset hi),
      fun j hj => ?_⟩
    rw [hE, hN, List.append_nil]
    rw [hA] at hj
    by_cases hje : j = e
    · subst hje; rw [hS]; simpa using hne
    · rw [hO j hje, a3 j hj]
      simp [hje]

/-- The registry invariant survives a whole advance. -/
theorem Reg_Set (srt : Sorter) (react : Reactor) (fuel : Nat) (mc mc' : manualClock)
    (now : Time) (h : Reg mc) (hd : mc.Set srt react fuel now = .done mc') : Reg mc' := by
  obtain ⟨m, hm, rfl⟩ := Set_inv srt react now Reg mc (Reg_merge mc h)
    (fun m last hP => Reg_resort srt m last hP)
    (fun k m last e _ hP he => Reg_tailStep react k m e hP he) fuel mc' hd
  exact hm

/-- The firing loop from step `k + k0` on is the loop of the consumers shifted by `k0`. -/
theorem Set.loop_shift (srt : Sorter) (react : Reactor) (now : Time) (k0 : Nat) :
    ∀ (fuel k : Nat) (mc : manualClock) (last : Nat) (first : Int),
      Set.loop srt react now fuel (k + k0) mc last first
        = Set.loop srt (react.shift k0) now fuel k mc last first := by
  intro fuel
  induction fuel with
  | zero => intro k mc last first; rfl
  | succ fuel ih =>
    intro k mc last first
    rw [Set.loop, Set.loop]
    have hk : k + k0 + 1 = (k + 1) + k0 := by omega
    simp only [Reactor.shift, hk, ih]

/-- What is left of the firing loop after its first step: it either ends at once, or goes on
from the re-sorted registry with the consumers shifted by one step. -/
theorem Set.loop_step (srt : Sorter) (react : Reactor) (now : Time) (fuel k : Nat)
    (m : manualClock) (last e : Nat) (mc' : manualClock) (hH : Head now m last)
    (he : m.events.getLast? = some e)
    (h : Set.loop srt react now fuel k m last ((m.events.length : Int) - 1) = .done mc') :
    ((tailStep react k m e).events = [] ∧ mc' = tailStep react k m e) ∨
    ((tailStep react k m e).events ≠ [] ∧
      (resort srt (tailStep react k m e) last).events.length
        ≤ newLast now (resort srt (tailStep react k m e) last) last ∧
      mc' = resort srt (tailStep react k m e) last) ∨
    ((tailStep react k m e).events ≠ [] ∧
      Head now (resort srt (tailStep react k m e) last)
        (newLast now (resort srt (tailStep react k m e) last) last) ∧
      Set.loop srt (react.shift (k + 1)) now (fuel - 1) 0
        (resort srt (tailStep react k m e) last)
        (newLast now (resort srt (tailStep react k m e) last) last)
        (((resort srt (tailStep react k m e) last).events.length : Int) - 1) = .done mc') := by
  cases fuel with
  | zero => simp [Set.loop] at h
  | succ fuel =>
    rw [Set.loop_succ srt react now fuel k m last e hH.1 he] at h
    have hdue := hH.tail_due he
    have hA : ¬ After (m.key e) now = true := by simp [After]; exact hdue
    rw [if_neg hA] at h
    have hlen := tailStep_length_ge react k m e
    have hl4 : last ≤ (tailStep react k m e).events.length := by have := hH.1; omega
    by_cases hnil : (tailStep react k m e).events = []
    · rw [if_pos hnil] at h
      cases h
      exact Or.inl ⟨hnil, rfl⟩
    · rw [if_neg hnil] at h
      by_cases hx : (resort srt (tailStep react k m e) last).events.length
            ≤ newLast now (resort srt (tailStep react k m e) last) last
      · rw [if_pos hx] at h
        cases h
        exact Or.inr (Or.inl ⟨hnil, hx, rfl⟩)
      · rw [if_neg hx] at h
        refine Or.inr (Or.inr ⟨hnil, head_of_resort srt now _ last hl4
          (tailStep_newEvents _ _ _ _) (by omega), ?_⟩)
        have := Set.loop_shift srt react now (k + 1) fuel 0
          (resort srt (tailStep react k m e) last)
          (newLast now (resort srt (tailStep react k m e) last) last)
          (((resort srt (tailStep react k m e) last).events.length : Int) - 1)
        rw [Nat.zero_add] at this
        rw [Nat.add_sub_cancel, ← this]
        exact h

/-- Invariant rule for the firing loop with a property of the registry alone. -/
theorem Set.loop_inv (srt : Sorter) (react : Reactor) (now : Time) (P : manualClock → Prop)
    (hres : ∀ m last, P m → P (resort srt m last))
    (hstep : ∀ k m last e, Head now m last → P m → m.events.getLast? = some e →
      P (tailStep react k m e))
    (fuel k : Nat) (mc : manualClock) (last : Nat) (mc' : manualClock) (hH : Head now mc last)
    (h0 : P mc)
    (h : Set.loop srt react now fuel k mc last ((mc.events.length : Int) - 1) = .done mc') :
    P mc' := by
  refine Set.loop_rule srt react now (fun _ m _ => P m) P ?_ fuel k mc last mc' hH h0 h
  intro k m last e hH hP he
  have := hstep k m last e hH hP he
  exact ⟨fun _ => this, fun _ => ⟨fun _ => hres _ _ this, fun _ => hres _ _ this⟩⟩

/-- Two-phase invariant rule for following one record `i` through the firing loop. -/
theorem Set.loop_phase (srt : Sorter) (react : Reactor) (now : Time) (i : Nat)
    (A B : manualClock → Prop)
    (hAres : ∀ m last, A m → A (resort srt m last))
    (hBres : ∀ m last, B m → B (resort srt m last))
    (hAkey : ∀ m, A m → m.key i ≤ now)
    (hstepA : ∀ k m last e, Head now m last → A m → i ∈ m.events.drop last →
      m.events.getLast? = some e →
      B (tailStep react k m e) ∨
        (A (tailStep react k m e) ∧ i ∈ (tailStep react k m e).events.drop last))
    (hstepB : ∀ k m last e, Head now m last → B m → m.events.getLast? = some e →
      B (tailStep react k m e))
    (fuel k : Nat) (mc : manualClock) (last : Nat) (mc' : manualClock) (hH : Head now mc last)
    (h0 : (A mc ∧ i ∈ mc.events.drop last) ∨ B mc)
    (h : Set.loop srt react now fuel k mc last ((mc.events.length : Int) - 1) = .done mc') :
    B mc' := by
  have hgen : ∀ (m : manualClock) (last : Nat), last ≤ m.events.length →
      ((A m ∧ i ∈ m.events.drop last) ∨ B m) →
      (m.events = [] → B m) ∧
      (m.events ≠ [] →
        ((resort srt m last).events.length ≤ newLast now (resort srt m last) last →
          B (resort srt m last)) ∧
        (newLast now (resort srt m last) last < (resort srt m last).events.length →
          ((A (resort srt m last) ∧
            i ∈ (resort srt m last).events.drop (newLast now (resort srt m last) last)) ∨
            B (resort srt m last)))) := by
    intro m last hlast hAB
    rcases hAB with ⟨hA, hi⟩ | hB
    · have hi2 := mem_drop_newLast srt now m last i hlast hi (hAkey m hA)
      refine ⟨fun hnil => ?_, fun _ => ⟨fun hx => ?_, fun _ => Or.inl ⟨hAres _ _ hA, hi2⟩⟩⟩
      · have := List.mem_of_mem_drop hi
        rw [hnil] at this
        cases this
      · exact (drop_eq_nil_of_len_le _ _ _ hx hi2).elim
    · exact ⟨fun _ => hB, fun _ => ⟨fun _ => hBres _ _ hB, fun _ => Or.inr (hBres _ _ hB)⟩⟩
  refine Set.loop_rule srt react now
    (fun _ m last => (A m ∧ i ∈ m.events.drop last) ∨ B m) B ?_ fuel k mc last mc' hH h0 h
  intro k m last e hH hI he
  have hlen := tailStep_length_ge react k m e
  have hl4 : last ≤ (tailStep react k m e).events.length := by have := hH.1; omega
  have hAB : (A (tailStep react k m e) ∧ i ∈ (tailStep react k m e).events.drop last) ∨
      B (tailStep react k m e) := by
    rcases hI with ⟨hA, hi⟩ | hB
    · rcases hstepA k m last e hH hA hi he with hB | hA2
      · exact Or.inr hB
      · exact Or.inl hA2
    · exact Or.inr (hstepB k m last e hH hB he)
  exact hgen _ last hl4 hAB

/-- Loop form of `Set_due`: a record of the due slice that is not stopped, and that the
consumers neither stop nor reset, is fired by the loop with its scheduled time as timestamp; a
one-shot record is fired exactly once and is stopped afterwards. -/
theorem Set.loop_due (srt : Sorter) (react : Reactor) (now : Time) (i : Nat)
    (fuel k : Nat) (mc : manualClock) (last : Nat) (mc' : manualClock) (hH : Head now mc last)
    (hi : i < mc.nalloc) (htr : i ∈ mc.events.drop last)
    (hns : (mc.heap i).stopped = false) (hl : react.leaves i)
    (h : Set.loop srt react now fuel k mc last ((mc.events.length : Int) - 1) = .done mc') :
    i < mc'.nalloc ∧
    ∃ rest, firedOf i mc'.log = firedOf i mc.log ++
        delivered i (mc.heap i).next :: rest ∧
      ((mc.heap i).d = 0 → rest = [] ∧ (mc'.heap i).stopped = true) := by
  have hdue : (mc.heap i).next ≤ now := hH.2.2.1 i htr
  have hnr : react.noReset i := fun k s o ho => (hl k s o ho).2
  refine Set.loop_phase srt react now i
    (fun m => i < m.nalloc ∧ (m.heap i).noChan = (mc.heap i).noChan ∧
      firedOf i m.log = firedOf i mc.log)
    (fun m => i < m.nalloc ∧
      ∃ rest, firedOf i m.log = firedOf i mc.log ++
        delivered i (mc.heap i).next :: rest ∧
      ((mc.heap i).d = 0 → rest = [] ∧ (m.heap i).stopped = true))
    (fun m last hP => hP) (fun m last hP => hP)
    (fun m hA => by
      have : m.key i = (mc.heap i).next := (noChan_fields hA.2.1).1
      rw [this]; exact hdue)
    ?_ ?_ fuel k mc last mc' hH (Or.inl ⟨⟨hi, rfl, rfl⟩, htr⟩) h
  · intro k m last e hH hA hmem he
    obtain ⟨h1, h2, h3⟩ := hA
    have hf := noChan_fields h2
    by_cases hie : i = e
    · subst hie
      left
      have hact : (m.heap i).stopped = false := by rw [hf.2.2.2.1]; exact hns
      obtain ⟨a1, a2⟩ := fire_active m i hact
      obtain ⟨p1, p2, p3, p4, p5⟩ := play_active (m.heap i) (m.key i) hact
      refine ⟨lt_of_lt_of_le h1 (tailStep_nalloc_le _ _ _ _), [], ?_, ?_⟩
      · rw [tailStep_log, a2, firedOf_append, h3]
        have hk : m.key i = (mc.heap i).next := hf.1
        simp [firedOf, hk, delivered]
      · intro hd0
        refine ⟨rfl, ?_⟩
        have hst : ((m.fire i).heap i).stopped = true := by
          rw [a1]
          exact (p4 (by rw [hf.2.1]; exact hd0)).1
        have hro := runOps_stopped (react k (m.fire i)) (m.fire i) i (by simpa using h1)
          (hnr _ _) hst
        rw [tailStep_heap_self, hro]
        simp [hro]
    · right
      obtain ⟨t1, t2, _⟩ := tailStep_other react k m e i hie h1 hl
      exact ⟨⟨lt_of_lt_of_le h1 (tailStep_nalloc_le _ _ _ _), t1.trans h2, t2.trans h3⟩,
        mem_drop_tailStep_ne react k m last e i he hmem hie⟩
  · intro k m last e hH hB he
    obtain ⟨h1, rest, h2, h3⟩ := hB
    refine ⟨lt_of_lt_of_le h1 (tailStep_nalloc_le _ _ _ _), ?_⟩
    by_cases hie : i = e
    · subst hie
      by_cases hd0 : (mc.heap i).d = 0
      · obtain ⟨r0, hst⟩ := h3 hd0
        have hfs := fire_stopped m i hst
        refine ⟨rest, ?_, fun _ => ⟨r0, ?_⟩⟩
        · rw [tailStep_log, hfs.2, h2]
        · have hro := runOps_stopped (react k (m.fire i)) (m.fire i) i (by simpa using h1)
            (hnr _ _) (by rw [hfs.1]; exact hst)
          rw [tailStep_heap_self, hro]
          simp [hro]
      · rw [tailStep_log]
        have hlog : ∃ extra, firedOf i (m.fire i).log = firedOf i m.log ++ extra := by
          cases hs : (m.heap i).stopped with
          | true => exact ⟨[], by rw [(fire_stopped m i hs).2]; simp⟩
          | false => exact ⟨_, by rw [(fire_active m i hs).2, firedOf_append]⟩
        obtain ⟨extra, hex⟩ := hlog
        exact ⟨rest ++ extra, by rw [hex, h2]; simp, fun hd => absurd hd hd0⟩
    · obtain ⟨t1, t2, _⟩ := tailStep_other react k m e i hie h1 hl
      refine ⟨rest, t2.trans h2, fun hd => ⟨(h3 hd).1, ?_⟩⟩
      rw [(noChan_fields t1).2.2.2.1]
      exact (h3 hd).2

/-- A tracked one-shot record that is not stopped, and that the consumers neither stop nor
reset, comes out of the firing loop either fired once, stamped with its scheduled time, and
stopped, or unfired, still tracked and unchanged but for its channel. -/
theorem Set.loop_oneShot (srt : Sorter) (react : Reactor) (now : Time) (i : Nat)
    (fuel k : Nat) (mc : manualClock) (last : Nat) (mc' : manualClock) (hH : Head now mc last)
    (hi : i < mc.nalloc) (htr : i ∈ mc.events) (hns : (mc.heap i).stopped = false)
    (hd : (mc.heap i).d = 0) (hl : react.leaves i)
    (h : Set.loop srt react now fuel k mc last ((mc.events.length : Int) - 1) = .done mc') :
    i < mc'.nalloc ∧
    ((firedOf i mc'.log = firedOf i mc.log ++ [delivered i (mc.heap i).next] ∧
        (mc.heap i).next ≤ now ∧ (mc'.heap i).stopped = true) ∨
      (firedOf i mc'.log = firedOf i mc.log ∧ i ∈ mc'.events ∧
        (mc'.heap i).noChan = (mc.heap i).noChan)) := by
  have hnr : react.noReset i := fun k s o ho => (hl k s o ho).2
  refine Set.loop_inv srt react now
    (fun m => i < m.nalloc ∧
      ((firedOf i m.log = firedOf i mc.log ++ [delivered i (mc.heap i).next] ∧
        (mc.heap i).next ≤ now ∧ (m.heap i).stopped = true) ∨
      (firedOf i m.log = firedOf i mc.log ∧ i ∈ m.events ∧
        (m.heap i).noChan = (mc.heap i).noChan)))
    ?_ ?_ fuel k mc last mc' hH ⟨hi, Or.inr ⟨rfl, htr, rfl⟩⟩ h
  · intro m last hP
    refine ⟨hP.1, ?_⟩
    rcases hP.2 with hB | ⟨a1, a2, a3⟩
    · exact Or.inl hB
    · exact Or.inr ⟨a1, (resort_perm srt m last).mem_iff.2 a2, a3⟩
  · intro k m last e hH hP he
    obtain ⟨h1, hAB⟩ := hP
    refine ⟨lt_of_lt_of_le h1 (tailStep_nalloc_le _ _ _ _), ?_⟩
    rcases hAB with ⟨b1, b2, b3⟩ | ⟨a1, a2, a3⟩
    · left
      by_cases hie : i = e
      · subst hie
        have hfs := fire_stopped m i b3
        refine ⟨by rw [tailStep_log, hfs.2, b1], b2, ?_⟩
        have hro := runOps_stopped (react k (m.fire i)) (m.fire i) i (by simpa using h1)
          (hnr _ _) (by rw [hfs.1]; exact b3)
        rw [tailStep_heap_self, hro]
        simp [hro]
      · obtain ⟨t1, t2, _⟩ := tailStep_other react k m e i hie h1 hl
        exact ⟨t2.trans b1, b2, by rw [(noChan_fields t1).2.2.2.1]; exact b3⟩
    · have hf := noChan_fields a3
      by_cases hie : i = e
      · subst hie
        left
        have hact : (m.heap i).stopped = false := by rw [hf.2.2.2.1]; exact hns
        obtain ⟨f1, f2⟩ := fire_active m i hact
        obtain ⟨p1, p2, p3, p4, p5⟩ := play_active (m.heap i) (m.key i) hact
        have hk : m.key i = (mc.heap i).next := hf.1
        refine ⟨?_, ?_, ?_⟩
        · rw [tailStep_log, f2, firedOf_append, a1]
          simp [firedOf, hk, delivered]
        · rw [← hk]; exact hH.tail_due he
        · have hst : ((m.fire i).heap i).stopped = true := by
            rw [f1]
            exact (p4 (by rw [hf.2.1]; exact hd)).1
          have hro := runOps_stopped (react k (m.fire i)) (m.fire i) i (by simpa using h1)
            (hnr _ _) hst
          rw [tailStep_heap_self, hro]
          simp [hro]
      · right
        obtain ⟨t1, t2, _⟩ := tailStep_other react k m e i hie h1 hl
        exact ⟨t2.trans a1, mem_tailStep_ne react k m e i he a2 hie, t1.trans a3⟩

theorem leaves_shift {react : Reactor} {i : Nat} (h : react.leaves i) (k0 : Nat) :
    (react.shift k0).leaves i := fun k mc o ho => h (k + k0) mc o ho

/-- What the rest of the firing loop does to a one-shot record `i` that is tracked and not
stopped once the step firing `e` is over, when later reactions neither stop nor reset it: it
comes out fired once, stamped with its fire time, or unfired and still tracked; when it sits in
the slice that is re-sorted and is due, it is fired. -/
theorem Set.loop_after (srt : Sorter) (react : Reactor) (now : Time) (fuel k : Nat)
    (m : manualClock) (last e : Nat) (mc' : manualClock) (i : Nat) (hH : Head now m last)
    (he : m.events.getLast? = some e)
    (hi : i < (tailStep react k m e).nalloc) (htr : i ∈ (tailStep react k m e).events)
    (hns : ((tailStep react k m e).heap i).stopped = false)
    (hd : ((tailStep react k m e).heap i).d = 0)
    (hl : (react.shift (k + 1)).leaves i)
    (h : Set.loop srt react now fuel k m last ((m.events.length : Int) - 1) = .done mc') :
    i < mc'.nalloc ∧
    ((firedOf i mc'.log = firedOf i (tailStep react k m e).log
          ++ [delivered i ((tailStep react k m e).heap i).next] ∧
        ((tailStep react k m e).heap i).next ≤ now ∧ (mc'.heap i).stopped = true) ∨
      (firedOf i mc'.log = firedOf i (tailStep react k m e).log ∧ i ∈ mc'.events ∧
        (mc'.heap i).noChan = ((tailStep react k m e).heap i).noChan ∧ mc'.newEvents = [])) ∧
    (i ∈ (tailStep react k m e).events.drop last →
      ((tailStep react k m e).heap i).next ≤ now →
      firedOf i mc'.log = firedOf i (tailStep react k m e).log
          ++ [delivered i ((tailStep react k m e).heap i).next] ∧
        (mc'.heap i).stopped = true) := by
  have hlen := tailStep_length_ge react k m e
  have hl4 : last ≤ (tailStep react k m e).events.length := by have := hH.1; omega
  rcases Set.loop_step srt react now fuel k m last e mc' hH he h with
    ⟨hnil, _⟩ | ⟨_, hx, rfl⟩ | ⟨_, hH2, hloop⟩
  · rw [hnil] at htr; cases htr
  · refine ⟨hi, Or.inr ⟨rfl, (resort_perm srt _ last).mem_iff.2 htr, rfl, rfl⟩, ?_⟩
    intro hmem hdue
    exact (drop_eq_nil_of_len_le _ _ _ hx
      (mem_drop_newLast srt now _ last i hl4 hmem hdue)).elim
  · generalize hT : tailStep react k m e = T at *
    have hnew : mc'.newEvents = [] :=
      Set.loop_inv srt (react.shift (k + 1)) now (fun m => m.newEvents = [])
        (fun _ _ hP => hP) (fun _ _ _ _ _ _ _ => tailStep_newEvents _ _ _ _)
        _ _ _ _ mc' hH2 hH2.2.2.2 hloop
    obtain ⟨r1, r2⟩ := Set.loop_oneShot srt (react.shift (k + 1)) now i _ _ _ _ mc' hH2
      hi ((resort_perm srt T last).mem_iff.2 htr) hns hd hl hloop
    refine ⟨r1, ?_, ?_⟩
    · rcases r2 with hB | ⟨a1, a2, a3⟩
      · exact Or.inl hB
      · exact Or.inr ⟨a1, a2, a3, hnew⟩
    · intro hmem hdue
      obtain ⟨_, rest, d1, d2⟩ := Set.loop_due srt (react.shift (k + 1)) now i _ _ _ _ mc' hH2
        hi (mem_drop_newLast srt now T last i hl4 hmem hdue) hns hl hloop
      obtain ⟨d3, d4⟩ := d2 hd
      subst d3
      exact ⟨d1, d4⟩

/-- A stopped record gets no delivery as long as no call resets it. -/
theorem stopped_firesNoMore (srt : Sorter) (i : Nat) (mc : manualClock) (hi : i < mc.nalloc)
    (hst : (mc.heap i).stopped = true) : FiresNoMore srt i mc := by
  intro fuel cmds mc' hC h
  exact (runCmds_stopped srt fuel i cmds mc mc' hC hi hst h).2.2.1

/-- A tracked one-shot record that is not stopped is fired once, stamped with its fire time, by
the first advance whose target is at or after that time, and by no advance that ends before
it. -/
theorem oneShot_firesNextAt (srt : Sorter) (i : Nat) (mc : manualClock) (hi : i < mc.nalloc)
    (htr : i ∈ mc.events ++ mc.newEvents) (hns : (mc.heap i).stopped = false)
    (hd : (mc.heap i).d = 0) : FiresNextAt srt i (mc.heap i).next mc := by
  intro fuel pre adv post t mcA mcB mcC hl hpre hadv ht hA hB hC
  have hlpre : ∀ c ∈ pre, c.leaves i := fun c hc => hl c (List.mem_append_left _ hc)
  have hladv : adv.leaves i := hl adv (List.mem_append_right _ (List.mem_cons_self _ _))
  have hlpost : ∀ c ∈ post, c.leaves i :=
    fun c hc => hl c (List.mem_append_right _ (List.mem_cons_of_mem _ hc))
  obtain ⟨a1, a2, a3, a4⟩ := runCmds_notDue srt fuel i (mc.heap i).next pre mc mcA hlpre
    hpre hi rfl htr hA
  have hf := noChan_fields a2
  have hnowA : mcA.now = nowAfter mc.Now pre := by
    rw [runCmds_now srt fuel pre _ mcA hA]; rfl
  have hset : ∃ react, react.leaves i ∧ mcA.Set srt react fuel t = .done mcB := by
    cases adv with
    | set t' react =>
      obtain ⟨m1, h1, h2⟩ := runCmds_set hB
      simp [runCmds] at h2; subst h2
      simp [advTargets] at hadv; subst hadv
      exact ⟨react, hladv, h1⟩
    | add d' react =>
      obtain ⟨m1, h1, h2⟩ := runCmds_add hB
      simp [runCmds] at h2; subst h2
      simp [advTargets] at hadv
      rw [hnowA, hadv] at h1
      exact ⟨react, hladv, h1⟩
    | op o => simp [advTargets] at hadv
  obtain ⟨react, hlr, hS⟩ := hset
  obtain ⟨b1, rest, b2, b3⟩ := Set_due srt react fuel mcA mcB t i a1 a4
    (by rw [hf.2.2.2.1]; exact hns) (by rw [hf.1]; exact ht) hlr hS
  obtain ⟨b4, b5⟩ := b3 (by rw [hf.2.1]; exact hd)
  have hfB : firedOf i mcB.log = firedOf i mc.log ++ [delivered i (mc.heap i).next] := by
    rw [b2, a3, b4, hf.1]
  obtain ⟨_, _, c3, _⟩ := runCmds_stopped srt fuel i post mcB mcC
    (fun c hc => leaves_noReset (hlpost c hc)) b1 b5 hC
  exact ⟨a3, hfB, c3.trans hfB⟩

/-- When the consumers are passive from the next step on and no interval is negative after
the current step, the firing loop returns. -/
theorem Set.loop_returns_after (srt : Sorter) (react : Reactor) (now : Time) (k : Nat)
    (m : manualClock) (last e : Nat) (hH : Head now m last)
    (he : m.events.getLast? = some e) (hp : (react.shift (k + 1)).passive)
    (hd : ∀ j, 0 ≤ ((tailStep react k m e).heap j).d) :
    ∃ fuel mc', Set.loop srt react now fuel k m last ((m.events.length : Int) - 1)
      = .done mc' := by
  have hlen := tailStep_length_ge react k m e
  have hl4 : last ≤ (tailStep react k m e).events.length := by have := hH.1; omega
  have hA : ¬ After (m.key e) now = true := by simp [After]; exact hH.tail_due he
  by_cases hnil : (tailStep react k m e).events = []
  · refine ⟨1, tailStep react k m e, ?_⟩
    rw [Set.loop_succ srt react now 0 k m last e hH.1 he, if_neg hA, if_pos hnil]
  · by_cases hx : (resort srt (tailStep react k m e) last).events.length
          ≤ newLast now (resort srt (tailStep react k m e) last) last
    · refine ⟨1, resort srt (tailStep react k m e) last, ?_⟩
      rw [Set.loop_succ srt react now 0 k m last e hH.1 he, if_neg hA, if_neg hnil, if_pos hx]
    · have hH2 := head_of_resort srt now _ last hl4 (tailStep_newEvents react k m e)
        (by omega)
      generalize hF : dueCost now (resort srt (tailStep react k m e) last).heap
          ((resort srt (tailStep react k m e) last).events.drop
            (newLast now (resort srt (tailStep react k m e) last) last)) = F
      obtain ⟨r, hr⟩ := Set.loop_returns srt (react.shift (k + 1)) now hp
        (F + 1) 0 _ _ hH2 hd (by omega)
      refine ⟨F + 1 + 1, r, ?_⟩
      rw [Set.loop_succ srt react now _ k m last e hH.1 he, if_neg hA, if_neg hnil, if_neg hx]
      have := Set.loop_shift srt react now (k + 1) (F + 1) 0
          (resort srt (tailStep react k m e) last)
          (newLast now (resort srt (tailStep react k m e) last) last)
          (((resort srt (tailStep react k m e) last).events.length : Int) - 1)
      rw [Nat.zero_add] at this
      rw [this]
      exact hr

/-- No handle operation changes the interval of a record that exists already. -/
theorem applyOp_d (mc : manualClock) (o : Op) (i : Nat) (hi : i < mc.nalloc) :
    ((applyOp mc o).heap i).d = (mc.heap i).d := by
  have hne : i ≠ mc.nalloc := Nat.ne_of_lt hi
  cases o with
  | stop j =>
    simp only [applyOp]
    split
    · by_cases hji : i = j
      · subst hji; simp [Timer.Stop]
      · simp [Function.update_apply, hji]
    · rfl
  | recv j =>
    simp only [applyOp, manualClock.recv]
    split
    · by_cases hji : i = j
      · subst hji; simp
      · simp [Function.update_apply, hji]
    · rfl
  | newTimer d =>
    simp [applyOp, manualClock.NewTimer, manualClock.addEvent, Function.update_apply, hne]
  | afterFunc d =>
    simp [applyOp, manualClock.AfterFunc, manualClock.NewTimer, manualClock.addEvent,
      Function.update_apply, hne]
  | newTicker d =>
    simp [applyOp, manualClock.NewTicker, manualClock.addEvent, Function.update_apply, hne]
  | reset j d =>
    simp only [applyOp]
    split
    · unfold Timer.Reset
      by_cases hji : i = j
      · subst hji
        cases hr : (mc.heap i).removed <;> simp [hr, manualClock.addEvent]
      · cases hr : (mc.heap j).removed <;>
          simp [hr, manualClock.addEvent, Function.update_apply, hji]
    · rfl

theorem runOps_d (os : List Op) : ∀ (mc : manualClock) (i : Nat), i < mc.nalloc →
    ((runOps mc os).heap i).d = (mc.heap i).d := by
  induction os with
  | nil => intro mc i _; rfl
  | cons o os ih =>
    intro mc i hi
    show ((runOps (applyOp mc o) os).heap i).d = (mc.heap i).d
    rw [ih _ i (lt_of_lt_of_le hi (applyOp_nalloc_le mc o)), applyOp_d mc o i hi]

theorem runOps_append (mc : manualClock) (os os' : List Op) :
    runOps mc (os ++ os') = runOps (runOps mc os) os' := by
  induction os generalizing mc with
  | nil => rfl
  | cons o os ih => exact ih _

/-- The record after `Reset(d)`: due at `Now() + d`, not stopped, not removed. -/
theorem Reset_state (mc : manualClock) (i : Nat) (d : Duration) :
    ((Timer.Reset mc i d).1.heap i).next = mc.Now + d ∧
    ((Timer.Reset mc i d).1.heap i).stopped = false ∧
    ((Timer.Reset mc i d).1.heap i).removed = false ∧
    ((Timer.Reset mc i d).1.heap i).d = (mc.heap i).d ∧
    (Timer.Reset mc i d).1.nalloc = mc.nalloc ∧
    (Timer.Reset mc i d).1.log = mc.log ∧
    (Timer.Reset mc i d).1.now = mc.now ∧
    (∀ j, ((Timer.Reset mc i d).1.heap j).d = (mc.heap j).d) := by
  unfold Timer.Reset
  cases hr : (mc.heap i).removed
  · simp [hr]
    intro j
    by_cases hji : j = i
    · subst hji; simp
    · simp [Function.update_apply, hji]
  · simp [hr, manualClock.addEvent]
    intro j
    by_cases hji : j = i
    · subst hji; simp
    · simp [Function.update_apply, hji]

/-- A record that is not removed is tracked, in a registry that satisfies the invariant. -/
theorem Reg.tracked {mc : manualClock} (h : Reg mc) {i : Nat} (hi : i < mc.nalloc)
    (hr : (mc.heap i).removed = false) : i ∈ mc.events ++ mc.newEvents := by
  by_contra hn
  have := (h.2.2 i hi).2 hn
  rw [hr] at this
  cases this

theorem Reg.count {mc : manualClock} (h : Reg mc) {i : Nat}
    (hi : i ∈ mc.events ++ mc.newEvents) : (mc.events ++ mc.newEvents).count i = 1 :=
  List.count_eq_one_of_mem h.1 hi

/-- The step in which a reaction resets record `i` (the fired record or another one, existing
before the step) and does not stop or reset it afterwards: when the step is over the record
is due at the fire time of the step plus `d`, not stopped, not removed, and tracked once. -/
theorem tailStep_reset (react : Reactor) (k : Nat) (m : manualClock) (e i : Nat)
    (d : Duration) (ops1 ops2 : List Op) (hreg : Reg m) (he : m.events.getLast? = some e)
    (hi : i < m.nalloc) (hr : react k (m.fire e) = ops1 ++ Op.reset i d :: ops2)
    (h2 : ∀ o ∈ ops2, o.stops i = false ∧ o.resets i = false) :
    i < (tailStep react k m e).nalloc ∧
    i ∈ (tailStep react k m e).events ∧
    (tailStep react k m e).events.count i = 1 ∧
    ((tailStep react k m e).heap i).next = m.key e + d ∧
    ((tailStep react k m e).heap i).stopped = false ∧
    ((tailStep react k m e).heap i).removed = false ∧
    ((tailStep react k m e).heap i).d = (m.heap i).d ∧
    (i = e → (tailStep react k m e).events
      = m.events ++ (runOps (m.fire e) (react k (m.fire e))).newEvents) := by
  have hregT := Reg_tailStep react k m e hreg he
  have hiA : i < (runOps (m.fire e) ops1).nalloc :=
    lt_of_lt_of_le (by simpa using hi) (runOps_nalloc_le _ _)
  have hrun : runOps (m.fire e) (react k (m.fire e))
      = runOps (Timer.Reset (runOps (m.fire e) ops1) i d).1 ops2 := by
    rw [hr, runOps_append]
    show runOps (applyOp _ _) ops2 = _
    simp only [applyOp, if_pos hiA]
  obtain ⟨r1, r2, r3, r4, r5, _, _, _⟩ := Reset_state (runOps (m.fire e) ops1) i d
  have hiB : i < (Timer.Reset (runOps (m.fire e) ops1) i d).1.nalloc := by rw [r5]; exact hiA
  have hnc := runOps_noChan ops2 _ i hiB h2
  have hf := noChan_fields hnc
  rw [← hrun] at hf
  have hnow : (runOps (m.fire e) ops1).Now = m.key e := by
    show (runOps (m.fire e) ops1).now = _
    rw [runOps_now, fire_now]
  have hst2 : ((runOps (m.fire e) (react k (m.fire e))).heap i).stopped = false := by
    rw [hf.2.2.2.1, r2]
  have hheap : (tailStep react k m e).heap i
      = (runOps (m.fire e) (react k (m.fire e))).heap i := by
    by_cases hie : i = e
    · subst hie
      rw [tailStep_heap_self, hst2]
      simp
    · exact tailStep_heap_ne _ _ _ _ _ hie
  have hiT : i < (tailStep react k m e).nalloc :=
    lt_of_lt_of_le hi (tailStep_nalloc_le _ _ _ _)
  have hrem : ((tailStep react k m e).heap i).removed = false := by
    rw [hheap, hf.2.2.2.2, r3]
  have hmem : i ∈ (tailStep react k m e).events := by
    have := hregT.tracked hiT hrem
    rw [tailStep_newEvents, List.append_nil] at this
    exact this
  refine ⟨hiT, hmem, ?_, ?_, ?_, hrem, ?_, ?_⟩
  · have := hregT.count (by rw [tailStep_newEvents, List.append_nil]; exact hmem)
    rw [tailStep_newEvents, List.append_nil] at this
    exact this
  · rw [hheap, hf.1, r1, hnow]
  · rw [hheap, hst2]
  · rw [hheap, hf.2.1, r4, runOps_d _ _ _ (by simpa using hi), fire_d]
  · intro hie
    subst hie
    rw [tailStep_events, hst2]
    simp

/-! ## Claims C11 to C20 -/

/-- C12: the effect of `Timer.Reset(d)` on the record at `i`: its next fire time becomes
`Now() + d` and `stopped` is cleared; the record is appended to the buffer exactly when its
`removed` flag was set, and the flag is clear afterwards; every other field of the record, every
other record, the active list and the time of the clock are unchanged; the result is true
exactly when the record was not stopped before the call. -/
theorem Timer_Reset_spec (mc : manualClock) (i : Nat) (d : Duration) :
    (Timer.Reset mc i d).1.heap i
      = { mc.heap i with next := mc.Now + d, stopped := false, removed := false } ∧
    (Timer.Reset mc i d).1.newEvents
      = (if (mc.heap i).removed = true then mc.newEvents ++ [i] else mc.newEvents) ∧
    (∀ j, j ≠ i → (Timer.Reset mc i d).1.heap j = mc.heap j) ∧
    (Timer.Reset mc i d).1.events = mc.events ∧
    (Timer.Reset mc i d).1.Now = mc.Now ∧
    (Timer.Reset mc i d).1.nalloc = mc.nalloc ∧
    (Timer.Reset mc i d).1.log = mc.log ∧
    ((Timer.Reset mc i d).2 = true ↔ (mc.heap i).stopped = false) := by
  unfold Timer.Reset
  cases hr : (mc.heap i).removed <;>
    simp [hr, manualClock.addEvent, manualClock.Now, Function.update_apply]
  all_goals (intro j hj; simp [hj])

/-- Instance of C12: on `stoppedClock`, whose timer is stopped and removed, `Reset(1s)` makes
the timer due at 6000, not stopped, back in the buffer, and returns false. -/
theorem Timer_Reset_spec_witness :
    ((Timer.Reset stoppedClock 0 1000).1.heap 0).next = 6000 ∧
    ((Timer.Reset stoppedClock 0 1000).1.heap 0).stopped = false ∧
    ((Timer.Reset stoppedClock 0 1000).1.heap 0).removed = false ∧
    (Timer.Reset stoppedClock 0 1000).1.newEvents = [0] ∧
    (Timer.Reset stoppedClock 0 1000).2 = false := by
  obtain ⟨h1, h2, _, _, _, _, _, h8⟩ := Timer_Reset_spec stoppedClock 0 1000
  refine ⟨by rw [h1]; decide, by rw [h1], by rw [h1], by rw [h2]; decide, ?_⟩
  cases hb : (Timer.Reset stoppedClock 0 1000).2
  · rfl
  · have := h8.1 hb
    revert this
    decide

/-- C19: channel delivery is a non-blocking send that drops on full.  `play` at time `t` on a
record that is not stopped and has no function: when the channel holds a value, that value stays
and `t` is dropped; when it is empty, it holds `t` afterwards.  Either way the schedule is
updated alike: a record with an interval is next due at `t` plus the interval, a one-shot record
is stopped; and `play` always returns. -/
theorem play_send_drops_on_full (e : event) (t : Time) (hs : e.stopped = false)
    (hfn : e.fn = false) :
    (∀ old, e.c = some old → (e.play t).c = some old) ∧
    (e.c = none → (e.play t).c = some t) ∧
    (e.d ≠ 0 → (e.play t).next = t + e.d ∧ (e.play t).stopped = false) ∧
    (e.d = 0 → (e.play t).stopped = true ∧ (e.play t).next = e.next) ∧
    (e.play t).d = e.d ∧ (e.play t).fn = e.fn ∧ (e.play t).removed = e.removed := by
  obtain ⟨p1, p2, p3, p4, p5⟩ := play_active e t hs
  refine ⟨fun old hc => ?_, fun hc => play_chan e t hs hfn hc,
    fun hd => ⟨(p5 hd).2, (p5 hd).1⟩, p4, p1, p2, p3⟩
  unfold event.play
  by_cases hd : e.d = 0 <;> simp [event.Stopped, hs, hfn, hc, hd]

/-- Instance of C19: a ticker record of interval 5 whose channel still holds 5 is played at
10: the channel keeps 5 and the record is next due at 15; with an empty channel it would
hold 10. -/
theorem play_send_drops_on_full_witness :
    (({ c := some 5, next := 10, d := 5, fn := false, stopped := false, removed := false }
        : event).play 10).c = some 5 ∧
    (({ c := none, next := 10, d := 5, fn := false, stopped := false, removed := false }
        : event).play 10).c = some 10 ∧
    (({ c := some 5, next := 10, d := 5, fn := false, stopped := false, removed := false }
        : event).play 10).next = 10 + 5 :=
  ⟨(play_send_drops_on_full
      { c := some 5, next := 10, d := 5, fn := false, stopped := false, removed := false } 10
      rfl rfl).1 5 rfl,
   (play_send_drops_on_full
      { c := none, next := 10, d := 5, fn := false, stopped := false, removed := false } 10
      rfl rfl).2.1 rfl,
   ((play_send_drops_on_full
      { c := some 5, next := 10, d := 5, fn := false, stopped := false, removed := false } 10
      rfl rfl).2.2.1 (by decide)).1⟩

theorem mem_Reset_iff (grs : GrStatus) (g : String) :
    g ∈ waitpoint.Reset grs ↔ ∃ s, grs.lookup g = some s ∧ s ∉ nonwaiting := by
  unfold waitpoint.Reset
  rw [List.mem_filter]
  constructor
  · rintro ⟨_, h⟩
    cases hl : grs.lookup g with
    | none => simp [hl] at h
    | some s =>
      simp only [hl, Bool.not_eq_true', List.contains_eq_any_beq] at h
      refine ⟨s, rfl, fun hs => ?_⟩
      have : (nonwaiting.any fun x => s == x) = true := List.any_eq_true.2 ⟨s, hs, by simp⟩
      rw [this] at h
      cases h
  · rintro ⟨s, hl, hs⟩
    refine ⟨?_, ?_⟩
    · have : (g, s) ∈ grs := by
        clear hs
        induction grs with
        | nil => simp [List.lookup] at hl
        | cons p rest ih =>
          obtain ⟨a, b⟩ := p
          by_cases hga : g = a
          · subst hga
            simp [List.lookup] at hl
            subst hl
            exact List.mem_cons_self _ _
          · have hne : (g == a) = false := by simpa using hga
            simp only [List.lookup, hne] at hl
            exact List.mem_cons_of_mem _ (ih hl)
      exact List.mem_map.2 ⟨(g, s), this, rfl⟩
    · simp only [hl, Bool.not_eq_true', List.contains_eq_any_beq]
      cases ha : (nonwaiting.any fun x => s == x) with
      | false => rfl
      | true =>
        obtain ⟨x, hx, hsx⟩ := List.any_eq_true.1 ha
        have : s = x := by simpa using hsx
        subst this
        exact absurd hx hs

theorem busy_iff (watch : List String) (grs : GrStatus) :
    waitpoint.busy watch grs = true ↔
      ∃ g ∈ watch, ∃ s, grs.lookup g = some s ∧ s ∈ nonwaiting := by
  unfold waitpoint.busy
  rw [List.any_eq_true]
  constructor
  · rintro ⟨g, hg, h⟩
    cases hl : grs.lookup g with
    | none => simp [hl] at h
    | some s =>
      simp only [hl, List.contains_eq_any_beq] at h
      obtain ⟨x, hx, hsx⟩ := List.any_eq_true.1 h
      have : s = x := by simpa using hsx
      subst this
      exact ⟨g, hg, s, hl, hx⟩
  · rintro ⟨g, hg, s, hl, hs⟩
    refine ⟨g, hg, ?_⟩
    simp only [hl, List.contains_eq_any_beq]
    exact List.any_eq_true.2 ⟨s, hs, by simp⟩

/-- `Wait` returns at the first poll that is not busy. -/
theorem Wait_eq_some (watch : List String) (poll : Nat → GrStatus) :
    ∀ (fuel n0 n : Nat), waitpoint.Wait watch poll fuel n0 = some n ↔
      n0 ≤ n ∧ n < n0 + fuel ∧ waitpoint.busy watch (poll n) = false ∧
      ∀ j, n0 ≤ j → j < n → waitpoint.busy watch (poll j) = true := by
  intro fuel
  induction fuel with
  | zero =>
    intro n0 n
    simp only [waitpoint.Wait, Nat.add_zero]
    constructor
    · intro h; cases h
    · rintro ⟨h1, h2, _⟩; omega
  | succ fuel ih =>
    intro n0 n
    rw [waitpoint.Wait]
    cases hb : waitpoint.busy watch (poll n0) with
    | true =>
      simp only [if_true]
      rw [ih (n0 + 1) n]
      constructor
      · rintro ⟨h1, h2, h3, h4⟩
        refine ⟨by omega, by omega, h3, fun j hj1 hj2 => ?_⟩
        by_cases hj : j = n0
        · subst hj; exact hb
        · exact h4 j (by omega) hj2
      · rintro ⟨h1, h2, h3, h4⟩
        have hne : n ≠ n0 := by
          intro h; subst h; rw [hb] at h3; cases h3
        exact ⟨by omega, by omega, h3, fun j hj1 hj2 => h4 j (by omega) hj2⟩
    | false =>
      simp only [Bool.false_eq_true, if_false, Option.some.injEq]
      constructor
      · intro h
        subst h
        exact ⟨le_refl _, by omega, hb, fun j hj1 hj2 => by omega⟩
      · rintro ⟨h1, h2, h3, h4⟩
        by_contra hne
        have := h4 n0 (le_refl _) (by omega)
        rw [hb] at this
        cases this

/-- C20: the quiescence test.  The snapshot `W = Reset(S)` holds the ids whose status in `S` is
not in `nonwaiting`; one poll of `Wait` against the status map `M` is busy exactly when some id
of `W` is present in `M` with a status in `nonwaiting`; so `Wait` returns at the first poll at
which every id of the snapshot is absent or has a waiting status, and ids outside the snapshot
do not count: maps that agree on the ids of `W` give the same answer. -/
theorem quiescence_test (S : GrStatus) (poll : Nat → GrStatus) :
    (∀ g, g ∈ waitpoint.Reset S ↔ ∃ s, S.lookup g = some s ∧ s ∉ nonwaiting) ∧
    (∀ M, waitpoint.busy (waitpoint.Reset S) M = true ↔
      ∃ g ∈ waitpoint.Reset S, ∃ s, M.lookup g = some s ∧ s ∈ nonwaiting) ∧
    (∀ fuel n, waitpoint.Wait (waitpoint.Reset S) poll fuel 0 = some n ↔
      n < fuel ∧
      (∀ g ∈ waitpoint.Reset S, ∀ s, (poll n).lookup g = some s → s ∉ nonwaiting) ∧
      ∀ j, j < n → ∃ g ∈ waitpoint.Reset S, ∃ s, (poll j).lookup g = some s ∧ s ∈ nonwaiting) ∧
    (∀ M M', (∀ g ∈ waitpoint.Reset S, M.lookup g = M'.lookup g) →
      waitpoint.busy (waitpoint.Reset S) M = waitpoint.busy (waitpoint.Reset S) M') := by
  refine ⟨mem_Reset_iff S, busy_iff _, fun fuel n => ?_, fun M M' h => ?_⟩
  · rw [Wait_eq_some]
    have hnb : ∀ M, waitpoint.busy (waitpoint.Reset S) M = false ↔
        ∀ g ∈ waitpoint.Reset S, ∀ s, M.lookup g = some s → s ∉ nonwaiting := by
      intro M
      rw [← Bool.not_eq_true, busy_iff]
      constructor
      · intro h g hg s hl hs; exact h ⟨g, hg, s, hl, hs⟩
      · rintro h ⟨g, hg, s, hl, hs⟩; exact h g hg s hl hs
    constructor
    · rintro ⟨_, h2, h3, h4⟩
      exact ⟨by omega, (hnb _).1 h3, fun j hj => (busy_iff _ _).1 (h4 j (Nat.zero_le _) hj)⟩
    · rintro ⟨h2, h3, h4⟩
      exact ⟨Nat.zero_le _, by omega, (hnb _).2 h3,
        fun j _ hj => (busy_iff _ _).2 (h4 j hj)⟩
  · have hiff : waitpoint.busy (waitpoint.Reset S) M = true ↔
        waitpoint.busy (waitpoint.Reset S) M' = true := by
      rw [busy_iff, busy_iff]
      constructor
      · rintro ⟨g, hg, s, hl, hs⟩; exact ⟨g, hg, s, by rw [← h g hg]; exact hl, hs⟩
      · rintro ⟨g, hg, s, hl, hs⟩; exact ⟨g, hg, s, by rw [h g hg]; exact hl, hs⟩
    cases h1 : waitpoint.busy (waitpoint.Reset S) M <;>
      cases h2 : waitpoint.busy (waitpoint.Reset S) M' <;> simp_all

/-- Instance of C20: the snapshot of `snapS` holds goroutines 7 and 9; the poll `pollS 0` is
busy because 7 is runnable, the poll `pollS 1` is not, although 9 is gone and 12 is running, so
`Wait` returns at poll 1. -/
theorem quiescence_test_witness :
    "7" ∈ waitpoint.Reset snapS ∧
    waitpoint.busy (waitpoint.Reset snapS) (pollS 0) = true ∧
    waitpoint.Wait (waitpoint.Reset snapS) pollS 5 0 = some 1 := by
  obtain ⟨h1, h2, h3, _⟩ := quiescence_test snapS pollS
  have hW : waitpoint.Reset snapS = ["7", "9"] := by decide
  refine ⟨(h1 "7").2 ⟨"chan", by decide, by decide⟩,
    (h2 (pollS 0)).2 ⟨"7", by decide, "runnable", by decide, by decide⟩,
    (h3 5 1).2 ⟨by decide, ?_, ?_⟩⟩
  · intro g hg s hs
    rw [hW] at hg
    have hg2 : g = "7" ∨ g = "9" := by simpa using hg
    rcases hg2 with rfl | rfl
    · have h4 : (pollS 1).lookup "7" = some "chan" := by decide
      rw [h4] at hs
      have := (Option.some.inj hs).symm
      subst this
      decide
    · have h4 : (pollS 1).lookup "9" = none := by decide
      rw [h4] at hs
      cases hs
  · intro j hj
    have : j = 0 := by omega
    subst this
    exact ⟨"7", by decide, "runnable", by decide, by decide⟩

/-- C14, as stated, fails: after `NewTimer(0)` the timer is due at `Now()`, and `Set(Now())`
fires it and takes it out of the registry. -/
theorem Set_to_now_fires_due_timer :
    ∃ mc', zeroClock.Set insertionSorter quiet 10 zeroClock.Now = .done mc' ∧
      mc'.log = [delivered 0 0] ∧ (mc'.heap 0).stopped = true ∧
      mc'.events ++ mc'.newEvents = [] ∧ zeroClock.events ++ zeroClock.newEvents = [0] :=
  ⟨_, rfl, by decide, by decide, by decide, by decide⟩

/-- C14 (amended): when no tracked record is due at or before the target, `Set(target)` returns
without firing anything: the log and every record (next fire time, stopped flag and all) are
unchanged, the tracked records are the same, now all in the active list, and only the time of
the clock is set to the target.  This holds in particular for a target not later than `Now()`
when every tracked record is due after `Now()`. -/
theorem Set_nothing_due (srt : Sorter) (react : Reactor) (fuel : Nat) (mc : manualClock)
    (now : Time) (h : ∀ i ∈ mc.events ++ mc.newEvents, now < (mc.heap i).next) :
    ∃ mc', mc.Set srt react fuel now = .done mc' ∧
      mc'.Now = now ∧ mc'.log = mc.log ∧ mc'.heap = mc.heap ∧ mc'.nalloc = mc.nalloc ∧
      mc'.events.Perm (mc.events ++ mc.newEvents) ∧ mc'.newEvents = [] := by
  rw [Set_eq]
  by_cases hnil : mc.merge.events = []
  · rw [if_pos hnil]
    refine ⟨_, rfl, rfl, rfl, rfl, rfl, ?_, rfl⟩
    show mc.merge.events.Perm _
    exact List.Perm.refl _
  · rw [if_neg hnil]
    have hlen : (resort srt mc.merge 0).events.length
        ≤ newLast now (resort srt mc.merge 0) 0 := by
      by_contra hx
      have hH := head_of_resort srt now mc.merge 0 (Nat.zero_le _) rfl (by omega)
      obtain ⟨e, he⟩ := exists_getLast (resort srt mc.merge 0).events
        (by have := hH.1; omega)
      have hdue := hH.tail_due he
      have hmem : e ∈ mc.events ++ mc.newEvents := by
        have h1 := getLast_mem_drop _ _ _ hH.1 he
        have h2 := of_mem_drop_newLast srt now mc.merge 0 e (Nat.zero_le _) h1
        simpa [manualClock.merge] using h2
      exact lt_irrefl _ (lt_of_lt_of_le (h e hmem) hdue)
    rw [if_pos hlen]
    refine ⟨_, rfl, rfl, rfl, rfl, rfl, ?_, rfl⟩
    show (resort srt mc.merge 0).events.Perm _
    exact resort_perm srt mc.merge 0

/-- Instance of C14 (amended): with the 1 ms timer outstanding, `Set(Now())` changes
nothing. -/
theorem Set_nothing_due_witness :
    ∃ mc', timerClock.Set insertionSorter quiet 0 timerClock.Now = .done mc' ∧
      mc'.Now = timerClock.Now ∧ mc'.log = timerClock.log ∧ mc'.heap = timerClock.heap ∧
      mc'.nalloc = timerClock.nalloc ∧
      mc'.events.Perm (timerClock.events ++ timerClock.newEvents) ∧ mc'.newEvents = [] :=
  Set_nothing_due insertionSorter quiet 0 timerClock timerClock.Now (by decide)

/-- C18 at the failing input (that of C4): the implemented `Set(50)` fires only `A` at 10 and
leaves `B` due at 11, while the reference advance, which sorts the whole list again after each
firing, fires `A` at 10 and then `B` at 11. -/
theorem partial_resort_differs_from_reference :
    ∃ m1 m2, resetClock.Set insertionSorter resetReactor 10 50 = .done m1 ∧
      SetRef insertionSorter resetReactor 10 resetClock 50 = .done m2 ∧
      m1.log = [delivered 0 10] ∧ m2.log = [delivered 0 10, delivered 1 11] ∧
      m1.events = [1] ∧ m2.events = [] :=
  ⟨_, _, rfl, rfl, by decide, by decide, by decide, by decide⟩

theorem Reg_runCmds (srt : Sorter) (fuel : Nat) (cmds : List Cmd) (mc mc' : manualClock)
    (h : Reg mc) (hd : runCmds srt fuel mc cmds = .done mc') : Reg mc' := by
  refine runCmds_rule srt fuel (fun _ => True) Reg ?_ ?_ ?_ cmds mc mc' (fun _ _ => trivial) h hd
  · intro m t react m' _ hP hS
    exact Reg_Set srt react fuel m m' t hP hS
  · intro m d react m' _ hP hS
    exact Reg_Set srt react fuel m m' _ hP hS
  · intro m o _ hP
    exact Reg_applyOp m o hP

/-- C16: the registry invariant `Reg` (no record occurs twice in the active list followed by
the buffer, every record there is allocated, and an allocated record has `removed` set exactly
when it occurs in neither list) holds for the empty registry and is kept by `NewTimer`,
`AfterFunc`, `NewTicker`, `Stop`, `Reset` and the receive; by each firing step of an advance,
reactions of the consumers included, whatever they create, stop or reset; by the re-sort; and so
by `Set`, by `Add` and by every sequence of calls. -/
theorem registry_invariant (srt : Sorter) :
    (∀ t0, Reg (manualClock.fresh t0)) ∧
    (∀ mc d, Reg mc →
      Reg (mc.NewTimer d).1 ∧ Reg (mc.AfterFunc d).1 ∧ Reg (mc.NewTicker d).1) ∧
    (∀ mc i, Reg mc → i < mc.nalloc →
      Reg { mc with heap := Function.update mc.heap i (Timer.Stop (mc.heap i)).1 }) ∧
    (∀ mc i d, Reg mc → i < mc.nalloc → Reg (Timer.Reset mc i d).1) ∧
    (∀ mc o, Reg mc → Reg (applyOp mc o)) ∧
    (∀ react k m e, Reg m → m.events.getLast? = some e → Reg (tailStep react k m e)) ∧
    (∀ m last, Reg m → Reg (resort srt m last)) ∧
    (∀ react fuel mc now mc', Reg mc → mc.Set srt react fuel now = .done mc' → Reg mc') ∧
    (∀ react fuel mc d mc', Reg mc → mc.Add srt react fuel d = .done mc' → Reg mc') ∧
    (∀ fuel cmds mc mc', Reg mc → runCmds srt fuel mc cmds = .done mc' → Reg mc') := by
  refine ⟨Reg_fresh, fun mc d h => ⟨Reg_applyOp mc (.newTimer d) h,
    Reg_applyOp mc (.afterFunc d) h, Reg_applyOp mc (.newTicker d) h⟩, ?_, ?_, Reg_applyOp,
    fun react k m e h he => Reg_tailStep react k m e h he,
    fun m last h => Reg_resort srt m last h,
    fun react fuel mc now mc' h hd => Reg_Set srt react fuel mc mc' now h hd,
    fun react fuel mc d mc' h hd => Reg_Set srt react fuel mc mc' _ h hd,
    fun fuel cmds mc mc' h hd => Reg_runCmds srt fuel cmds mc mc' h hd⟩
  · intro mc i h hi
    have := Reg_applyOp mc (.stop i) h
    simpa [applyOp, hi] using this
  · intro mc i d h hi
    have := Reg_applyOp mc (.reset i d) h
    simpa [applyOp, hi] using this

/-- Instance of C16: the registry of `resetClock` satisfies the invariant, and so does the
registry left by `Set(50)`, during which the function of `A` resets `B`. -/
theorem registry_invariant_witness :
    Reg resetClock ∧
    Reg (Outcome.getD (resetClock.Set insertionSorter resetReactor 10 50) resetClock) :=
  ⟨((registry_invariant insertionSorter).2.1 _ 100
      (((registry_invariant insertionSorter).2.1 _ 10
        ((registry_invariant insertionSorter).1 0)).2.1)).1,
   (registry_invariant insertionSorter).2.2.2.2.2.2.2.1 resetReactor 10 resetClock 50 _
     (((registry_invariant insertionSorter).2.1 _ 100
      (((registry_invariant insertionSorter).2.1 _ 10
        ((registry_invariant insertionSorter).1 0)).2.1)).1) rfl⟩

theorem Outcome.done_getD {α : Type} (o : Outcome α) (d a : α) (h : o = .done a) :
    o = .done (o.getD d) := by
  subst h; rfl

/-- A record that the reaction put in the buffer sits, after the merge, in the slice that is
sorted again. -/
theorem mem_drop_tailStep_new (react : Reactor) (k : Nat) (m : manualClock) (last e i : Nat)
    (hl : last < m.events.length)
    (hnew : i ∈ (runOps (m.fire e) (react k (m.fire e))).newEvents) :
    i ∈ (tailStep react k m e).events.drop last := by
  rw [tailStep_events]
  have hA : last ≤ (if ((runOps (m.fire e) (react k (m.fire e))).heap e).stopped = true then
      m.events.dropLast else m.events).length := by
    split
    · rw [List.length_dropLast]; omega
    · omega
  rw [List.drop_append_of_le_length hA]
  exact List.mem_append_right _ hnew

/-- C15: no event created during an advance is lost or deferred.  A record `i` that the
reaction to the firing of `e` has put in the buffer (a new timer or ticker, or a removed timer
that is reset), that is not stopped and is due at `u`, not after the target, when the reaction
is over, and that later reactions neither stop nor reset: it is tracked once after the merge;
the same run of the firing loop delivers it stamped `u` before it returns, a one-shot record
exactly once, after which it is stopped (a ticker has its later ticks after that); and the loop
does return when the consumers are passive from the next step on. -/
theorem created_event_fires_in_same_advance (srt : Sorter) (react : Reactor) (now : Time)
    (k : Nat) (m : manualClock) (last e i : Nat)
    (hreg : Reg m) (hH : Head now m last) (he : m.events.getLast? = some e)
    (hnew : i ∈ (runOps (m.fire e) (react k (m.fire e))).newEvents)
    (hns : ((tailStep react k m e).heap i).stopped = false)
    (hdue : ((tailStep react k m e).heap i).next ≤ now)
    (hl : (react.shift (k + 1)).leaves i) :
    (tailStep react k m e).events.count i = 1 ∧
    (∀ fuel mc',
      Set.loop srt react now fuel k m last ((m.events.length : Int) - 1) = .done mc' →
      ∃ rest, firedOf i mc'.log = firedOf i (tailStep react k m e).log ++
          delivered i ((tailStep react k m e).heap i).next :: rest ∧
        (((tailStep react k m e).heap i).d = 0 →
          rest = [] ∧ (mc'.heap i).stopped = true)) ∧
    ((react.shift (k + 1)).passive → (∀ j, 0 ≤ ((tailStep react k m e).heap j).d) →
      ∃ fuel mc',
        Set.loop srt react now fuel k m last ((m.events.length : Int) - 1) = .done mc') := by
  have hregT := Reg_tailStep react k m e hreg he
  have hmemd := mem_drop_tailStep_new react k m last e i hH.1 hnew
  have hmem : i ∈ (tailStep react k m e).events := List.mem_of_mem_drop hmemd
  have hmem2 : i ∈ (tailStep react k m e).events ++ (tailStep react k m e).newEvents := by
    rw [tailStep_newEvents, List.append_nil]; exact hmem
  have hiT : i < (tailStep react k m e).nalloc := hregT.2.1 i hmem2
  have hlen := tailStep_length_ge react k m e
  have hl4 : last ≤ (tailStep react k m e).events.length := by have := hH.1; omega
  refine ⟨?_, ?_, fun hp hd => Set.loop_returns_after srt react now k m last e hH he hp hd⟩
  · have := hregT.count hmem2
    rw [tailStep_newEvents, List.append_nil] at this
    exact this
  · intro fuel mc' h
    rcases Set.loop_step srt react now fuel k m last e mc' hH he h with
      ⟨hnil, _⟩ | ⟨_, hx, _⟩ | ⟨_, hH2, hloop⟩
    · rw [hnil] at hmem; cases hmem
    · exact (drop_eq_nil_of_len_le _ _ _ hx
        (mem_drop_newLast srt now _ last i hl4 hmemd hdue)).elim
    · exact (Set.loop_due srt (react.shift (k + 1)) now i _ _ _ _ mc' hH2 hiT
        (mem_drop_newLast srt now _ last i hl4 hmemd hdue) hns hl hloop).2

theorem chainReactor_leaves : (chainReactor.shift 1).leaves 1 := by
  intro k mc o ho
  simp only [Reactor.shift, chainReactor] at ho
  by_cases h1 : k = 0
  · subst h1; simp at ho; subst ho; exact ⟨rfl, rfl⟩
  · by_cases h2 : k = 1
    · subst h2; simp at ho; subst ho; exact ⟨rfl, rfl⟩
    · have : ¬ (k + 1 = 0) := by omega
      have h3 : ¬ (k + 1 = 1) := by omega
      have h4 : ¬ (k + 1 = 2) := by omega
      simp [h3, h4] at ho

/-- Instance of C15: one `Add(500ms)` on `chainClock` fires the sleep at 1; the `After(1ms)`
called on waking (record 1) is fired by the same `Add`, once, stamped 2; the whole chain is
delivered at 1, 2, 3 and 8. -/
theorem created_event_fires_in_same_advance_witness :
    firedOf 1 (Outcome.getD (chainClock.Add insertionSorter chainReactor 10 500)
      chainClock).log = [delivered 1 2] ∧
    (Outcome.getD (chainClock.Add insertionSorter chainReactor 10 500) chainClock).log
      = [delivered 0 1, delivered 1 2, delivered 2 3, delivered 2 8] := by
  have hreg : Reg (resort insertionSorter chainClock.merge 0) :=
    Reg_resort _ _ _ (Reg_merge _ (Reg_applyOp _ (.newTimer 1) (Reg_fresh 0)))
  have hH : Head 500 (resort insertionSorter chainClock.merge 0)
      (newLast 500 (resort insertionSorter chainClock.merge 0) 0) :=
    head_of_resort insertionSorter 500 chainClock.merge 0 (Nat.zero_le _) rfl (by decide)
  obtain ⟨rest, h1, h2⟩ := (created_event_fires_in_same_advance insertionSorter chainReactor
    500 0 (resort insertionSorter chainClock.merge 0)
    (newLast 500 (resort insertionSorter chainClock.merge 0) 0) 0 1 hreg hH
    (by decide) (by decide) (by decide) (by decide) chainReactor_leaves).2.1 10
    (Outcome.getD (Set.loop insertionSorter chainReactor 500 10 0
      (resort insertionSorter chainClock.merge 0)
      (newLast 500 (resort insertionSorter chainClock.merge 0) 0)
      (((resort insertionSorter chainClock.merge 0).events.length : Int) - 1)) chainClock)
    (Outcome.done_getD _ chainClock _ rfl)
  obtain ⟨h3, _⟩ := h2 (by decide)
  subst h3
  have e1 : (Outcome.getD (chainClock.Add insertionSorter chainReactor 10 500) chainClock).log
      = (Outcome.getD (Set.loop insertionSorter chainReactor 500 10 0
      (resort insertionSorter chainClock.merge 0)
      (newLast 500 (resort insertionSorter chainClock.merge 0) 0)
      (((resort insertionSorter chainClock.merge 0).events.length : Int) - 1)) chainClock).log :=
    by decide
  exact ⟨(congrArg (firedOf 1) e1).trans (h1.trans (by decide)), by decide⟩

/-- C13: a one-shot timer `e` (such as one made by `AfterFunc`) whose function, run by the
firing of `e` at time `t = m.key e`, calls `Reset(d2)` on `e` and neither stops nor resets it
after that.  The firing step does not cut `e` off the registry: the list is the old one followed
by the merged buffer, `e` occurs in it once, is not removed and not stopped, and is next due at
`t + d2`; the step delivers `e` stamped `t`.  When later reactions leave `e` alone, a run of the
loop that returns delivers `e` once more, stamped `t + d2`, in case `t + d2` is not after the
target, and otherwise not again, and then the first later advance whose target is at or after
`t + d2` delivers it, once, stamped `t + d2`.  The loop returns when the consumers are passive
from the next step on. -/
theorem callback_reset_reschedules (srt : Sorter) (react : Reactor) (now : Time) (k : Nat)
    (m : manualClock) (last e : Nat) (d2 : Duration) (ops1 ops2 : List Op)
    (hreg : Reg m) (hH : Head now m last) (he : m.events.getLast? = some e)
    (hns : (m.heap e).stopped = false) (hd : (m.heap e).d = 0)
    (hr : react k (m.fire e) = ops1 ++ Op.reset e d2 :: ops2)
    (h2 : ∀ o ∈ ops2, o.stops e = false ∧ o.resets e = false)
    (hl : (react.shift (k + 1)).leaves e) :
    ((tailStep react k m e).events
        = m.events ++ (runOps (m.fire e) (react k (m.fire e))).newEvents ∧
      (tailStep react k m e).events.count e = 1 ∧
      ((tailStep react k m e).heap e).removed = false ∧
      ((tailStep react k m e).heap e).stopped = false ∧
      ((tailStep react k m e).heap e).next = m.key e + d2 ∧
      firedOf e (tailStep react k m e).log = firedOf e m.log ++ [delivered e (m.key e)]) ∧
    (∀ fuel mc',
      Set.loop srt react now fuel k m last ((m.events.length : Int) - 1) = .done mc' →
      (m.key e + d2 ≤ now →
        firedOf e mc'.log
          = firedOf e m.log ++ [delivered e (m.key e), delivered e (m.key e + d2)]) ∧
      (now < m.key e + d2 →
        firedOf e mc'.log = firedOf e m.log ++ [delivered e (m.key e)] ∧
        FiresNextAt srt e (m.key e + d2) { mc' with now := now })) ∧
    ((react.shift (k + 1)).passive → (∀ j, 0 ≤ ((tailStep react k m e).heap j).d) →
      ∃ fuel mc',
        Set.loop srt react now fuel k m last ((m.events.length : Int) - 1) = .done mc') := by
  have hmem : e ∈ m.events := List.mem_of_mem_getLast? he
  have hi : e < m.nalloc := hreg.2.1 e (List.mem_append_left _ hmem)
  obtain ⟨t1, t2, t3, t4, t5, t6, t7, t8⟩ :=
    tailStep_reset react k m e e d2 ops1 ops2 hreg he hi hr h2
  have hlog : firedOf e (tailStep react k m e).log
      = firedOf e m.log ++ [delivered e (m.key e)] := by
    rw [tailStep_log, (fire_active m e hns).2, firedOf_append]
    simp [firedOf, delivered]
  have hev := t8 rfl
  have hmemd : e ∈ (tailStep react k m e).events.drop last := by
    rw [hev]
    exact mem_drop_append _ _ _ _ (getLast_mem_drop _ _ _ hH.1 he)
  refine ⟨⟨hev, t3, t6, t5, t4, hlog⟩, ?_,
    fun hp hdn => Set.loop_returns_after srt react now k m last e hH he hp hdn⟩
  intro fuel mc' h
  obtain ⟨a1, a2, a3⟩ := Set.loop_after srt react now fuel k m last e mc' e hH he t1 t2 t5
    (by rw [t7]; exact hd) hl h
  rw [t4, hlog] at a3
  rw [t4, hlog] at a2
  refine ⟨fun hdue => ?_, fun hlate => ?_⟩
  · rw [(a3 hmemd hdue).1]
    simp
  · rcases a2 with ⟨_, b2, _⟩ | ⟨b1, b2, b3, b4⟩
    · exact absurd (lt_of_lt_of_le hlate b2) (lt_irrefl _)
    · refine ⟨b1, ?_⟩
      have hf := noChan_fields b3
      have := oneShot_firesNextAt srt e { mc' with now := now } a1
        (List.mem_append_left _ b2) (by show (mc'.heap e).stopped = false; rw [hf.2.2.2.1, t5])
        (by show (mc'.heap e).d = 0; rw [hf.2.1, t7]; exact hd)
      have hnx : (({ mc' with now := now } : manualClock).heap e).next = m.key e + d2 := by
        show (mc'.heap e).next = _
        rw [hf.1, t4]
      rw [hnx] at this
      exact this

theorem selfReactor_leaves : (selfReactor.shift 1).leaves 0 := by
  intro k mc o ho
  simp [Reactor.shift, selfReactor] at ho

/-- Instance of C13: `A = AfterFunc(10, f)` on a fresh clock, `f` calling `A.Reset(7)` the first
time it runs.  `Set(50)` delivers `A` at 10 and again at 17; `Set(12)` delivers it at 10 only,
and leaves it to be delivered at 17 by the first later advance that reaches 17. -/
theorem callback_reset_reschedules_witness :
    firedOf 0 (Outcome.getD (selfClock.Set insertionSorter selfReactor 10 50) selfClock).log
      = [delivered 0 10, delivered 0 17] ∧
    (firedOf 0 (Outcome.getD (selfClock.Set insertionSorter selfReactor 10 12) selfClock).log
      = [delivered 0 10] ∧
     FiresNextAt insertionSorter 0 17
      (Outcome.getD (selfClock.Set insertionSorter selfReactor 10 12) selfClock)) := by
  have hreg : Reg (resort insertionSorter selfClock.merge 0) :=
    Reg_resort _ _ _ (Reg_merge _ (Reg_applyOp _ (.afterFunc 10) (Reg_fresh 0)))
  have hH : ∀ now : Time, 10 ≤ now → Head now (resort insertionSorter selfClock.merge 0)
      (newLast now (resort insertionSorter selfClock.merge 0) 0) := by
    intro now hn
    refine head_of_resort insertionSorter now selfClock.merge 0 (Nat.zero_le _) rfl ?_
    have : newLast now (resort insertionSorter selfClock.merge 0) 0 = 0 := by
      have hk : (resort insertionSorter selfClock.merge 0).key 0 = 10 := by decide
      have hev : (resort insertionSorter selfClock.merge 0).events = [0] := by decide
      simp [newLast, hev, hk, After]
      exact hn
    rw [this]
    decide
  have hA := fun (now : Time) (hn : 10 ≤ now) =>
    (callback_reset_reschedules insertionSorter selfReactor now 0
      (resort insertionSorter selfClock.merge 0)
      (newLast now (resort insertionSorter selfClock.merge 0) 0) 0 7 [] []
      hreg (hH now hn) (by decide) (by decide) (by decide) (by decide)
      (by intro o ho; cases ho) selfReactor_leaves).2.1
  have h50 := (hA 50 (by decide) 10 _ (Outcome.done_getD _ selfClock _ rfl)).1 (by decide)
  have h12 := (hA 12 (by decide) 10 _ (Outcome.done_getD _ selfClock _ rfl)).2 (by decide)
  have e50 : (Outcome.getD (selfClock.Set insertionSorter selfReactor 10 50) selfClock).log
      = (Outcome.getD (Set.loop insertionSorter selfReactor 50 10 0
          (resort insertionSorter selfClock.merge 0)
          (newLast 50 (resort insertionSorter selfClock.merge 0) 0)
          (((resort insertionSorter selfClock.merge 0).events.length : Int) - 1))
          selfClock).log := by decide
  have e12 : Outcome.getD (selfClock.Set insertionSorter selfReactor 10 12) selfClock
      = { Outcome.getD (Set.loop insertionSorter selfReactor 12 10 0
          (resort insertionSorter selfClock.merge 0)
          (newLast 12 (resort insertionSorter selfClock.merge 0) 0)
          (((resort insertionSorter selfClock.merge 0).events.length : Int) - 1))
          selfClock with now := 12 } := rfl
  refine ⟨(congrArg (firedOf 0) e50).trans (h50.trans (by decide)), ?_, ?_⟩
  · rw [e12]
    exact h12.1.trans (by decide)
  · rw [e12]
    have hk : (resort insertionSorter selfClock.merge 0).key 0 + 7 = 17 := by decide
    rw [hk] at h12
    exact h12.2

/-- What `Reset` does to the schedule of a one-shot timer.  First part, a `Reset(d)` between
advances on a timer `i` of a registry that satisfies the invariant, be the timer active, stopped
and tracked, or removed: the call delivers nothing, and in the state it leaves the timer is next
fired at `Now() + d`, once (`FiresNextAt`); tame calls do return.  Second part, a `Reset(d)` made
by a reaction during an advance, while the clock reads `t = m.key e`, and not undone by later
reactions: when the loop returns, the timer has either been delivered once since, stamped
`t + d`, with `t + d` not after the target; or it has not been delivered by this advance and is
left for a later one.  The first case is the one that occurs when the timer sits in the slice
that is sorted again and `t + d` is not after the target; a timer of the not-due prefix is
skipped by the advance in progress. -/
theorem Reset_schedules (srt : Sorter) :
    (∀ (mc : manualClock) (i : Nat) (d : Duration), Reg mc → i < mc.nalloc →
      (mc.heap i).d = 0 →
      firedOf i (Timer.Reset mc i d).1.log = firedOf i mc.log ∧
      FiresNextAt srt i (mc.Now + d) (Timer.Reset mc i d).1 ∧
      (∀ pre adv post, (∀ c ∈ pre ++ adv :: post, c.tame) → (∀ j, 0 ≤ (mc.heap j).d) →
        ∃ fuel mcA mcB mcC, runCmds srt fuel (Timer.Reset mc i d).1 pre = .done mcA ∧
          runCmds srt fuel mcA [adv] = .done mcB ∧ runCmds srt fuel mcB post = .done mcC)) ∧
    (∀ (react : Reactor) (now : Time) (fuel k : Nat) (m : manualClock) (last e i : Nat)
      (d : Duration) (ops1 ops2 : List Op) (mc' : manualClock),
      Reg m → Head now m last → m.events.getLast? = some e → i < m.nalloc →
      (m.heap i).d = 0 → react k (m.fire e) = ops1 ++ Op.reset i d :: ops2 →
      (∀ o ∈ ops2, o.stops i = false ∧ o.resets i = false) →
      (react.shift (k + 1)).leaves i →
      Set.loop srt react now fuel k m last ((m.events.length : Int) - 1) = .done mc' →
      ((firedOf i mc'.log = firedOf i (m.fire e).log ++ [delivered i (m.key e + d)] ∧
          m.key e + d ≤ now ∧ FiresNoMore srt i { mc' with now := now }) ∨
        (firedOf i mc'.log = firedOf i (m.fire e).log ∧
          FiresNextAt srt i (m.key e + d) { mc' with now := now })) ∧
      (i ∈ (tailStep react k m e).events.drop last → m.key e + d ≤ now →
        firedOf i mc'.log = firedOf i (m.fire e).log ++ [delivered i (m.key e + d)])) := by
  constructor
  · intro mc i d hreg hi hd
    obtain ⟨r1, r2, r3, r4, r5, r6, r7, r8⟩ := Reset_state mc i d
    have hregR : Reg (Timer.Reset mc i d).1 := by
      have := Reg_applyOp mc (.reset i d) hreg
      simpa [applyOp, hi] using this
    have hiR : i < (Timer.Reset mc i d).1.nalloc := by rw [r5]; exact hi
    have hF := oneShot_firesNextAt srt i (Timer.Reset mc i d).1 hiR (hregR.tracked hiR r3) r2
      (by rw [r4]; exact hd)
    rw [r1] at hF
    refine ⟨by rw [r6], hF, fun pre adv post ht hdn => ?_⟩
    exact runCmds_returns3 srt pre [adv] post _
      (fun c hc => ht c (List.mem_append_left _ hc))
      (fun c hc => by
        simp at hc; subst hc
        exact ht _ (List.mem_append_right _ (List.mem_cons_self _ _)))
      (fun c hc => ht c (List.mem_append_right _ (List.mem_cons_of_mem _ hc)))
      (fun j => by rw [r8 j]; exact hdn j)
  · intro react now fuel k m last e i d ops1 ops2 mc' hreg hH he hi hd hr h2 hl h
    obtain ⟨t1, t2, t3, t4, t5, t6, t7, t8⟩ :=
      tailStep_reset react k m e i d ops1 ops2 hreg he hi hr h2
    obtain ⟨a1, a2, a3⟩ := Set.loop_after srt react now fuel k m last e mc' i hH he t1 t2 t5
      (by rw [t7]; exact hd) hl h
    rw [t4, tailStep_log] at a2 a3
    refine ⟨?_, fun hmem hdue => (a3 hmem hdue).1⟩
    rcases a2 with ⟨b1, b2, b3⟩ | ⟨b1, b2, b3, b4⟩
    · exact Or.inl ⟨b1, b2, stopped_firesNoMore srt i { mc' with now := now } a1 b3⟩
    · right
      refine ⟨b1, ?_⟩
      have hf := noChan_fields b3
      have := oneShot_firesNextAt srt i { mc' with now := now } a1
        (List.mem_append_left _ b2) (by show (mc'.heap i).stopped = false; rw [hf.2.2.2.1, t5])
        (by show (mc'.heap i).d = 0; rw [hf.2.1, t7]; exact hd)
      have hnx : (({ mc' with now := now } : manualClock).heap i).next = m.key e + d := by
        show (mc'.heap i).next = _
        rw [hf.1, t4]
      rw [hnx] at this
      exact this

theorem resetReactor_leaves : (resetReactor.shift 1).leaves 1 := by
  intro k mc o ho
  simp [Reactor.shift, resetReactor] at ho

/-- Instances of `Reset_schedules`.  The timer of `firedClock`, fired at 1000 and reset with
`Reset(5ms)`, is delivered again by `Add(5ms)`, stamped 6000.  The timer of `stoppedClock`,
stopped, left behind by 5 s and removed, then reset with `Reset(1s)`, is delivered by `Add(1s)`,
stamped 6000.  And `B` of `resetClock`, reset to 11 by the function of `A` during `Set(50)` and
skipped by it, is fired at 11 by the first later advance that reaches 11. -/
theorem Reset_schedules_examples :
    firedOf 0 (Outcome.getD (runCmds insertionSorter 10 (Timer.Reset firedClock 0 5000).1
      [Cmd.add 5000 quiet]) firedClock).log = [delivered 0 1000, delivered 0 6000] ∧
    firedOf 0 (Outcome.getD (runCmds insertionSorter 10 (Timer.Reset stoppedClock 0 1000).1
      [Cmd.add 1000 quiet]) stoppedClock).log = [delivered 0 6000] ∧
    FiresNextAt insertionSorter 1 11
      (Outcome.getD (resetClock.Set insertionSorter resetReactor 10 50) resetClock) := by
  have hregT : Reg timerClock := Reg_applyOp _ (.newTimer 1000) (Reg_fresh 0)
  have hregF : Reg firedClock :=
    Reg_Set insertionSorter quiet 10 timerClock firedClock 1000 hregT
      (Outcome.done_getD _ timerClock _ rfl)
  have hregS : Reg stoppedClock :=
    Reg_runCmds insertionSorter 10 _ (manualClock.fresh 0) stoppedClock (Reg_fresh 0)
      (Outcome.done_getD _ (manualClock.fresh 0) _ rfl)
  have hq : ∀ (c : Cmd) (x : Duration), c ∈ ([] : List Cmd) ++ Cmd.add x quiet :: [] →
      c.leaves 0 := by
    intro c x hc
    simp at hc; subst hc
    exact quiet_leaves 0
  have h1 := ((Reset_schedules insertionSorter).1 firedClock 0 5000 hregF (by decide)
    (by decide)).2.1 10 [] (Cmd.add 5000 quiet) [] 6000 _ _ _ (hq · 5000)
    (by intro u hu; cases hu) (by decide) (by decide) rfl
    (Outcome.done_getD _ firedClock _ rfl) rfl
  have h2 := ((Reset_schedules insertionSorter).1 stoppedClock 0 1000 hregS (by decide)
    (by decide)).2.1 10 [] (Cmd.add 1000 quiet) [] 6000 _ _ _ (hq · 1000)
    (by intro u hu; cases hu) (by decide) (by decide) rfl
    (Outcome.done_getD _ stoppedClock _ rfl) rfl
  have hreg : Reg (resort insertionSorter resetClock.merge 0) :=
    Reg_resort _ _ _ (Reg_merge _ (Reg_applyOp _ (.newTimer 100)
      (Reg_applyOp _ (.afterFunc 10) (Reg_fresh 0))))
  have hH : Head 50 (resort insertionSorter resetClock.merge 0)
      (newLast 50 (resort insertionSorter resetClock.merge 0) 0) :=
    head_of_resort insertionSorter 50 resetClock.merge 0 (Nat.zero_le _) rfl (by decide)
  have h3 := ((Reset_schedules insertionSorter).2 resetReactor 50 10 0
    (resort insertionSorter resetClock.merge 0)
    (newLast 50 (resort insertionSorter resetClock.merge 0) 0) 0 1 1 [] [] _ hreg hH
    (by decide) (by decide) (by decide) (by decide) (by intro o ho; cases ho)
    resetReactor_leaves (Outcome.done_getD _ resetClock _ rfl)).1
  have e3 : Outcome.getD (resetClock.Set insertionSorter resetReactor 10 50) resetClock
      = { Outcome.getD (Set.loop insertionSorter resetReactor 50 10 0
          (resort insertionSorter resetClock.merge 0)
          (newLast 50 (resort insertionSorter resetClock.merge 0) 0)
          (((resort insertionSorter resetClock.merge 0).events.length : Int) - 1))
          resetClock with now := 50 } := rfl
  refine ⟨h1.2.1.trans (by decide), h2.2.1.trans (by decide), ?_⟩
  rw [e3]
  rcases h3 with ⟨b1, _, _⟩ | ⟨_, b2⟩
  · exact absurd b1 (by decide)
  · have hk : (resort insertionSorter resetClock.merge 0).key 0 + 1 = 11 := by decide
    rw [hk] at b2
    exact b2

/-- C11 at the failing input (that of C4): `A = AfterFunc(10, f)`, `B = NewTimer(100)`.
During `Set(50)` the record `A` is fired first; its function `f`, run while `Now()` is 10, calls
`B.Reset(1)`.  `B` is then due at 11, which is not after the target 50, and it is tracked and
not stopped; yet `Set(50)` returns, with the clock at 50, without having fired `B`.  It is the
next advance, `Set(60)`, that fires `B`, stamped 11. -/
theorem Reset_in_advance_left_unfired :
    (resort insertionSorter resetClock.merge 0).events.getLast? = some 0 ∧
    ((resort insertionSorter resetClock.merge 0).fire 0).Now = 10 ∧
    resetReactor 0 ((resort insertionSorter resetClock.merge 0).fire 0) = [Op.reset 1 1] ∧
    ∃ m1 m2, resetClock.Set insertionSorter resetReactor 10 50 = .done m1 ∧
      firedOf 1 m1.log = [] ∧ (m1.heap 1).next = 11 ∧ (m1.heap 1).stopped = false ∧
      1 ∈ m1.events ∧ m1.Now = 50 ∧
      m1.Set insertionSorter quiet 10 60 = .done m2 ∧
      firedOf 1 m2.log = [delivered 1 11] :=
  ⟨by decide, by decide, by decide, _, _, rfl, by decide, by decide, by decide, by decide,
    by decide, rfl, by decide⟩

/-! ## Claims C21 and C22 -/

theorem evAt_eq_none_iff (evs : List Nat) (i : Int) :
    evAt evs i = none ↔ (i < 0 ∨ (evs.length : Int) ≤ i) := by
  unfold evAt
  by_cases h : i < 0
  · simp [h]
  · rw [if_neg h, List.getElem?_eq_none_iff]
    constructor
    · intro h1; right; omega
    · rintro (h1 | h1)
      · exact absurd h1 h
      · omega

theorem sliceTo_eq_none_iff (evs : List Nat) (i : Int) :
    sliceTo evs i = none ↔ (i < 0 ∨ (evs.length : Int) < i) := by
  unfold sliceTo
  by_cases h : 0 ≤ i ∧ i ≤ evs.length
  · rw [if_pos h]
    simp only [reduceCtorEq, false_iff]
    omega
  · rw [if_neg h]
    simp only [true_iff]
    omega

theorem sortFrom_eq_none_iff (srt : Sorter) (key : Nat → Time) (evs : List Nat) (last : Nat) :
    sortFrom srt key evs last = none ↔ evs.length < last := by
  unfold sortFrom
  by_cases h : last ≤ evs.length
  · rw [if_pos h]
    simp only [reduceCtorEq, false_iff]
    omega
  · rw [if_neg h]
    simp only [true_iff]
    omega

/-- The scan reads `events[last]` out of range exactly when it gets to an index `last ≤ first`
with nothing left of the list. -/
theorem scanLast_eq_none_iff (key : Nat → Time) (now : Time) (first : Int) :
    ∀ (rest : List Nat) (last : Nat),
      scanLast key now first rest last = none ↔
        ((last + rest.length : Nat) : Int) ≤ first ∧ ∀ i ∈ rest, After (key i) now = true := by
  intro rest
  induction rest with
  | nil =>
    intro last
    simp only [scanLast, List.length_nil, Nat.add_zero, List.not_mem_nil, false_implies,
      implies_true, and_true]
    split <;> simp_all
  | cons i rest ih =>
    intro last
    unfold scanLast
    by_cases h1 : (last : Int) ≤ first
    · rw [if_pos h1]
      by_cases hA : After (key i) now = true
      · rw [if_pos hA, ih (last + 1)]
        simp only [List.length_cons, List.mem_cons, forall_eq_or_imp, hA, true_and]
        constructor
        · rintro ⟨a, b⟩; exact ⟨by push_cast at a ⊢; omega, b⟩
        · rintro ⟨a, b⟩; exact ⟨by push_cast at a ⊢; omega, b⟩
      · rw [if_neg hA]
        simp only [reduceCtorEq, false_iff, List.mem_cons, forall_eq_or_imp, not_and]
        intro _ h2
        exact absurd h2 hA
    · rw [if_neg h1]
      simp only [reduceCtorEq, false_iff, List.length_cons, not_and]
      intro h2
      push_cast at h2
      omega

/-- An advance never reads a slice out of range. -/
theorem Set_safe (srt : Sorter) (react : Reactor) (fuel : Nat) (mc : manualClock) (now : Time) :
    mc.Set srt react fuel now ≠ .outOfRange := by
  rw [Set_eq]
  intro h
  by_cases h1 : mc.merge.events = []
  · rw [if_pos h1] at h; simp [setNow] at h
  · rw [if_neg h1] at h
    by_cases h2 : (resort srt mc.merge 0).events.length ≤ newLast now (resort srt mc.merge 0) 0
    · rw [if_pos h2] at h; simp [setNow] at h
    · rw [if_neg h2] at h
      have hH := head_of_resort srt now mc.merge 0 (Nat.zero_le _) rfl (by omega)
      have := Set.loop_safe srt react now fuel 0 _ _ hH
      generalize Set.loop srt react now fuel 0 (resort srt mc.merge 0)
        (newLast now (resort srt mc.merge 0) 0)
        (((resort srt mc.merge 0).events.length : Int) - 1) = o at h this
      cases o <;> simp [setNow] at h
      exact this rfl

/-- C22: index safety of `Set`.  The checked accesses of the embedding fail exactly when the
index is out of range (first block).  `Set` never makes such an access, for every registry,
target, consumer behaviour and number of steps; it enters the firing loop with
`0 ≤ last ≤ first = len(events) - 1` (`Head`); and in every iteration that starts so, with
tail record `e`: the read `events[first]` yields `e`; the cut `events[:first]` of a stopped
`e` is in range; after the cut and the merge `last ≤ len(events)`, so the re-sort of
`events[last:]` is in range; the scan reads `events[last]` only at indices up to
`first = len(events) - 1`; and when the loop goes on, `last ≤ first = len(events) - 1` holds
again.  In particular, when `e` is stopped and nothing was merged, the list is one shorter and
`last` is still not beyond its length. -/
theorem Set_index_safe (srt : Sorter) (react : Reactor) (now : Time) :
    ((∀ evs i, evAt evs i = none ↔ (i < 0 ∨ (evs.length : Int) ≤ i)) ∧
      (∀ evs i, sliceTo evs i = none ↔ (i < 0 ∨ (evs.length : Int) < i)) ∧
      (∀ key evs last, sortFrom srt key evs last = none ↔ evs.length < last) ∧
      (∀ key first rest last, scanLast key now first rest last = none ↔
        ((last + rest.length : Nat) : Int) ≤ first ∧ ∀ i ∈ rest, After (key i) now = true)) ∧
    (∀ fuel (mc : manualClock), mc.Set srt react fuel now ≠ .outOfRange) ∧
    (∀ mc : manualClock, mc.merge.events ≠ [] →
      newLast now (resort srt mc.merge 0) 0 < (resort srt mc.merge 0).events.length →
      Head now (resort srt mc.merge 0) (newLast now (resort srt mc.merge 0) 0)) ∧
    (∀ fuel k (m : manualClock) last, Head now m last →
      Set.loop srt react now fuel k m last ((m.events.length : Int) - 1) ≠ .outOfRange) ∧
    (∀ k (m : manualClock) last e, Head now m last → m.events.getLast? = some e →
      (0 ≤ (m.events.length : Int) - 1 ∧ (last : Int) ≤ (m.events.length : Int) - 1) ∧
      evAt m.events ((m.events.length : Int) - 1) = some e ∧
      dropStopped (runOps (m.fire e) (react k (m.fire e))) e ((m.events.length : Int) - 1)
        ≠ none ∧
      last ≤ (tailStep react k m e).events.length ∧
      sortFrom srt (tailStep react k m e).key (tailStep react k m e).events last
        = some (resort srt (tailStep react k m e) last).events ∧
      scanLast (tailStep react k m e).key now (((tailStep react k m e).events.length : Int) - 1)
          ((resort srt (tailStep react k m e) last).events.drop last) last
        = some (newLast now (resort srt (tailStep react k m e) last) last) ∧
      (newLast now (resort srt (tailStep react k m e) last) last
          < (resort srt (tailStep react k m e) last).events.length →
        Head now (resort srt (tailStep react k m e) last)
          (newLast now (resort srt (tailStep react k m e) last) last)) ∧
      (((runOps (m.fire e) (react k (m.fire e))).heap e).stopped = true →
        (runOps (m.fire e) (react k (m.fire e))).newEvents = [] →
        (tailStep react k m e).events = m.events.dropLast ∧
        (tailStep react k m e).events.length = m.events.length - 1 ∧
        last ≤ m.events.length - 1)) := by
  refine ⟨⟨evAt_eq_none_iff, sliceTo_eq_none_iff, sortFrom_eq_none_iff srt,
    fun key first rest last => scanLast_eq_none_iff key now first rest last⟩,
    fun fuel mc => Set_safe srt react fuel mc now,
    fun mc _ hlt => head_of_resort srt now mc.merge 0 (Nat.zero_le _) rfl hlt,
    fun fuel k m last hH => Set.loop_safe srt react now fuel k m last hH, ?_⟩
  intro k m last e hH he
  have hlen := tailStep_length_ge react k m e
  have h1 := hH.1
  have hl4 : last ≤ (tailStep react k m e).events.length := by omega
  refine ⟨⟨by omega, by omega⟩, ?_, ?_, hl4, ?_, ?_, ?_, ?_⟩
  · unfold evAt
    have : ¬ ((m.events.length : Int) - 1 < 0) := by omega
    rw [if_neg this, ← he, List.getLast?_eq_getElem?]
    congr 1
    omega
  · unfold dropStopped
    split
    · have : sliceTo (runOps (m.fire e) (react k (m.fire e))).events
          ((m.events.length : Int) - 1) ≠ none := by
        rw [Ne, sliceTo_eq_none_iff, runOps_events, fire_events]
        omega
      cases hs : sliceTo (runOps (m.fire e) (react k (m.fire e))).events
          ((m.events.length : Int) - 1) with
      | none => exact absurd hs this
      | some evs => simp
    · simp
  · unfold sortFrom resort
    rw [if_pos hl4]
  · have hdl : ((resort srt (tailStep react k m e) last).events.drop last).length
        = (tailStep react k m e).events.length - last := by
      rw [List.length_drop, resort_length]
    rw [scanLast_eq (tailStep react k m e).key now _ last _ (by rw [hdl]; push_cast; omega)]
    rfl
  · intro hlt
    exact head_of_resort srt now _ last hl4 (tailStep_newEvents _ _ _ _) hlt
  · intro hs hn
    have hev : (tailStep react k m e).events = m.events.dropLast := by
      rw [tailStep_events, hs, hn]
      simp
    refine ⟨hev, ?_, by omega⟩
    rw [hev, List.length_dropLast]

/-- Instance of C22: `Set(1ms)` on `timerClock` enters the loop with `last = 0` and one record;
the timer is fired, cut off the tail, and nothing is merged: the list is empty,
`last = 0 ≤ len(events) = 0`, and `Set` ends without an access out of range. -/
theorem Set_index_safe_witness :
    (tailStep quiet 0 (resort insertionSorter timerClock.merge 0) 0).events = [] ∧
    newLast 1000 (resort insertionSorter timerClock.merge 0) 0
      ≤ (tailStep quiet 0 (resort insertionSorter timerClock.merge 0) 0).events.length ∧
    timerClock.Set insertionSorter quiet 10 1000 ≠ .outOfRange := by
  have hH : Head 1000 (resort insertionSorter timerClock.merge 0)
      (newLast 1000 (resort insertionSorter timerClock.merge 0) 0) :=
    ((Set_index_safe insertionSorter quiet 1000).2.2.1 timerClock (by decide) (by decide))
  obtain ⟨_, _, _, h4, _, _, _, h8⟩ := (Set_index_safe insertionSorter quiet 1000).2.2.2.2 0
    (resort insertionSorter timerClock.merge 0)
    (newLast 1000 (resort insertionSorter timerClock.merge 0) 0) 0 hH (by decide)
  exact ⟨(h8 (by decide) (by decide)).1.trans (by decide), h4,
    (Set_index_safe insertionSorter quiet 1000).2.1 10 timerClock⟩

/-- Intervals stay non-negative under an operation that makes no ticker with a negative
interval. -/
theorem applyOp_okTicker (mc : manualClock) (o : Op) (ho : o.okTicker)
    (hd : ∀ j, 0 ≤ (mc.heap j).d) : ∀ j, 0 ≤ ((applyOp mc o).heap j).d := by
  intro j
  cases o with
  | stop i =>
    simp only [applyOp]
    split
    · by_cases hji : j = i
      · subst hji; simpa [Timer.Stop] using hd j
      · simpa [Function.update_apply, hji] using hd j
    · exact hd j
  | recv i =>
    simp only [applyOp, manualClock.recv]
    split
    · by_cases hji : j = i
      · subst hji; simpa using hd j
      · simpa [Function.update_apply, hji] using hd j
    · exact hd j
  | reset i d =>
    simp only [applyOp]
    split
    · rw [(Reset_state mc i d).2.2.2.2.2.2.2 j]; exact hd j
    · exact hd j
  | newTimer d =>
    by_cases hj : j = mc.nalloc
    · subst hj; simp [applyOp, manualClock.NewTimer, manualClock.addEvent]
    · simpa [applyOp, manualClock.NewTimer, manualClock.addEvent, Function.update_apply, hj]
        using hd j
  | afterFunc d =>
    by_cases hj : j = mc.nalloc
    · subst hj
      simp [applyOp, manualClock.AfterFunc, manualClock.NewTimer, manualClock.addEvent]
    · simpa [applyOp, manualClock.AfterFunc, manualClock.NewTimer, manualClock.addEvent,
        Function.update_apply, hj] using hd j
  | newTicker d =>
    have hd0 : (0 : Int) ≤ d := ho
    by_cases hj : j = mc.nalloc
    · subst hj
      simpa [applyOp, manualClock.NewTicker, manualClock.addEvent] using hd0
    · simpa [applyOp, manualClock.NewTicker, manualClock.addEvent, Function.update_apply, hj]
        using hd j

theorem runOps_okTicker (os : List Op) : ∀ (mc : manualClock), (∀ o ∈ os, o.okTicker) →
    (∀ j, 0 ≤ (mc.heap j).d) → ∀ j, 0 ≤ ((runOps mc os).heap j).d := by
  induction os with
  | nil => intro mc _ hd; exact hd
  | cons o os ih =>
    intro mc ho hd
    exact ih _ (fun o' ho' => ho o' (List.mem_cons_of_mem _ ho'))
      (applyOp_okTicker mc o (ho o (List.mem_cons_self _ _)) hd)

theorem tailStep_okTicker (react : Reactor) (k : Nat) (m : manualClock) (e : Nat)
    (hok : react.okTicker) (hd : ∀ j, 0 ≤ (m.heap j).d) :
    ∀ j, 0 ≤ ((tailStep react k m e).heap j).d := by
  intro j
  rw [(tailStep_key_d react k m e j).2]
  exact runOps_okTicker _ _ (hok _ _) (fun j => by rw [fire_d]; exact hd j) j

theorem okTicker_shift {react : Reactor} (h : react.okTicker) (k0 : Nat) :
    (react.shift k0).okTicker := fun k mc o ho => h (k + k0) mc o ho

theorem passive_okTicker {react : Reactor} (hp : react.passive) : react.okTicker := by
  intro k mc o ho
  have := hp k mc o ho
  cases o <;> simp [Op.passive] at this <;> trivial

/-- With passive consumers and non-negative intervals the firing loop ends within as many
steps as the cost of the due slice, counted exactly. -/
theorem Set.loop_returns_le (srt : Sorter) (react : Reactor) (now : Time)
    (hp : react.passive) :
    ∀ (fuel k : Nat) (m : manualClock) (last : Nat), Head now m last →
      (∀ j, 0 ≤ (m.heap j).d) → dueCost now m.heap (m.events.drop last) ≤ fuel →
      ∃ mc', Set.loop srt react now fuel k m last ((m.events.length : Int) - 1) = .done mc' := by
  intro fuel
  induction fuel with
  | zero =>
    intro k m last hH _ hc
    obtain ⟨e, he⟩ := exists_getLast m.events (by have := hH.1; omega)
    have hpos := cost_pos now (m.heap e) (hH.tail_due he)
    have hsub : dueCost now m.heap [e] ≤ dueCost now m.heap (m.events.drop last) :=
      dueCost_sublist now m.heap _ _
        (List.singleton_sublist.2 (getLast_mem_drop _ _ _ hH.1 he))
    have h1 : dueCost now m.heap [e] = cost now (m.heap e) := by simp [dueCost]
    omega
  | succ fuel ih =>
    intro k m last hH hd hc
    obtain ⟨e, he⟩ := exists_getLast m.events (by have := hH.1; omega)
    rw [Set.loop_succ srt react now fuel k m last e hH.1 he]
    have hlen := tailStep_length_ge react k m e
    have hl4 : last ≤ (tailStep react k m e).events.length := by have := hH.1; omega
    split
    · exact ⟨_, rfl⟩
    · split
      · exact ⟨_, rfl⟩
      · split
        · exact ⟨_, rfl⟩
        · rename_i hx
          have h1 := dueCost_tailStep react k m last e now hp hH hd he
          have h2 := dueCost_newLast srt now (tailStep react k m e) last hl4
          refine ih _ _ _ (head_of_resort srt now _ last hl4 (tailStep_newEvents _ _ _ _)
            (by omega)) ?_ (by omega)
          exact (tailStep_cost react k m e now hp hH.2.2.2 hd (hH.tail_due he)).2.2.2

/-- With passive consumers and non-negative intervals an advance returns within as many firing
steps as the cost of the registry. -/
theorem Set_returns_le (srt : Sorter) (react : Reactor) (mc : manualClock) (now : Time)
    (hp : react.passive) (hd : ∀ j, 0 ≤ (mc.heap j).d) :
    ∃ mc', (∀ fuel, dueCost now mc.heap (mc.events ++ mc.newEvents) ≤ fuel →
      mc.Set srt react fuel now = .done mc') := by
  have hcost : dueCost now (resort srt mc.merge 0).heap
      ((resort srt mc.merge 0).events.drop (newLast now (resort srt mc.merge 0) 0))
      ≤ dueCost now mc.heap (mc.events ++ mc.newEvents) := by
    have := dueCost_newLast srt now mc.merge 0 (Nat.zero_le _)
    simpa [manualClock.merge] using this
  by_cases h1 : mc.merge.events = []
  · refine ⟨{ mc.merge with now := now }, fun fuel _ => ?_⟩
    rw [Set_eq, if_pos h1]; rfl
  · by_cases h2 : (resort srt mc.merge 0).events.length ≤ newLast now (resort srt mc.merge 0) 0
    · refine ⟨{ resort srt mc.merge 0 with now := now }, fun fuel _ => ?_⟩
      rw [Set_eq, if_neg h1, if_pos h2]; rfl
    · have hH := head_of_resort srt now mc.merge 0 (Nat.zero_le _) rfl (by omega)
      obtain ⟨r, hr⟩ := Set.loop_returns_le srt react now hp
        (dueCost now mc.heap (mc.events ++ mc.newEvents)) 0 _ _ hH hd hcost
      refine ⟨{ r with now := now }, fun fuel hf => ?_⟩
      rw [Set_eq, if_neg h1, if_neg h2,
        Set.loop_fuel srt react now _ 0 _ _ r hH hr fuel hf]
      rfl

/-- When the consumers make no ticker with a negative interval and are passive from step
`k + K` on, the firing loop entered at step `k` returns. -/
theorem Set.loop_returns_finite (srt : Sorter) (react : Reactor) (now : Time)
    (hok : react.okTicker) :
    ∀ (K k : Nat) (m : manualClock) (last : Nat), Head now m last →
      (∀ j, 0 ≤ (m.heap j).d) → (react.shift (k + K)).passive →
      ∃ fuel mc',
        Set.loop srt react now fuel k m last ((m.events.length : Int) - 1) = .done mc' := by
  intro K
  induction K with
  | zero =>
    intro k m last hH hd hp
    obtain ⟨r, hr⟩ := Set.loop_returns srt (react.shift k) now hp
      (dueCost now m.heap (m.events.drop last) + 1) 0 m last hH hd (by omega)
    refine ⟨dueCost now m.heap (m.events.drop last) + 1, r, ?_⟩
    have := Set.loop_shift srt react now k (dueCost now m.heap (m.events.drop last) + 1) 0
      m last ((m.events.length : Int) - 1)
    rw [Nat.zero_add] at this
    rw [this]
    exact hr
  | succ K ih =>
    intro k m last hH hd hp
    obtain ⟨e, he⟩ := exists_getLast m.events (by have := hH.1; omega)
    have hlen := tailStep_length_ge react k m e
    have hl4 : last ≤ (tailStep react k m e).events.length := by have := hH.1; omega
    have hA : ¬ After (m.key e) now = true := by simp [After]; exact hH.tail_due he
    by_cases hnil : (tailStep react k m e).events = []
    · refine ⟨1, tailStep react k m e, ?_⟩
      rw [Set.loop_succ srt react now 0 k m last e hH.1 he, if_neg hA, if_pos hnil]
    · by_cases hx : (resort srt (tailStep react k m e) last).events.length
            ≤ newLast now (resort srt (tailStep react k m e) last) last
      · refine ⟨1, resort srt (tailStep react k m e) last, ?_⟩
        rw [Set.loop_succ srt react now 0 k m last e hH.1 he, if_neg hA, if_neg hnil,
          if_pos hx]
      · have hH2 := head_of_resort srt now _ last hl4 (tailStep_newEvents react k m e)
          (by omega)
        have hp2 : (react.shift (k + 1 + K)).passive := by
          have : k + 1 + K = k + (K + 1) := by omega
          rw [this]; exact hp
        obtain ⟨f, r, hr⟩ := ih (k + 1) (resort srt (tailStep react k m e) last) _ hH2
          (tailStep_okTicker react k m e hok hd) hp2
        refine ⟨f + 1, r, ?_⟩
        rw [Set.loop_succ srt react now f k m last e hH.1 he, if_neg hA, if_neg hnil,
          if_neg hx]
        exact hr

/-- An advance returns when the consumers make no ticker with a negative interval and create
or reset records in finitely many steps only. -/
theorem Set_returns_finite (srt : Sorter) (react : Reactor) (mc : manualClock) (now : Time)
    (K : Nat) (hok : react.okTicker) (hp : (react.shift K).passive)
    (hd : ∀ j, 0 ≤ (mc.heap j).d) :
    ∃ fuel mc', mc.Set srt react fuel now = .done mc' := by
  by_cases h1 : mc.merge.events = []
  · refine ⟨0, { mc.merge with now := now }, ?_⟩
    rw [Set_eq, if_pos h1]; rfl
  · by_cases h2 : (resort srt mc.merge 0).events.length ≤ newLast now (resort srt mc.merge 0) 0
    · refine ⟨0, { resort srt mc.merge 0 with now := now }, ?_⟩
      rw [Set_eq, if_neg h1, if_pos h2]; rfl
    · have hH := head_of_resort srt now mc.merge 0 (Nat.zero_le _) rfl (by omega)
      obtain ⟨f, r, hr⟩ := Set.loop_returns_finite srt react now hok K 0 _ _ hH hd
        (by rw [Nat.zero_add]; exact hp)
      refine ⟨f, { r with now := now }, ?_⟩
      rw [Set_eq, if_neg h1, if_neg h2, hr]
      rfl

/-- A tracked ticker with a negative interval that is due, not stopped, and left alone by the
consumers keeps an advance from ever returning. -/
theorem Set_never_returns (srt : Sorter) (react : Reactor) (mc : manualClock) (now : Time)
    (i : Nat) (hi : i < mc.nalloc) (htr : i ∈ mc.events ++ mc.newEvents)
    (hns : (mc.heap i).stopped = false) (hneg : (mc.heap i).d < 0)
    (hdue : (mc.heap i).next ≤ now) (hl : react.leaves i) :
    ∀ fuel, mc.Set srt react fuel now = .timeout := by
  intro fuel
  have hnd : ∀ mc', mc.Set srt react fuel now ≠ .done mc' := by
    intro mc' h
    obtain ⟨m, hm, _⟩ := Set_phase srt react now i
      (fun m => i < m.nalloc ∧ (m.heap i).stopped = false ∧ (m.heap i).d < 0 ∧
        (m.heap i).next ≤ now)
      (fun _ => False) mc
      (fun m last hP => hP) (fun m last hP => hP)
      (fun m hA => hA.2.2.2)
      (Or.inl ⟨⟨hi, hns, hneg, hdue⟩, htr⟩)
      (by
        intro k m last e hH hA hmem he
        obtain ⟨a1, a2, a3, a4⟩ := hA
        right
        by_cases hie : i = e
        · subst hie
          obtain ⟨f1, _⟩ := fire_active m i a2
          obtain ⟨p1, _, _, _, p5⟩ := play_active (m.heap i) (m.key i) a2
          obtain ⟨p6, p7⟩ := p5 (ne_of_lt a3)
          have hnc := runOps_noChan (react k (m.fire i)) (m.fire i) i (by simpa using a1)
            (hl _ _)
          have hf := noChan_fields hnc
          rw [f1] at hf
          have hst : ((runOps (m.fire i) (react k (m.fire i))).heap i).stopped = false := by
            rw [hf.2.2.2.1, p6]
          have hheap : (tailStep react k m i).heap i
              = (runOps (m.fire i) (react k (m.fire i))).heap i := by
            rw [tailStep_heap_self, hst]; simp
          refine ⟨⟨lt_of_lt_of_le a1 (tailStep_nalloc_le _ _ _ _), ?_, ?_, ?_⟩,
            mem_drop_tailStep_self react k m last i he hH.1 hst⟩
          · rw [hheap, hst]
          · rw [hheap, hf.2.1, p1]; exact a3
          · rw [hheap, hf.1, p7]
            have hk : m.key i = (m.heap i).next := rfl
            rw [hk]
            have a3' : (m.heap i).d < (0 : Int) := a3
            have a4' : (m.heap i).next ≤ (now : Int) := a4
            show ((m.heap i).next + (m.heap i).d : Int) ≤ now
            linarith
        · obtain ⟨t1, _, _⟩ := tailStep_other react k m e i hie a1 hl
          have hf := noChan_fields t1
          exact ⟨⟨lt_of_lt_of_le a1 (tailStep_nalloc_le _ _ _ _),
            by rw [hf.2.2.2.1]; exact a2, by rw [hf.2.1]; exact a3, by rw [hf.1]; exact a4⟩,
            mem_drop_tailStep_ne react k m last e i he hmem hie⟩)
      (fun _ _ _ _ _ hB _ => hB) fuel mc' h
    exact hm
  have hsafe := Set_safe srt react fuel mc now
  cases hs : mc.Set srt react fuel now with
  | done m => exact absurd hs (hnd m)
  | outOfRange => exact absurd hs hsafe
  | timeout => rfl

theorem chainReactor_okTicker : chainReactor.okTicker := by
  intro k mc o ho
  simp only [chainReactor] at ho
  split at ho
  · simp at ho; subst ho; trivial
  · split at ho
    · simp at ho; subst ho; trivial
    · split at ho
      · simp at ho; subst ho; trivial
      · cases ho

theorem chainReactor_passive : (chainReactor.shift 3).passive := by
  intro k mc o ho
  have h0 : ¬ (k + 3 = 0) := by omega
  have h1 : ¬ (k + 3 = 1) := by omega
  have h2 : ¬ (k + 3 = 2) := by omega
  simp [Reactor.shift, chainReactor, h1, h2] at ho

/-- C21: termination of the advance.  Fuel counts firing steps: each iteration of the firing
loop uses one unit.  First part: when no record has a negative interval and the consumers
create and reset nothing, `Set(target)` returns within as many firing steps as the sum of
`cost` over the tracked records.  Second part, what `cost` is: nothing for a record that is not
due, one step for a due record that is stopped or one-shot, and
`floor((target - next) / interval) + 1` steps for a due ticker.  Third part: `Set(target)`
returns as well when the consumers create or reset records during finitely many steps only
(they are passive from some step `K` on) and make no ticker with a negative interval.  Fourth
part: a registry with a tracked ticker of negative interval that is due at or before the
target and not stopped, which the consumers neither stop nor reset: `Set(target)` does not
return, however many steps it is given. -/
theorem Set_terminates (srt : Sorter) (now : Time) :
    (∀ (react : Reactor) (mc : manualClock), react.passive → (∀ j, 0 ≤ (mc.heap j).d) →
      ∃ mc', ∀ fuel, dueCost now mc.heap (mc.events ++ mc.newEvents) ≤ fuel →
        mc.Set srt react fuel now = .done mc') ∧
    (∀ e : event, (now < e.next → cost now e = 0) ∧
      (e.next ≤ now → (e.stopped = true ∨ e.d = 0) → cost now e = 1) ∧
      (e.next ≤ now → e.stopped = false → 0 < e.d →
        cost now e = ((now - e.next) / e.d).toNat + 1)) ∧
    (∀ (react : Reactor) (mc : manualClock) (K : Nat), react.okTicker →
      (react.shift K).passive → (∀ j, 0 ≤ (mc.heap j).d) →
      ∃ fuel mc', mc.Set srt react fuel now = .done mc') ∧
    (∀ (react : Reactor) (mc : manualClock) (i : Nat), i < mc.nalloc →
      i ∈ mc.events ++ mc.newEvents → (mc.heap i).stopped = false → (mc.heap i).d < 0 →
      (mc.heap i).next ≤ now → react.leaves i →
      ∀ fuel, mc.Set srt react fuel now = .timeout) := by
  refine ⟨fun react mc hp hd => Set_returns_le srt react mc now hp hd, fun e => ⟨?_, ?_, ?_⟩,
    fun react mc K hok hp hd => Set_returns_finite srt react mc now K hok hp hd,
    fun react mc i hi htr hns hneg hdue hl =>
      Set_never_returns srt react mc now i hi htr hns hneg hdue hl⟩
  · intro h
    unfold cost
    rw [if_pos h]
  · intro h hs
    unfold cost
    rw [if_neg (not_lt.2 h), if_pos hs]
  · intro h hs hd
    unfold cost
    rw [if_neg (not_lt.2 h), if_neg (by simp [hs, ne_of_gt hd])]

/-- Instance of C21: the 5 ms ticker of `tickerClock` costs two steps up to 12, and `Set(12)`
returns with fuel 2; `Add(500ms)` on `chainClock`, whose consumer creates and resets records in
its first three steps, returns; and `Set(0)` on `negClock`, whose ticker made by
`NewTicker(-5)` is due at -5, never returns. -/
theorem Set_terminates_witness :
    (∃ mc', tickerClock.Set insertionSorter (drain 0) 2 12 = .done mc') ∧
    cost 12 (tickerClock.heap 0) = 2 ∧
    (∃ fuel mc', chainClock.Set insertionSorter chainReactor fuel 500 = .done mc') ∧
    (∀ fuel, negClock.Set insertionSorter quiet fuel 0 = .timeout) := by
  refine ⟨?_, ?_, ?_, ?_⟩
  · obtain ⟨mc', h⟩ := (Set_terminates insertionSorter 12).1 (drain 0) tickerClock
      (drain_passive 0) tickerClock_d_nonneg
    exact ⟨mc', h 2 (by decide)⟩
  · exact ((Set_terminates insertionSorter 12).2.1 (tickerClock.heap 0)).2.2
      (by decide) (by decide) (by decide)
  · exact (Set_terminates insertionSorter 500).2.2.1 chainReactor chainClock 3
      chainReactor_okTicker chainReactor_passive
      (applyOp_okTicker (manualClock.fresh 0) (.newTimer 1) trivial (fresh_d_nonneg 0))
  · exact (Set_terminates insertionSorter 0).2.2.2 quiet negClock 0 (by decide) (by decide)
      (by decide) (by decide) (by decide) (quiet_leaves 0)

/-! ## Claim C6: the clock at a firing step -/

/-- The firing loop entered at step `k` uses the reactions of the steps from `k` on only. -/
theorem Set.loop_congr (srt : Sorter) (react react' : Reactor) (now : Time) (fuel k : Nat)
    (mc : manualClock) (last : Nat) (first : Int)
    (h : ∀ j, react' (j + k) = react (j + k)) :
    Set.loop srt react' now fuel k mc last first = Set.loop srt react now fuel k mc last first := by
  have h1 := Set.loop_shift srt react now k fuel 0 mc last first
  have h2 := Set.loop_shift srt react' now k fuel 0 mc last first
  rw [Nat.zero_add] at h1 h2
  have hs : react'.shift k = react.shift k := by
    funext j s
    show react' (j + k) s = react (j + k) s
    rw [h j]
  rw [h1, h2, hs]

/-- At a firing step the loop asks the consumers to react in one state only, the one left by
`fire`: two behaviours that agree there, and at the other steps, give the same run. -/
theorem Set.loop_step_congr (srt : Sorter) (react react' : Reactor) (now : Time)
    (fuel k : Nat) (m : manualClock) (last e : Nat) (hH : Head now m last)
    (he : m.events.getLast? = some e) (hs : react' k (m.fire e) = react k (m.fire e))
    (ho : ∀ k', k' ≠ k → react' k' = react k') :
    Set.loop srt react' now fuel k m last ((m.events.length : Int) - 1)
      = Set.loop srt react now fuel k m last ((m.events.length : Int) - 1) := by
  cases fuel with
  | zero => rfl
  | succ fuel =>
    have hT : tailStep react' k m e = tailStep react k m e := by
      unfold tailStep
      simp only [hs]
    rw [Set.loop_succ srt react' now fuel k m last e hH.1 he,
      Set.loop_succ srt react now fuel k m last e hH.1 he, hT,
      Set.loop_congr srt react react' now fuel (k + 1) _ _ _
        (fun j => ho (j + (k + 1)) (by omega))]

/-- A full channel keeps its value when the record is played. -/
theorem play_full (e : event) (t old : Time) (hfn : e.fn = false) (hc : e.c = some old) :
    (e.play t).c = some old ∧ (e.play t).fn = false := by
  unfold event.play
  cases hs : e.stopped <;> by_cases hd : e.d = 0 <;> simp [event.Stopped, hs, hfn, hc, hd]

/-- The channel of a due record with an empty channel, which the consumers leave alone and do
not receive from, holds the scheduled time of the record after the advance. -/
theorem Set_chan (srt : Sorter) (react : Reactor) (fuel : Nat) (mc mc' : manualClock)
    (now : Time) (i : Nat) (hi : i < mc.nalloc) (htr : i ∈ mc.events ++ mc.newEvents)
    (hns : (mc.heap i).stopped = false) (hdue : (mc.heap i).next ≤ now)
    (hfn : (mc.heap i).fn = false) (hc : (mc.heap i).c = none)
    (hl : react.leaves i) (hnr : react.noRecv i)
    (h : mc.Set srt react fuel now = .done mc') :
    (mc'.heap i).c = some (mc.heap i).next := by
  obtain ⟨m, hm, rfl⟩ := Set_phase srt react now i
    (fun m => i < m.nalloc ∧ m.heap i = mc.heap i)
    (fun m => i < m.nalloc ∧ (m.heap i).c = some (mc.heap i).next ∧ (m.heap i).fn = false) mc
    (fun m last hP => hP) (fun m last hP => hP)
    (fun m hA => by
      have : m.key i = (mc.heap i).next := by
        show (m.heap i).next = _
        rw [hA.2]
      rw [this]; exact hdue)
    (Or.inl ⟨⟨hi, rfl⟩, htr⟩)
    (by
      intro k m last e hH hA hmem he
      obtain ⟨h1, h2⟩ := hA
      by_cases hie : i = e
      · subst hie
        left
        have hact : (m.heap i).stopped = false := by rw [h2]; exact hns
        obtain ⟨a1, _⟩ := fire_active m i hact
        obtain ⟨_, p2, _, _, _⟩ := play_active (m.heap i) (m.key i) hact
        have hch := play_chan (m.heap i) (m.key i) hact (by rw [h2]; exact hfn)
          (by rw [h2]; exact hc)
        have hsame := runOps_heap_same (react k (m.fire i)) (m.fire i) i (by simpa using h1)
          (hl _ _) (hnr _ _)
        have hk : m.key i = (mc.heap i).next := by
          show (m.heap i).next = _
          rw [h2]
        refine ⟨lt_of_lt_of_le h1 (tailStep_nalloc_le _ _ _ _), ?_, ?_⟩
        · rw [tailStep_heap_self, hsame, a1]
          split
          · show ((m.heap i).play (m.key i)).c = _
            rw [hch, hk]
          · rw [hch, hk]
        · rw [tailStep_heap_self, hsame, a1]
          split
          · show ((m.heap i).play (m.key i)).fn = _
            rw [p2, h2]; exact hfn
          · rw [p2, h2]; exact hfn
      · right
        obtain ⟨_, _, t3⟩ := tailStep_other react k m e i hie h1 hl
        exact ⟨⟨lt_of_lt_of_le h1 (tailStep_nalloc_le _ _ _ _), (t3 hnr).trans h2⟩,
          mem_drop_tailStep_ne react k m last e i he hmem hie⟩)
    (by
      intro k m last e hH hB he
      obtain ⟨h1, h2, h3⟩ := hB
      refine ⟨lt_of_lt_of_le h1 (tailStep_nalloc_le _ _ _ _), ?_⟩
      by_cases hie : i = e
      · subst hie
        have hsame := runOps_heap_same (react k (m.fire i)) (m.fire i) i (by simpa using h1)
          (hl _ _) (hnr _ _)
        have hfire : ((m.fire i).heap i).c = some (mc.heap i).next ∧
            ((m.fire i).heap i).fn = false := by
          cases hs : (m.heap i).stopped with
          | true => rw [(fire_stopped m i hs).1]; exact ⟨h2, h3⟩
          | false =>
            rw [(fire_active m i hs).1]
            exact play_full (m.heap i) (m.key i) _ h3 h2
        rw [tailStep_heap_self, hsame]
        split
        · exact hfire
        · exact hfire
      · obtain ⟨_, _, t3⟩ := tailStep_other react k m e i hie h1 hl
        rw [t3 hnr]
        exact ⟨h2, h3⟩)
    fuel mc' h
  exact hm.2.1

/-- The firing loop only appends to the log. -/
theorem Set.loop_log (srt : Sorter) (react : Reactor) (now : Time) (fuel k : Nat)
    (mc : manualClock) (last : Nat) (mc' : manualClock) (hH : Head now mc last)
    (h : Set.loop srt react now fuel k mc last ((mc.events.length : Int) - 1) = .done mc') :
    ∃ more, mc'.log = mc.log ++ more := by
  refine Set.loop_inv srt react now (fun m => ∃ more, m.log = mc.log ++ more)
    (fun m last hP => hP) ?_ fuel k mc last mc' hH ⟨[], by simp⟩ h
  intro k m last e _ hP _
  obtain ⟨more, hm⟩ := hP
  rw [tailStep_log]
  cases hs : (m.heap e).stopped with
  | true => exact ⟨more, by rw [(fire_stopped m e hs).2, hm]⟩
  | false => exact ⟨more ++ [delivered e (m.key e)], by
      rw [(fire_active m e hs).2, hm, List.append_assoc]⟩

/-- C6: when a record is fired the clock has been set to its scheduled time, not to the target.
First part, every firing step of `Set`'s loop, entered with tail record `e` due at
`(m.heap e).next`: that time is not after the target, and there is one state `s` in which the
consumers are asked to react at this step (two behaviours that agree on `s` and at the other
steps give the same run); in `s` the clock reads the scheduled time of `e`, and keeps that
reading whatever the consumers do in reaction; when `e` is not stopped the log of `s` ends with
the delivery of `e` whose timestamp and clock reading are both that time, and an empty channel
of `e` holds that time; the log of the run starts with the log of `s`.  Second part, a whole
`Set`: it runs this loop from the sorted registry; a tracked record that is due, not stopped and
left alone by the consumers is delivered stamped with its scheduled time, the clock reading that
time, and its channel, when empty before and not received from, holds that time afterwards;
every delivery made has a clock reading equal to its timestamp, not after the target.  With
passive consumers `Set` does return. -/
theorem fired_at_scheduled_time (srt : Sorter) (react : Reactor) (now : Time) :
    (∀ (k : Nat) (m : manualClock) (last e : Nat), Head now m last →
      m.events.getLast? = some e →
      (m.heap e).next ≤ now ∧
      ∃ s : manualClock,
        s.Now = (m.heap e).next ∧
        (∀ ops, (runOps s ops).Now = (m.heap e).next) ∧
        ((m.heap e).stopped = false →
          s.log = m.log ++ [delivered e (m.heap e).next] ∧
          ((m.heap e).fn = false → (m.heap e).c = none →
            (s.heap e).c = some (m.heap e).next)) ∧
        (∀ (react' : Reactor) (fuel : Nat), react' k s = react k s →
          (∀ k', k' ≠ k → react' k' = react k') →
          Set.loop srt react' now fuel k m last ((m.events.length : Int) - 1)
            = Set.loop srt react now fuel k m last ((m.events.length : Int) - 1)) ∧
        (∀ (fuel : Nat) (mc' : manualClock),
          Set.loop srt react now fuel k m last ((m.events.length : Int) - 1) = .done mc' →
          ∃ more, mc'.log = s.log ++ more)) ∧
    (∀ mc : manualClock,
      newLast now (resort srt mc.merge 0) 0 < (resort srt mc.merge 0).events.length →
      Head now (resort srt mc.merge 0) (newLast now (resort srt mc.merge 0) 0) ∧
      ∀ fuel, mc.Set srt react fuel now
        = setNow now (Set.loop srt react now fuel 0 (resort srt mc.merge 0)
            (newLast now (resort srt mc.merge 0) 0)
            (((resort srt mc.merge 0).events.length : Int) - 1))) ∧
    (∀ (mc : manualClock) (i : Nat) (fuel : Nat) (mc' : manualClock), i < mc.nalloc →
      i ∈ mc.events ++ mc.newEvents → (mc.heap i).stopped = false → (mc.heap i).next ≤ now →
      react.leaves i → mc.Set srt react fuel now = .done mc' →
      (∃ rest, firedOf i mc'.log
        = firedOf i mc.log ++ delivered i (mc.heap i).next :: rest) ∧
      ((mc.heap i).fn = false → (mc.heap i).c = none → react.noRecv i →
        (mc'.heap i).c = some (mc.heap i).next)) ∧
    (∀ (mc : manualClock) (fuel : Nat) (mc' : manualClock),
      mc.Set srt react fuel now = .done mc' →
      ∃ added, mc'.log = mc.log ++ added ∧ ∀ x ∈ added, x.clock = x.stamp ∧ x.stamp ≤ now) ∧
    (react.passive → ∀ mc : manualClock, (∀ j, 0 ≤ (mc.heap j).d) →
      ∃ fuel mc', mc.Set srt react fuel now = .done mc') := by
  refine ⟨?_, ?_, ?_, fun mc fuel mc' h => Set_log_stamps srt react fuel mc mc' now h, ?_⟩
  · intro k m last e hH he
    refine ⟨hH.tail_due he, m.fire e, fire_now m e,
      fun ops => (runOps_now _ ops).trans (fire_now m e), fun hs => ?_,
      fun react' fuel h1 h2 => Set.loop_step_congr srt react react' now fuel k m last e hH he
        h1 h2, fun fuel mc' h => ?_⟩
    · obtain ⟨f1, f2⟩ := fire_active m e hs
      refine ⟨f2, fun hfn hc => ?_⟩
      rw [f1]
      exact play_chan _ _ hs hfn hc
    · rcases Set.loop_step srt react now fuel k m last e mc' hH he h with
        ⟨_, rfl⟩ | ⟨_, _, rfl⟩ | ⟨_, hH2, hloop⟩
      · exact ⟨[], by rw [tailStep_log]; simp⟩
      · exact ⟨[], by rw [resort_log, tailStep_log]; simp⟩
      · obtain ⟨more, hm⟩ := Set.loop_log srt (react.shift (k + 1)) now _ _ _ _ mc' hH2 hloop
        exact ⟨more, by rw [hm, resort_log, tailStep_log]⟩
  · intro mc hlt
    have hne : mc.merge.events ≠ [] := by
      intro hnil
      have := resort_length srt mc.merge 0
      rw [hnil] at this
      simp at this
      rw [this] at hlt
      simp at hlt
    refine ⟨head_of_resort srt now mc.merge 0 (Nat.zero_le _) rfl hlt, fun fuel => ?_⟩
    rw [Set_eq, if_neg hne, if_neg (by omega)]
  · intro mc i fuel mc' hi htr hns hdue hl h
    obtain ⟨_, rest, h1, _⟩ := Set_due srt react fuel mc mc' now i hi htr hns hdue hl h
    exact ⟨⟨rest, h1⟩, fun hfn hc hnr =>
      Set_chan srt react fuel mc mc' now i hi htr hns hdue hfn hc hl hnr h⟩
  · intro hp mc hd
    obtain ⟨mc', h⟩ := Set_returns srt react mc now hp hd
    exact ⟨_, mc', h _ (Nat.lt_succ_self _)⟩

/-- Instance of C6: `Set(12)` on the clock with the 5 ms ticker.  At the first firing step the
consumers react in a state whose clock reads 5, not 12, whose log is the delivery of the ticker
stamped 5 and whose channel holds 5; the log of the run starts with that delivery; the deliveries
of the ticker made by `Set(12)` start with the one stamped 5, and the channel holds 5 at the
end. -/
theorem fired_at_scheduled_time_witness :
    (∃ s : manualClock, s.Now = 5 ∧ s.log = [delivered 0 5] ∧ (s.heap 0).c = some 5 ∧
      ∀ fuel mc', Set.loop insertionSorter quiet 12 fuel 0
          (resort insertionSorter tickerClock.merge 0)
          (newLast 12 (resort insertionSorter tickerClock.merge 0) 0)
          (((resort insertionSorter tickerClock.merge 0).events.length : Int) - 1)
          = .done mc' →
        ∃ more, mc'.log = s.log ++ more) ∧
    (∃ rest, firedOf 0 (Outcome.getD (tickerClock.Set insertionSorter quiet 10 12)
      tickerClock).log = delivered 0 5 :: rest) ∧
    ((Outcome.getD (tickerClock.Set insertionSorter quiet 10 12) tickerClock).heap 0).c
      = some 5 := by
  obtain ⟨hH, _⟩ := (fired_at_scheduled_time insertionSorter quiet 12).2.1 tickerClock
    (by decide)
  obtain ⟨_, s, h1, _, h3, _, h5⟩ := (fired_at_scheduled_time insertionSorter quiet 12).1 0
    (resort insertionSorter tickerClock.merge 0)
    (newLast 12 (resort insertionSorter tickerClock.merge 0) 0) 0 hH (by decide)
  obtain ⟨h3a, h3b⟩ := h3 (by decide)
  have e5 : ((resort insertionSorter tickerClock.merge 0).heap 0).next = 5 := by decide
  have e0 : (resort insertionSorter tickerClock.merge 0).log = [] := by decide
  rw [e5] at h1 h3a h3b
  rw [e0] at h3a
  obtain ⟨⟨rest, h6⟩, h7⟩ := (fired_at_scheduled_time insertionSorter quiet 12).2.2.1
    tickerClock 0 10 _ (by decide) (by decide) (by decide) (by decide) (quiet_leaves 0)
    (Outcome.done_getD _ tickerClock _ rfl)
  exact ⟨⟨s, h1, h3a, h3b (by decide) (by decide), h5⟩, ⟨rest, h6⟩,
    h7 (by decide) (by decide) (quiet_noRecv 0)⟩

end Clocks
